import Mathlib

/-!
Dynamic arrays over raw storage: `Vector` with `RawMemory` (advanced_vector/vector.h) and
`SimpleVector` with `ArrayPtr` (simple_vector/simple_vector.h, array_ptr.h).

Shallow embedding.  A block of storage is a list of slots and a pointer into a block is a
slot index.  For `Vector` a slot is `Option T`: `none` is raw (unconstructed) memory,
`some x` a live object of value `x`.  For `SimpleVector` every slot holds an object.

The element type is a parameter (`Elem T`): which of its operations throw, on which
operands, and what a moved-from object holds.  A copy or move that completes gives the new
object the value of its source; an element operation that throws leaves its operands as
they were; destructors do not throw.  A `Vector` call returns an `Outcome`: the container
afterwards, the value returned or the exception that left the call, and the contents of
the block its local `RawMemory` released.  `SimpleVector` has no exception handling; its
model covers calls in which no element operation throws.

Reading a raw slot and writing outside a block are undefined behaviour in the source; the
model leaves the storage as it is there.

Allocation.  `size_t` has 64 bits.  Where the number of slots is the caller's argument
(`Reserve`, `Resize`, `Vector(size)`, `SimpleVector::Reserve`) the request is modelled as
the source makes it: `RawMemory::Allocate` multiplies by `sizeof(T)` without a check, so
the byte count wraps, and `operator new` throws `std::bad_alloc` for the requests the
element parameter names (`new_throws`).  Where a call grows a block it owns (`Emplace`,
`PushBack`, `Insert`, the copy constructors) it asks for at most twice the slots of a
live block, and the request is granted.

A reference parameter of a `SimpleVector` call is an `Arg`: an object outside the array,
or a slot of the array the vector owns; the call reads it when the source does, and the
result is `none` when the object has been deleted by then (undefined behaviour).

Two objects are told apart by a flag where the source compares addresses (`this == &rhs`,
`&lhs == &rhs`).  The comparison operators of the element type are a parameter (`Cmp T`).
The `assert`s a `Vector` call evaluates are listed by separate functions that follow the
control flow of the call.

The first part takes a container by value (its members and the contents of its block).
The second part (`Store`, `Obj`) puts containers into a free store, the pointer member
being an address, so that what a call on one object leaves of another can be stated.
-/

namespace advanced_vector

/-- Exceptions, split by whether a `catch (const std::exception&)` handler sees them:
`std d` is an object of a class derived from `std::exception` (`d = 0`: the base class
itself), `other t` is anything else. -/
inductive Exn where
  | std (derived : Nat)
  | other (tag : Nat)
  deriving DecidableEq, Repr

/-- Whether a `catch (const std::exception&)` clause matches. -/
def Exn.isStd : Exn → Bool
  | .std _ => true
  | .other _ => false

/-- What leaves a `catch (const std::exception& e) { ...; throw e; }` clause: `throw e`
copies the static type, so a caught exception is rethrown as plain `std::exception`;
an exception the clause does not match passes through. -/
def Exn.sliced : Exn → Exn
  | .std _ => .std 0
  | .other t => .other t

/-- `std::bad_alloc`, the exception of a failed `operator new` (a class derived from
`std::exception`). -/
def Exn.bad_alloc : Exn := .std 2

/-- The element type `T` as the container sees it, and the free store its storage comes
from. -/
structure Elem (T : Type) where
  /-- `T()`. -/
  value_init : Except Exn T
  /-- `T(const T&)` throws on this source. -/
  copy_ctor_throws : T → Option Exn
  /-- `T(T&&)` throws on this source (ignored when the move constructor is `noexcept`). -/
  move_ctor_throws : T → Option Exn
  /-- State left in the source of a move construction. -/
  moved_from : T → T
  /-- `dst = std::move(src)` throws; arguments are `dst`, `src`. -/
  move_assign_throws : T → T → Option Exn
  /-- State left in the source of `dst = std::move(src)`; arguments are `dst`, `src`. -/
  assigned_from : T → T → T
  /-- `dst = src` throws; arguments are `dst`, `src`. -/
  copy_assign_throws : T → T → Option Exn
  /-- `std::is_nothrow_move_constructible_v<T>`. -/
  nothrow_move_constructible : Bool
  /-- `std::is_copy_constructible_v<T>`. -/
  copy_constructible : Bool
  /-- `sizeof(T)`, in bytes. -/
  sizeof : Nat
  /-- An object occupies at least one byte. -/
  sizeof_pos : 0 < sizeof
  /-- `operator new(bytes)` throws `std::bad_alloc` for a request of this many bytes. -/
  new_throws : Nat → Bool

variable {T : Type}

/-- `T(const T&)`: the new object. -/
def Elem.copyCtor (E : Elem T) (x : T) : Except Exn T :=
  match E.copy_ctor_throws x with
  | some e => .error e
  | none => .ok x

/-- `T(T&&)`: the new object and the state left in the source. -/
def Elem.moveCtor (E : Elem T) (x : T) : Except Exn (T × T) :=
  if E.nothrow_move_constructible then .ok (x, E.moved_from x)
  else
    match E.move_ctor_throws x with
    | some e => .error e
    | none => .ok (x, E.moved_from x)

/-- `dst = std::move(src)`: the new `dst` and the state left in `src`. -/
def Elem.moveAssign (E : Elem T) (dst src : T) : Except Exn (T × T) :=
  match E.move_assign_throws dst src with
  | some e => .error e
  | none => .ok (src, E.assigned_from dst src)

/-- `dst = src`: the new `dst`. -/
def Elem.copyAssign (E : Elem T) (dst src : T) : Except Exn T :=
  match E.copy_assign_throws dst src with
  | some e => .error e
  | none => .ok src

/-- A block of storage: slot `i` is raw (`none`) or holds a live object. -/
abbrev Buf (T : Type) := List (Option T)

/-- The object in slot `i`, if the slot is inside the block and constructed. -/
def getSlot (b : Buf T) (i : Nat) : Option T := (b[i]?).join

/-- Placement construction `new (p + i) T(x)` with the value already built. -/
def construct_at (b : Buf T) (i : Nat) (x : T) : Buf T := b.set i (some x)

/-- `std::destroy_at(p + i)`. -/
def destroy_at (b : Buf T) (i : Nat) : Buf T := b.set i none

/-- `std::destroy_n(p + first, n)`. -/
def destroy_n (b : Buf T) (first : Nat) : Nat → Buf T
  | 0 => b
  | n + 1 => destroy_n (destroy_at b first) (first + 1) n

/-- The live objects in slots `[first, first + n)`. -/
def readRange (b : Buf T) (first n : Nat) : List T := ((b.drop first).take n).reduceOption

/-- Overwrite the slots from `first` on with `vals`; what would land past the end of the
block is not written. -/
def writeRange (b : Buf T) (first : Nat) (vals : Buf T) : Buf T :=
  (b.take first ++ vals ++ b.drop (first + vals.length)).take b.length

/-- `std::uninitialized_copy_n` over the source values: the values constructed, or the
exception (everything constructed so far is destroyed again by the algorithm). -/
def uninitialized_copy_n (E : Elem T) : List T → Except Exn (List T)
  | [] => .ok []
  | x :: xs =>
    match E.copyCtor x with
    | .error e => .error e
    | .ok y =>
      match uninitialized_copy_n E xs with
      | .error e => .error e
      | .ok ys => .ok (y :: ys)

/-- `std::uninitialized_move_n` over the source values: the states left in the sources,
and the values constructed or the exception (everything constructed so far is destroyed
again by the algorithm; sources already moved from stay moved from). -/
def uninitialized_move_n (E : Elem T) : List T → List T × Except Exn (List T)
  | [] => ([], .ok [])
  | x :: xs =>
    match E.moveCtor x with
    | .error e => (x :: xs, .error e)
    | .ok (y, r) =>
      match uninitialized_move_n E xs with
      | (rs, .error e) => (r :: rs, .error e)
      | (rs, .ok ys) => (r :: rs, .ok (y :: ys))

/-- `std::uninitialized_value_construct_n(p + first, n)`. -/
def uninitialized_value_construct_n (E : Elem T) (b : Buf T) (first n : Nat) :
    Buf T × Except Exn Unit :=
  if n = 0 then (b, .ok ())
  else
    match E.value_init with
    | .error e => (b, .error e)
    | .ok d => (writeRange b first (List.replicate n (some d)), .ok ())

/-- Placement move construction `new (p + dst) T(std::move(p[src]))`. -/
def move_construct_at (E : Elem T) (b : Buf T) (dst src : Nat) : Buf T × Except Exn Unit :=
  match getSlot b src with
  | some s =>
    match E.moveCtor s with
    | .error e => (b, .error e)
    | .ok (y, r) => (construct_at (b.set src (some r)) dst y, .ok ())
  | none => (b, .ok ())

/-- Move assignment from a local object: `p[dst] = std::move(t)`. -/
def move_assign_from (E : Elem T) (b : Buf T) (dst : Nat) (t : T) : Buf T × Except Exn Unit :=
  match getSlot b dst with
  | some d =>
    match E.moveAssign d t with
    | .error e => (b, .error e)
    | .ok (d', _) => (b.set dst (some d'), .ok ())
  | none => (b, .ok ())

/-- One step of a move-assigning loop: `p[dst] = std::move(p[src])`. -/
def move_assign_at (E : Elem T) (b : Buf T) (dst src : Nat) : Buf T × Except Exn Unit :=
  match getSlot b dst, getSlot b src with
  | some d, some s =>
    match E.moveAssign d s with
    | .error e => (b, .error e)
    | .ok (d', s') => ((b.set src (some s')).set dst (some d'), .ok ())
  | _, _ => (b, .ok ())

/-- `std::move(p + first, p + first + n, p + d_first)`: front to back. -/
def move_range (E : Elem T) (b : Buf T) (first d_first : Nat) : Nat → Buf T × Except Exn Unit
  | 0 => (b, .ok ())
  | n + 1 =>
    match move_assign_at E b d_first first with
    | (b', .error e) => (b', .error e)
    | (b', .ok ()) => move_range E b' (first + 1) (d_first + 1) n

/-- `std::move_backward(p + last - n, p + last, p + d_last)`: back to front. -/
def move_backward (E : Elem T) (b : Buf T) (last d_last : Nat) : Nat → Buf T × Except Exn Unit
  | 0 => (b, .ok ())
  | n + 1 =>
    match move_assign_at E b (d_last - 1) (last - 1) with
    | (b', .error e) => (b', .error e)
    | (b', .ok ()) => move_backward E b' (last - 1) (d_last - 1) n

/-- Storage for `capacity_` objects of type `T`; `buffer_ = none` is the null pointer. -/
structure RawMemory (T : Type) where
  buffer_ : Option (Buf T) := none
  capacity_ : Nat := 0
  deriving DecidableEq

/-- `RawMemory::Allocate(n)`: the pointer returned, or the exception.  The byte count
`n * sizeof(T)` is computed in `size_t` (64 bits) with no check, so it wraps; `operator new`
then throws `std::bad_alloc` or returns a block of that many bytes, which has room for
`bytes / sizeof(T)` objects. -/
def RawMemory.Allocate (E : Elem T) (n : Nat) : Except Exn (Option (Buf T)) :=
  if n ≠ 0 then
    let bytes := n * E.sizeof % 2 ^ 64
    if E.new_throws bytes then .error Exn.bad_alloc
    else .ok (some (List.replicate (bytes / E.sizeof) none))
  else .ok none

/-- `RawMemory(size_t capacity)`: the new object, or the exception that left the
constructor.  `capacity_` is the count asked for, whatever the room in the block. -/
def RawMemory.ofCapacity (E : Elem T) (capacity : Nat) : Except Exn (RawMemory T) :=
  match RawMemory.Allocate E capacity with
  | .error e => .error e
  | .ok buffer => .ok { buffer_ := buffer, capacity_ := capacity }

/-- `RawMemory(capacity)` for a request that is granted in full (the byte count does not
wrap and `operator new` returns): a block of `capacity` raw slots.  This is what
`Emplace` and the copy constructor construct; they ask for at most twice the slots of a
block that is live. -/
def RawMemory.granted (capacity : Nat) : RawMemory T :=
  { buffer_ := if capacity ≠ 0 then some (List.replicate capacity none) else none,
    capacity_ := capacity }

/-- `RawMemory::Capacity`. -/
def RawMemory.Capacity (m : RawMemory T) : Nat := m.capacity_

/-- The slots `GetAddress()` points at (none behind the null pointer). -/
def RawMemory.slots (m : RawMemory T) : Buf T := m.buffer_.getD []

/-- The same block with new slot contents (nothing to write behind the null pointer). -/
def RawMemory.withSlots (m : RawMemory T) (b : Buf T) : RawMemory T :=
  { m with buffer_ := m.buffer_.map fun _ => b }

/-- `RawMemory::Swap`. -/
def RawMemory.Swap (a b : RawMemory T) : RawMemory T × RawMemory T := (b, a)

/-- `Vector<T>`. -/
structure Vector (T : Type) where
  data_ : RawMemory T := {}
  size_ : Nat := 0
  deriving DecidableEq

/-- `Vector()`. -/
def Vector.empty : Vector T := {}

/-- `Vector::Size`. -/
def Vector.Size (v : Vector T) : Nat := v.size_

/-- `Vector::Capacity`. -/
def Vector.Capacity (v : Vector T) : Nat := v.data_.Capacity

/-- The live elements, read from index 0. -/
def Vector.live (v : Vector T) : List T := readRange v.data_.slots 0 v.size_

/-- What a call leaves behind: the container, the value returned or the exception that
left the call, and the contents of the block that the call's local `RawMemory` handed to
`operator delete` (`[]` when there was none); `~RawMemory` runs no destructor, so a
`some` in `freed` is an object that was never destroyed. -/
structure Outcome (T α : Type) where
  vec : Vector T
  result : Except Exn α
  freed : Buf T

/-- `Vector::UninitializedMoveOrCopy(from_ + first, n, to_ + d_first)`: the source block,
the destination block, and whether the transfer threw. -/
def UninitializedMoveOrCopy (E : Elem T) (from_ : Buf T) (first n : Nat) (to_ : Buf T)
    (d_first : Nat) : Buf T × Buf T × Except Exn Unit :=
  if E.nothrow_move_constructible || !E.copy_constructible then
    match uninitialized_move_n E (readRange from_ first n) with
    | (rs, .error e) => (writeRange from_ first (rs.map some), to_, .error e)
    | (rs, .ok ys) =>
      (writeRange from_ first (rs.map some), writeRange to_ d_first (ys.map some), .ok ())
  else
    match uninitialized_copy_n E (readRange from_ first n) with
    | .error e => (from_, to_, .error e)
    | .ok ys => (from_, writeRange to_ d_first (ys.map some), .ok ())

/-- `Vector::Reserve`. -/
def Vector.Reserve (E : Elem T) (v : Vector T) (new_capacity : Nat) : Outcome T Unit :=
  if new_capacity ≤ v.Capacity then ⟨v, .ok (), []⟩
  else
    match RawMemory.ofCapacity E new_capacity with
    | .error e => ⟨v, .error e, []⟩
    | .ok new_data =>
      match UninitializedMoveOrCopy E v.data_.slots 0 v.size_ new_data.slots 0 with
      | (old1, new1, .error e) =>
        ⟨{ v with data_ := v.data_.withSlots old1 }, .error e, new1⟩
      | (old1, new1, .ok ()) =>
        let old2 := destroy_n old1 0 v.size_
        let swapped := RawMemory.Swap (v.data_.withSlots old2) (new_data.withSlots new1)
        ⟨{ v with data_ := swapped.1 }, .ok (), swapped.2.slots⟩

/-- `Vector::Resize`. -/
def Vector.Resize (E : Elem T) (v : Vector T) (new_size : Nat) : Outcome T Unit :=
  if new_size = v.size_ then ⟨v, .ok (), []⟩
  else if new_size < v.size_ then
    ⟨{ data_ := v.data_.withSlots (destroy_n v.data_.slots new_size (v.size_ - new_size)),
       size_ := new_size }, .ok (), []⟩
  else
    match v.Reserve E new_size with
    | ⟨v1, .error e, f⟩ => ⟨v1, .error e, f⟩
    | ⟨v1, .ok (), f⟩ =>
      match uninitialized_value_construct_n E v1.data_.slots v1.size_ (new_size - v1.size_) with
      | (b, .error e) => ⟨{ v1 with data_ := v1.data_.withSlots b }, .error e, f⟩
      | (b, .ok ()) => ⟨{ data_ := v1.data_.withSlots b, size_ := new_size }, .ok (), f⟩

/-- `Vector::PopBack`. -/
def Vector.PopBack (v : Vector T) : Vector T :=
  { data_ := v.data_.withSlots (destroy_at v.data_.slots (v.size_ - 1)), size_ := v.size_ - 1 }

/-- The reallocating branch of `Vector::Emplace` (`size_ == Capacity()`), from the
construction of the new element on. -/
def Vector.EmplaceRealloc (E : Elem T) (v : Vector T) (before : Nat) (newElem : Except Exn T) :
    Outcome T Nat :=
  let new_capacity := if v.size_ = 0 then 1 else v.size_ * 2
  let new_data : RawMemory T := RawMemory.granted new_capacity
  match newElem with
  | .error e => ⟨v, .error e, new_data.slots⟩
  | .ok x =>
    let new0 := construct_at new_data.slots before x
    match UninitializedMoveOrCopy E v.data_.slots 0 before new0 0 with
    | (old1, new1, .error e) =>
      ⟨{ v with data_ := v.data_.withSlots old1 }, .error e, destroy_at new1 before⟩
    | (old1, new1, .ok ()) =>
      let suffix : Buf T × Buf T × Except Exn Unit :=
        if before ≠ v.size_ then
          UninitializedMoveOrCopy E old1 before (v.size_ - before) new1 (before + 1)
        else (old1, new1, .ok ())
      match suffix with
      | (old2, new2, .error e) =>
        ⟨{ v with data_ := v.data_.withSlots old2 }, .error e, destroy_n new2 0 (before + 1)⟩
      | (old2, new2, .ok ()) =>
        let old3 := destroy_n old2 0 v.size_
        let swapped := RawMemory.Swap (v.data_.withSlots old3) (new_data.withSlots new2)
        ⟨{ data_ := swapped.1, size_ := v.size_ + 1 }, .ok before, swapped.2.slots⟩

/-- The branch of `Vector::Emplace` that inserts before `end()` into spare capacity. -/
def Vector.EmplaceShift (E : Elem T) (v : Vector T) (before : Nat) (newElem : Except Exn T) :
    Outcome T Nat :=
  match newElem with
  | .error e => ⟨v, .error e, []⟩
  | .ok t =>
    match move_construct_at E v.data_.slots v.size_ (v.size_ - 1) with
    | (b1, .error e) => ⟨{ v with data_ := v.data_.withSlots b1 }, .error e.sliced, []⟩
    | (b1, .ok ()) =>
      match move_backward E b1 (v.size_ - 1) v.size_ (v.size_ - 1 - before) with
      | (b2, .error e) =>
        if e.isStd then
          ⟨{ v with data_ := v.data_.withSlots (destroy_at b2 v.size_) }, .error e.sliced, []⟩
        else ⟨{ v with data_ := v.data_.withSlots b2 }, .error e, []⟩
      | (b2, .ok ()) =>
        match move_assign_from E b2 before t with
        | (b3, .ok ()) =>
          ⟨{ data_ := v.data_.withSlots b3, size_ := v.size_ + 1 }, .ok before, []⟩
        | (b3, .error e) =>
          if e.isStd then
            match move_range E b3 (before + 1) before (v.size_ - (before + 1)) with
            | (b4, .error e2) => ⟨{ v with data_ := v.data_.withSlots b4 }, .error e2, []⟩
            | (b4, .ok ()) =>
              ⟨{ v with data_ := v.data_.withSlots (destroy_at b4 v.size_) },
                .error e.sliced, []⟩
          else ⟨{ v with data_ := v.data_.withSlots b3 }, .error e, []⟩

/-- `Vector::Emplace(begin() + before, args...)`; `newElem` is what evaluating
`T(std::forward<Args>(args)...)` gives (every path evaluates it exactly once). -/
def Vector.Emplace (E : Elem T) (v : Vector T) (before : Nat) (newElem : Except Exn T) :
    Outcome T Nat :=
  if v.size_ = v.Capacity then v.EmplaceRealloc E before newElem
  else if before = v.size_ then
    match newElem with
    | .error e => ⟨v, .error e.sliced, []⟩
    | .ok x =>
      ⟨{ data_ := v.data_.withSlots (construct_at v.data_.slots v.size_ x),
         size_ := v.size_ + 1 }, .ok before, []⟩
  else v.EmplaceShift E before newElem

/-- `Vector::EmplaceBack`. -/
def Vector.EmplaceBack (E : Elem T) (v : Vector T) (newElem : Except Exn T) : Outcome T Nat :=
  v.Emplace E v.size_ newElem

/-- `Vector::PushBack(const T&)`. -/
def Vector.PushBack (E : Elem T) (v : Vector T) (value : T) : Outcome T Unit :=
  let o := v.EmplaceBack E (E.copyCtor value)
  ⟨o.vec, o.result.map fun _ => (), o.freed⟩

/-- `Vector::PushBack(T&&)`. -/
def Vector.PushBackMove (E : Elem T) (v : Vector T) (value : T) : Outcome T Unit :=
  let o := v.EmplaceBack E ((E.moveCtor value).map Prod.fst)
  ⟨o.vec, o.result.map fun _ => (), o.freed⟩

/-- `Vector::Insert(pos, const T&)`. -/
def Vector.Insert (E : Elem T) (v : Vector T) (pos : Nat) (value : T) : Outcome T Nat :=
  v.Emplace E pos (E.copyCtor value)

/-- `Vector::Insert(pos, T&&)`. -/
def Vector.InsertMove (E : Elem T) (v : Vector T) (pos : Nat) (value : T) : Outcome T Nat :=
  v.Emplace E pos ((E.moveCtor value).map Prod.fst)

/-- `Vector::Erase(begin() + pos)`. -/
def Vector.Erase (E : Elem T) (v : Vector T) (pos : Nat) : Outcome T Nat :=
  match move_range E v.data_.slots (pos + 1) pos (v.size_ - (pos + 1)) with
  | (b, .error e) => ⟨{ v with data_ := v.data_.withSlots b }, .error e, []⟩
  | (b, .ok ()) =>
    ⟨{ data_ := v.data_.withSlots (destroy_at b (v.size_ - 1)), size_ := v.size_ - 1 },
      .ok pos, []⟩

/-- The representation invariant with the live elements named: `v` holds exactly `xs` in
its first slots, the remaining slots up to the capacity are raw, and a block of capacity 0
is the null pointer. -/
def Vector.Holds (v : Vector T) (xs : List T) : Prop :=
  v.size_ = xs.length ∧ xs.length ≤ v.data_.capacity_ ∧
  v.data_.slots = xs.map some ++ List.replicate (v.data_.capacity_ - xs.length) none ∧
  (v.data_.capacity_ = 0 → v.data_.buffer_ = none)

/-- The representation invariant of `Vector`: slots `[0, size_)` are live, slots
`[size_, capacity_)` are raw, `size_ ≤ capacity_`. -/
def Vector.WF (v : Vector T) : Prop := v.Holds v.live

instance [DecidableEq T] (v : Vector T) (xs : List T) : Decidable (v.Holds xs) :=
  inferInstanceAs (Decidable (v.size_ = xs.length ∧ xs.length ≤ v.data_.capacity_ ∧
    v.data_.slots = xs.map some ++ List.replicate (v.data_.capacity_ - xs.length) none ∧
    (v.data_.capacity_ = 0 → v.data_.buffer_ = none)))

instance [DecidableEq T] (v : Vector T) : Decidable v.WF :=
  inferInstanceAs (Decidable (v.Holds v.live))

/-- An element type none of whose operations throws. -/
def Elem.NoThrow (E : Elem T) : Prop :=
  (∀ x, E.copy_ctor_throws x = none) ∧ (∀ x, E.move_ctor_throws x = none) ∧
  (∀ d s, E.move_assign_throws d s = none) ∧ (∀ d s, E.copy_assign_throws d s = none) ∧
  ∃ d, E.value_init = .ok d

/-! ### Concrete element types and vectors used as test inputs -/

/-- An `int`-like element type: nothing throws, a move is a copy. -/
def intElem : Elem Nat where
  value_init := .ok 0
  copy_ctor_throws := fun _ => none
  move_ctor_throws := fun _ => none
  moved_from := fun x => x
  move_assign_throws := fun _ _ => none
  assigned_from := fun _ s => s
  copy_assign_throws := fun _ _ => none
  nothrow_move_constructible := true
  copy_constructible := true
  sizeof := 4
  sizeof_pos := by decide
  new_throws := fun bytes => decide (2 ^ 47 ≤ bytes)

/-- An `int` wrapper whose move assignment throws `std::runtime_error` (tag 1) when the
source holds 9; its moves copy and its move constructor is `noexcept`. -/
def assignThrowsElem : Elem Nat where
  value_init := .ok 0
  copy_ctor_throws := fun _ => none
  move_ctor_throws := fun _ => none
  moved_from := fun x => x
  move_assign_throws := fun _ s => if s = 9 then some (.std 1) else none
  assigned_from := fun _ s => s
  copy_assign_throws := fun _ _ => none
  nothrow_move_constructible := true
  copy_constructible := true
  sizeof := 4
  sizeof_pos := by decide
  new_throws := fun bytes => decide (2 ^ 47 ≤ bytes)

/-- A move-only element type whose move constructor may throw: moving from an object
holding 9 throws `std::runtime_error` (tag 1); a moved-from object holds 0. -/
def moveOnlyElem : Elem Nat where
  value_init := .ok 0
  copy_ctor_throws := fun _ => none
  move_ctor_throws := fun x => if x = 9 then some (.std 1) else none
  moved_from := fun _ => 0
  move_assign_throws := fun _ _ => none
  assigned_from := fun _ _ => 0
  copy_assign_throws := fun _ _ => none
  nothrow_move_constructible := false
  copy_constructible := false
  sizeof := 4
  sizeof_pos := by decide
  new_throws := fun bytes => decide (2 ^ 47 ≤ bytes)

/-- A copyable element type with a throwing move constructor: copying or moving from an
object holding 9 throws `std::runtime_error` (tag 1); a moved-from object holds 0. -/
def copyThrowsElem : Elem Nat where
  value_init := .ok 0
  copy_ctor_throws := fun x => if x = 9 then some (.std 1) else none
  move_ctor_throws := fun x => if x = 9 then some (.std 1) else none
  moved_from := fun _ => 0
  move_assign_throws := fun _ _ => none
  assigned_from := fun _ _ => 0
  copy_assign_throws := fun _ _ => none
  nothrow_move_constructible := false
  copy_constructible := true
  sizeof := 4
  sizeof_pos := by decide
  new_throws := fun bytes => decide (2 ^ 47 ≤ bytes)

/-- A vector holding the given values in a block of the given capacity. -/
def vecOf (xs : List Nat) (capacity : Nat) : Vector Nat :=
  { data_ := { buffer_ := if capacity = 0 then none
                 else some (xs.map some ++ List.replicate (capacity - xs.length) none),
               capacity_ := capacity },
    size_ := xs.length }

end advanced_vector

namespace simple_vector

/-- The element type `Type` as `SimpleVector` sees it, and the free store.  `SimpleVector`
has no exception handling of its own; the model covers calls in which no element operation
throws. -/
structure Elem (T : Type) where
  /-- `Type()`. -/
  value_init : T
  /-- What an element of `new Type[n]` holds (indeterminate for scalar types). -/
  default_init : T
  /-- State left in the source of `dst = std::move(src)`; arguments are `dst`, `src`. -/
  assigned_from : T → T → T
  /-- `new Type[n]` throws for this `n`: `std::bad_alloc`, or `std::bad_array_new_length`
  (derived from it) when the byte count does not fit in `size_t`. -/
  new_throws : Nat → Bool

/-- The exception of a failed `new Type[n]`. -/
inductive AllocError where
  | bad_alloc
  deriving DecidableEq, Repr

/-- What a reference parameter (`const Type&` or `Type&&`) designates: an object that is
not in the vector's array, holding `x`, or slot `i` of the array the vector owns when the
call starts. -/
inductive Arg (T : Type) where
  | outside (x : T)
  | slot (i : Nat)

variable {T : Type}

/-- `ArrayPtr<Type>`: `raw_ptr_ = none` is the null pointer, `some l` an array of
`l.length` constructed elements. -/
structure ArrayPtr (T : Type) where
  raw_ptr_ : Option (List T) := none

/-- `ArrayPtr(size_t size)`, for a `new Type[size]` that returns. -/
def ArrayPtr.ofSize (E : Elem T) (size : Nat) : ArrayPtr T :=
  { raw_ptr_ := if size = 0 then none else some (List.replicate size E.default_init) }

/-- The array `Get()` points at (nothing behind the null pointer). -/
def ArrayPtr.Get (a : ArrayPtr T) : List T := a.raw_ptr_.getD []

/-- The same array with new contents (nothing to write behind the null pointer). -/
def ArrayPtr.withItems (a : ArrayPtr T) (l : List T) : ArrayPtr T :=
  { raw_ptr_ := a.raw_ptr_.map fun _ => l }

/-- `ArrayPtr::swap(ArrayPtr&)`. -/
def ArrayPtr.swap (a b : ArrayPtr T) : ArrayPtr T × ArrayPtr T := (b, a)

/-- One step of a move-assigning loop inside one array: `p[dst] = std::move(p[src])`. -/
def move_assign_at (E : Elem T) (b : List T) (dst src : Nat) : List T :=
  match b[dst]?, b[src]? with
  | some d, some s => (b.set src (E.assigned_from d s)).set dst s
  | _, _ => b

/-- `std::move(p + first, p + first + n, p + d_first)` inside one array: front to back. -/
def move_range (E : Elem T) (b : List T) (first d_first : Nat) : Nat → List T
  | 0 => b
  | n + 1 => move_range E (move_assign_at E b d_first first) (first + 1) (d_first + 1) n

/-- `std::move_backward(p + last - n, p + last, p + d_last)` inside one array: back to
front. -/
def move_backward (E : Elem T) (b : List T) (last d_last : Nat) : Nat → List T
  | 0 => b
  | n + 1 => move_backward E (move_assign_at E b (d_last - 1) (last - 1)) (last - 1) (d_last - 1) n

/-- `std::move(src + first, src + first + n, dst + d_first)` into another array: the
destination afterwards (the callers release the source array right after). -/
def move_into (src : List T) (first n : Nat) (dst : List T) (d_first : Nat) : List T :=
  let vals := (src.drop first).take n
  dst.take d_first ++ vals ++ dst.drop (d_first + vals.length)

/-- The source array after `std::move(src + first, src + first + n, d)` into slots of a
freshly allocated array: each object moved from is left in its moved-from state. -/
def move_out (E : Elem T) (src : List T) (first n : Nat) : List T :=
  src.take first ++ ((src.drop first).take n).map (E.assigned_from E.default_init) ++
    src.drop (first + n)

/-- The value read through a reference parameter while the array it may point into holds
`home` (`none`: that array has been deleted).  `none`: there is no object to read, the
behaviour is undefined. -/
def Arg.read (item : Arg T) (home : Option (List T)) : Option T :=
  match item with
  | .outside x => some x
  | .slot i => home.bind fun l => l[i]?

/-- `dst[d] = item`: the array written to afterwards; `home` is the array `item` may point
into.  `none`: undefined behaviour. -/
def copy_assign_from (dst : List T) (d : Nat) (item : Arg T) (home : Option (List T)) :
    Option (List T) :=
  (item.read home).map fun x => dst.set d x

/-- `a[d] = std::move(item)` where a `slot` designates an element of `a` itself: the array
afterwards.  `none`: undefined behaviour. -/
def move_assign_from_own (E : Elem T) (a : List T) (d : Nat) (item : Arg T) : Option (List T) :=
  match item with
  | .outside x => some (a.set d x)
  | .slot i =>
    match a[i]? with
    | some _ => some (move_assign_at E a d i)
    | none => none

/-- `dst[d] = std::move(item)` where a `slot` designates an element of the array `old`:
`dst` and `old` afterwards.  `none`: undefined behaviour. -/
def move_assign_from_old (E : Elem T) (dst : List T) (d : Nat) (item : Arg T) (old : List T) :
    Option (List T × List T) :=
  match item with
  | .outside x => some (dst.set d x, old)
  | .slot i =>
    match dst[d]?, old[i]? with
    | some t, some s => some (dst.set d s, old.set i (E.assigned_from t s))
    | _, _ => none

/-- `std::fill(p + first, p + first + n, value)`, also the loop `p[i] = value` over
`[first, first + n)`. -/
def fill (b : List T) (first : Nat) (value : T) : Nat → List T
  | 0 => b
  | n + 1 => fill (b.set first value) (first + 1) value n

/-- `std::copy(src.begin(), src.end(), dst + d_first)` into another array. -/
def copy_into (src : List T) (dst : List T) (d_first : Nat) : List T :=
  dst.take d_first ++ src ++ dst.drop (d_first + src.length)

/-- `SimpleVector<Type>`. -/
structure SimpleVector (T : Type) where
  size_ : Nat := 0
  capacity_ : Nat := 0
  items_ : ArrayPtr T := {}

/-- `SimpleVector()`. -/
def SimpleVector.empty : SimpleVector T := {}

/-- `SimpleVector(size_t size, const Type& value)`. -/
def SimpleVector.ofSizeValue (E : Elem T) (size : Nat) (value : T) : SimpleVector T :=
  let items : ArrayPtr T := ArrayPtr.ofSize E size
  { size_ := size, capacity_ := size, items_ := items.withItems (fill items.Get 0 value size) }

/-- `SimpleVector(size_t size)`. -/
def SimpleVector.ofSize (E : Elem T) (size : Nat) : SimpleVector T :=
  SimpleVector.ofSizeValue E size E.value_init

/-- `SimpleVector(ReserveProxyObj)`. -/
def SimpleVector.ofReserve (E : Elem T) (capacity_to_reserve : Nat) : SimpleVector T :=
  { size_ := 0, capacity_ := capacity_to_reserve, items_ := ArrayPtr.ofSize E capacity_to_reserve }

/-- `SimpleVector(std::initializer_list<Type>)`. -/
def SimpleVector.ofList (E : Elem T) (init : List T) : SimpleVector T :=
  let items : ArrayPtr T := ArrayPtr.ofSize E init.length
  { size_ := init.length, capacity_ := init.length,
    items_ := items.withItems (copy_into init items.Get 0) }

/-- `SimpleVector::GetSize`. -/
def SimpleVector.GetSize (v : SimpleVector T) : Nat := v.size_

/-- `SimpleVector::GetCapacity`. -/
def SimpleVector.GetCapacity (v : SimpleVector T) : Nat := v.capacity_

/-- The live elements, read from index 0. -/
def SimpleVector.live (v : SimpleVector T) : List T := v.items_.Get.take v.size_

/-- The container `PushBack` leaves when the value read through `item` is `x`, for an
`item` that can be read when the source reads it (see `PushBack_outside`). -/
def SimpleVector.pushed (E : Elem T) (v : SimpleVector T) (item : T) : SimpleVector T :=
  let v1 : SimpleVector T :=
    if v.size_ = v.capacity_ then
      let new_capacity := max 1 (v.capacity_ * 2)
      let new_items : ArrayPtr T := ArrayPtr.ofSize E new_capacity
      let moved := new_items.withItems (move_into v.items_.Get 0 v.size_ new_items.Get 0)
      { v with items_ := (ArrayPtr.swap v.items_ moved).1, capacity_ := new_capacity }
    else v
  { v1 with items_ := v1.items_.withItems (v1.items_.Get.set v1.size_ item),
            size_ := v1.size_ + 1 }

/-- `SimpleVector::PushBack(const Type& item)`.  In the growing branch the old array is
deleted when `new_items`, which owns it after the swap, goes out of scope; `item` is read
after that.  `none`: undefined behaviour. -/
def SimpleVector.PushBack (E : Elem T) (v : SimpleVector T) (item : Arg T) :
    Option (SimpleVector T) :=
  if v.size_ = v.capacity_ then
    let new_capacity := max 1 (v.capacity_ * 2)
    let new_items : ArrayPtr T := ArrayPtr.ofSize E new_capacity
    let moved := new_items.withItems (move_into v.items_.Get 0 v.size_ new_items.Get 0)
    let v1 : SimpleVector T :=
      { v with items_ := (ArrayPtr.swap v.items_ moved).1, capacity_ := new_capacity }
    (copy_assign_from v1.items_.Get v1.size_ item none).map fun l =>
      { v1 with items_ := v1.items_.withItems l, size_ := v1.size_ + 1 }
  else
    (copy_assign_from v.items_.Get v.size_ item (some v.items_.Get)).map fun l =>
      { v with items_ := v.items_.withItems l, size_ := v.size_ + 1 }

/-- `SimpleVector::PushBack(Type&& item)`.  `none`: undefined behaviour. -/
def SimpleVector.PushBackMove (E : Elem T) (v : SimpleVector T) (item : Arg T) :
    Option (SimpleVector T) :=
  if v.size_ = v.capacity_ then
    let new_capacity := max 1 (v.capacity_ * 2)
    let new_items : ArrayPtr T := ArrayPtr.ofSize E new_capacity
    let moved := new_items.withItems (move_into v.items_.Get 0 v.size_ new_items.Get 0)
    let v1 : SimpleVector T :=
      { v with items_ := (ArrayPtr.swap v.items_ moved).1, capacity_ := new_capacity }
    (copy_assign_from v1.items_.Get v1.size_ item none).map fun l =>
      { v1 with items_ := v1.items_.withItems l, size_ := v1.size_ + 1 }
  else
    (move_assign_from_own E v.items_.Get v.size_ item).map fun l =>
      { v with items_ := v.items_.withItems l, size_ := v.size_ + 1 }

/-- The container and iterator index `Insert` leaves when the value read through `value`
is `x`, for a `value` that is not an element of the array (see `Insert_outside`). -/
def SimpleVector.inserted (E : Elem T) (v : SimpleVector T) (insert_index : Nat) (value : T) :
    SimpleVector T × Nat :=
  let v1 : SimpleVector T :=
    if v.size_ < v.capacity_ then
      let shifted := move_backward E v.items_.Get v.size_ (v.size_ + 1) (v.size_ - insert_index)
      { v with items_ := v.items_.withItems (shifted.set insert_index value) }
    else
      let new_capacity := max 1 (v.capacity_ * 2)
      let new_items : ArrayPtr T := ArrayPtr.ofSize E new_capacity
      let n1 := move_into v.items_.Get 0 insert_index new_items.Get 0
      let n2 := n1.set insert_index value
      let n3 := move_into v.items_.Get insert_index (v.size_ - insert_index) n2 (insert_index + 1)
      { v with items_ := (ArrayPtr.swap v.items_ (new_items.withItems n3)).1,
               capacity_ := new_capacity }
  ({ v1 with size_ := v1.size_ + 1 }, insert_index)

/-- `SimpleVector::Insert(begin() + insert_index, const Type& value)`: the container and
the index the returned iterator points at.  `value` is read after the elements from
`insert_index` on were shifted (in place), or after the elements before `insert_index`
were moved out (reallocating).  `none`: undefined behaviour. -/
def SimpleVector.Insert (E : Elem T) (v : SimpleVector T) (insert_index : Nat) (value : Arg T) :
    Option (SimpleVector T × Nat) :=
  if v.size_ < v.capacity_ then
    let shifted := move_backward E v.items_.Get v.size_ (v.size_ + 1) (v.size_ - insert_index)
    (copy_assign_from shifted insert_index value (some shifted)).map fun l =>
      ({ v with items_ := v.items_.withItems l, size_ := v.size_ + 1 }, insert_index)
  else
    let new_capacity := max 1 (v.capacity_ * 2)
    let new_items : ArrayPtr T := ArrayPtr.ofSize E new_capacity
    let n1 := move_into v.items_.Get 0 insert_index new_items.Get 0
    let old1 := move_out E v.items_.Get 0 insert_index
    (copy_assign_from n1 insert_index value (some old1)).map fun n2 =>
      let n3 := move_into old1 insert_index (v.size_ - insert_index) n2 (insert_index + 1)
      ({ v with items_ := (ArrayPtr.swap v.items_ (new_items.withItems n3)).1,
                capacity_ := new_capacity, size_ := v.size_ + 1 }, insert_index)

/-- `SimpleVector::Insert(begin() + insert_index, Type&& value)`.  `none`: undefined
behaviour. -/
def SimpleVector.InsertMove (E : Elem T) (v : SimpleVector T) (insert_index : Nat)
    (value : Arg T) : Option (SimpleVector T × Nat) :=
  if v.size_ < v.capacity_ then
    let shifted := move_backward E v.items_.Get v.size_ (v.size_ + 1) (v.size_ - insert_index)
    (move_assign_from_own E shifted insert_index value).map fun l =>
      ({ v with items_ := v.items_.withItems l, size_ := v.size_ + 1 }, insert_index)
  else
    let new_capacity := max 1 (v.capacity_ * 2)
    let new_items : ArrayPtr T := ArrayPtr.ofSize E new_capacity
    let n1 := move_into v.items_.Get 0 insert_index new_items.Get 0
    let old1 := move_out E v.items_.Get 0 insert_index
    (move_assign_from_old E n1 insert_index value old1).map fun r =>
      let n3 := move_into r.2 insert_index (v.size_ - insert_index) r.1 (insert_index + 1)
      ({ v with items_ := (ArrayPtr.swap v.items_ (new_items.withItems n3)).1,
                capacity_ := new_capacity, size_ := v.size_ + 1 }, insert_index)

/-- `SimpleVector::PopBack`. -/
def SimpleVector.PopBack (v : SimpleVector T) : SimpleVector T :=
  { v with size_ := v.size_ - 1 }

/-- `SimpleVector::Erase(begin() + pos)`; returns the container and the index the returned
iterator points at. -/
def SimpleVector.Erase (E : Elem T) (v : SimpleVector T) (pos : Nat) : SimpleVector T × Nat :=
  let moved := move_range E v.items_.Get (pos + 1) pos (v.size_ - (pos + 1))
  ({ v with items_ := v.items_.withItems moved, size_ := v.size_ - 1 }, pos)

/-- `SimpleVector::Reserve`: the container afterwards, and whether the call returned or
`new Type[new_capacity]` threw (it is the first thing the growing branch does). -/
def SimpleVector.Reserve (E : Elem T) (v : SimpleVector T) (new_capacity : Nat) :
    SimpleVector T × Except AllocError Unit :=
  if new_capacity > v.capacity_ then
    if E.new_throws new_capacity then (v, .error .bad_alloc)
    else
      let new_items : ArrayPtr T := ArrayPtr.ofSize E new_capacity
      let moved := new_items.withItems (move_into v.items_.Get 0 v.size_ new_items.Get 0)
      ({ v with capacity_ := new_capacity, items_ := (ArrayPtr.swap v.items_ moved).1 }, .ok ())
  else (v, .ok ())

/-- `SimpleVector::Clear`. -/
def SimpleVector.Clear (v : SimpleVector T) : SimpleVector T := { v with size_ := 0 }

/-- `SimpleVector::Resize`. -/
def SimpleVector.Resize (E : Elem T) (v : SimpleVector T) (new_size : Nat) : SimpleVector T :=
  if new_size ≤ v.size_ then { v with size_ := new_size }
  else if new_size ≤ v.capacity_ then
    let v1 : SimpleVector T := { v with size_ := new_size }
    { v1 with items_ :=
        v1.items_.withItems (fill v1.items_.Get v1.size_ E.value_init (new_size - v1.size_)) }
  else
    let new_items : SimpleVector T := SimpleVector.ofSize E (max new_size (v.capacity_ * 2))
    let moved := move_into v.items_.Get 0 v.size_ new_items.items_.Get 0
    let filled := fill moved v.size_ E.value_init (new_items.size_ - v.size_)
    { items_ := (ArrayPtr.swap v.items_ (new_items.items_.withItems filled)).1,
      size_ := new_size, capacity_ := new_items.GetCapacity }

/-- The representation invariant of `SimpleVector`: `size_ ≤ capacity_`, and the array
has at least `capacity_` elements. -/
def SimpleVector.WF (v : SimpleVector T) : Prop :=
  v.size_ ≤ v.capacity_ ∧ v.capacity_ ≤ v.items_.Get.length

instance (v : SimpleVector T) : Decidable v.WF :=
  inferInstanceAs (Decidable (v.size_ ≤ v.capacity_ ∧ v.capacity_ ≤ v.items_.Get.length))

/-- An `int`-like element type: `Type()` is 0, a move is a copy; the elements of
`new Type[n]` are taken to hold 0. -/
def intElem : Elem Nat :=
  { value_init := 0, default_init := 0, assigned_from := fun _ s => s,
    new_throws := fun n => decide (2 ^ 45 ≤ n) }

end simple_vector

/-! ### Scripts of `PushBack` / `PopBack` calls -/

/-- One call of a push/pop script. -/
inductive StackOp (T : Type) where
  /-- `PushBack(const Type&)`. -/
  | push (x : T)
  /-- `PushBack(Type&&)`. -/
  | pushMove (x : T)
  /-- `PopBack()`. -/
  | pop

/-- The spec's reading of one call on a plain list: append, or drop the last element. -/
def StackOp.onList {T : Type} : StackOp T → List T → List T
  | .push x, l => l ++ [x]
  | .pushMove x, l => l ++ [x]
  | .pop, l => l.dropLast

/-- The spec's reading of a script: the same calls run as append / drop-last on a list. -/
def runOnList {T : Type} : List (StackOp T) → List T → List T
  | [], l => l
  | op :: ops, l => runOnList ops (op.onList l)

/-- Whether a script, started on a container of size `n`, never pops an empty container. -/
def popsGuarded {T : Type} : List (StackOp T) → Nat → Bool
  | [], _ => true
  | .pop :: ops, n => decide (0 < n) && popsGuarded ops (n - 1)
  | .push _ :: ops, n => popsGuarded ops (n + 1)
  | .pushMove _ :: ops, n => popsGuarded ops (n + 1)

/-- The number of pushes in a script. -/
def countPush {T : Type} : List (StackOp T) → Nat
  | [] => 0
  | .pop :: ops => countPush ops
  | .push _ :: ops => countPush ops + 1
  | .pushMove _ :: ops => countPush ops + 1

/-- The number of pops in a script. -/
def countPop {T : Type} : List (StackOp T) → Nat
  | [] => 0
  | .pop :: ops => countPop ops + 1
  | .push _ :: ops => countPop ops
  | .pushMove _ :: ops => countPop ops

namespace advanced_vector

/-- A script run on a `Vector`; an exception leaving a call ends the run. -/
def Vector.run {T : Type} (E : Elem T) : List (StackOp T) → Vector T → Except Exn (Vector T)
  | [], v => .ok v
  | .push x :: ops, v =>
    match (v.PushBack E x).result with
    | .error e => .error e
    | .ok () => Vector.run E ops (v.PushBack E x).vec
  | .pushMove x :: ops, v =>
    match (v.PushBackMove E x).result with
    | .error e => .error e
    | .ok () => Vector.run E ops (v.PushBackMove E x).vec
  | .pop :: ops, v => Vector.run E ops v.PopBack

end advanced_vector

namespace simple_vector

/-- A script run on a `SimpleVector`, every pushed object lying outside the vector's
array; `none`: undefined behaviour. -/
def SimpleVector.run {T : Type} (E : Elem T) :
    List (StackOp T) → SimpleVector T → Option (SimpleVector T)
  | [], v => some v
  | .push x :: ops, v =>
    match v.PushBack E (.outside x) with
    | none => none
    | some v1 => SimpleVector.run E ops v1
  | .pushMove x :: ops, v =>
    match v.PushBackMove E (.outside x) with
    | none => none
    | some v1 => SimpleVector.run E ops v1
  | .pop :: ops, v => SimpleVector.run E ops v.PopBack

end simple_vector

namespace advanced_vector

variable {T : Type}

/-! ### Construction, swap, assignment and indexing of `Vector` -/

/-- `Vector(size_t size)`: the new vector, or the exception that left the constructor. -/
def Vector.ofSize (E : Elem T) (size : Nat) : Except Exn (Vector T) :=
  match RawMemory.ofCapacity E size with
  | .error e => .error e
  | .ok data =>
    match uninitialized_value_construct_n E data.slots 0 size with
    | (_, .error e) => .error e
    | (b, .ok ()) => .ok { data_ := data.withSlots b, size_ := size }

/-- `Vector(const Vector& other)`: the new vector, or the exception that left the
constructor. -/
def Vector.copy (E : Elem T) (other : Vector T) : Except Exn (Vector T) :=
  let data : RawMemory T := RawMemory.granted other.size_
  match uninitialized_copy_n E (readRange other.data_.slots 0 other.size_) with
  | .error e => .error e
  | .ok ys =>
    .ok { data_ := data.withSlots (writeRange data.slots 0 (ys.map some)), size_ := other.size_ }

/-- `Vector::Swap`: `*this` and `other` afterwards. -/
def Vector.Swap (a b : Vector T) : Vector T × Vector T :=
  let d := RawMemory.Swap a.data_ b.data_
  ({ data_ := d.1, size_ := b.size_ }, { data_ := d.2, size_ := a.size_ })

/-- `Vector(Vector&& other)`: the new vector and `other` afterwards. -/
def Vector.moveCtor (other : Vector T) : Vector T × Vector T :=
  Vector.Swap Vector.empty other

/-- `RawMemory(RawMemory&& other)`: the new object and `other` afterwards. -/
def RawMemory.moveCtor (other : RawMemory T) : RawMemory T × RawMemory T :=
  ({ buffer_ := other.buffer_, capacity_ := other.capacity_ }, { buffer_ := none, capacity_ := 0 })

/-- One step of a copy-assigning loop: `p[dst] = s`. -/
def copy_assign_at (E : Elem T) (b : Buf T) (dst : Nat) (s : T) : Buf T × Except Exn Unit :=
  match getSlot b dst with
  | some d =>
    match E.copyAssign d s with
    | .error e => (b, .error e)
    | .ok d' => (b.set dst (some d'), .ok ())
  | none => (b, .ok ())

/-- `std::copy(src, src + n, p + d_first)` with the source values read from another
block: front to back. -/
def copy_range (E : Elem T) (b : Buf T) (d_first : Nat) : List T → Buf T × Except Exn Unit
  | [] => (b, .ok ())
  | s :: ss =>
    match copy_assign_at E b d_first s with
    | (b', .error e) => (b', .error e)
    | (b', .ok ()) => copy_range E b' (d_first + 1) ss

/-- `Vector::operator=(const Vector& rhs)`; `same_object` is `this == &rhs`.  `rhs` is
not modified. -/
def Vector.CopyAssign (E : Elem T) (this rhs : Vector T) (same_object : Bool) : Outcome T Unit :=
  if same_object then ⟨this, .ok (), []⟩
  else if rhs.size_ > this.data_.Capacity then
    match Vector.copy E rhs with
    | .error e => ⟨this, .error e, (RawMemory.granted rhs.size_ : RawMemory T).slots⟩
    | .ok rhs_copy =>
      let s := Vector.Swap this rhs_copy
      ⟨s.1, .ok (), destroy_n s.2.data_.slots 0 s.2.size_⟩
  else if rhs.size_ < this.size_ then
    match copy_range E this.data_.slots 0 (readRange rhs.data_.slots 0 rhs.size_) with
    | (b, .error e) => ⟨{ this with data_ := this.data_.withSlots b }, .error e, []⟩
    | (b, .ok ()) =>
      ⟨{ data_ := this.data_.withSlots (destroy_n b rhs.size_ (this.size_ - rhs.size_)),
         size_ := rhs.size_ }, .ok (), []⟩
  else
    match copy_range E this.data_.slots 0 (readRange rhs.data_.slots 0 this.size_) with
    | (b, .error e) => ⟨{ this with data_ := this.data_.withSlots b }, .error e, []⟩
    | (b, .ok ()) =>
      match uninitialized_copy_n E (readRange rhs.data_.slots this.size_ (rhs.size_ - this.size_)) with
      | .error e => ⟨{ this with data_ := this.data_.withSlots b }, .error e, []⟩
      | .ok ys =>
        ⟨{ data_ := this.data_.withSlots (writeRange b this.size_ (ys.map some)),
           size_ := rhs.size_ }, .ok (), []⟩

/-- `Vector::operator=(Vector&& rhs)`: `*this` and `rhs` afterwards. -/
def Vector.MoveAssign (this rhs : Vector T) : Vector T × Vector T :=
  Vector.Swap this rhs

/-- `Vector::operator[](index)`: the object the returned reference designates. -/
def Vector.Index (v : Vector T) (index : Nat) : Option T := getSlot v.data_.slots index

/-- Assignment through the reference `operator[]` returns: `v[index] = value`. -/
def Vector.assignAt (E : Elem T) (v : Vector T) (index : Nat) (value : T) : Outcome T Unit :=
  match copy_assign_at E v.data_.slots index value with
  | (b, r) => ⟨{ v with data_ := v.data_.withSlots b }, r, []⟩

/-- The invariant of the claims about sizes: `size_ ≤ capacity_`, and a block of capacity
0 is the null pointer. -/
def Vector.Inv (v : Vector T) : Prop :=
  v.size_ ≤ v.data_.capacity_ ∧ (v.data_.capacity_ = 0 → v.data_.buffer_ = none)

instance [DecidableEq T] (v : Vector T) : Decidable v.Inv :=
  inferInstanceAs (Decidable (v.size_ ≤ v.data_.capacity_ ∧
    (v.data_.capacity_ = 0 → v.data_.buffer_ = none)))

/-! ### The `assert`s a call evaluates -/

/-- An `assert` evaluated during a call. -/
inductive Assertion where
  /-- `assert(offset <= capacity_)` in `RawMemory::operator+`. -/
  | plus (offset capacity : Nat)
  /-- `assert(index < capacity_)` in `RawMemory::operator[]`. -/
  | index (i capacity : Nat)
  /-- An `assert` in `Vector` itself, with the value of its condition. -/
  | vector (cond : Bool)
  deriving DecidableEq

/-- Whether the assertion passes. -/
def Assertion.passes : Assertion → Bool
  | .plus offset capacity => decide (offset ≤ capacity)
  | .index i capacity => decide (i < capacity)
  | .vector cond => cond

/-- The `assert`s `Vector::PopBack` evaluates: its own, then `data_ + size_`. -/
def Vector.PopBackAsserts (v : Vector T) : List Assertion :=
  [.vector (v.size_ != 0), .plus v.size_ v.Capacity]

/-- The `assert`s `Vector::operator[](index)` evaluates: its own, then `data_[index]`. -/
def Vector.IndexAsserts (v : Vector T) (index : Nat) : List Assertion :=
  [.vector (decide (index < v.size_)), .index index v.Capacity]

/-- The `assert`s `Vector::Erase(begin() + pos)` evaluates: its own, and `data_ + size_`
once the shift has completed. -/
def Vector.EraseAsserts (E : Elem T) (v : Vector T) (pos : Nat) : List Assertion :=
  .vector (pos != v.size_) ::
    match move_range E v.data_.slots (pos + 1) pos (v.size_ - (pos + 1)) with
    | (_, .error _) => []
    | (_, .ok ()) => [.plus v.size_ v.Capacity]

/-- The `assert`s `Vector::Emplace(begin() + before, args...)` evaluates: `new_data + before`
for the placement of the new element and again in the handler of a failed prefix transfer
(reallocating branch), and `data_[before]` for the final assignment (in-place branch in
the middle). -/
def Vector.EmplaceAsserts (E : Elem T) (v : Vector T) (before : Nat) (newElem : Except Exn T) :
    List Assertion :=
  if v.size_ = v.Capacity then
    let new_capacity := if v.size_ = 0 then 1 else v.size_ * 2
    let new_data : RawMemory T := RawMemory.granted new_capacity
    .plus before new_data.Capacity ::
      match newElem with
      | .error _ => []
      | .ok x =>
        match UninitializedMoveOrCopy E v.data_.slots 0 before
            (construct_at new_data.slots before x) 0 with
        | (_, _, .error _) => [.plus before new_data.Capacity]
        | (_, _, .ok ()) => []
  else if before = v.size_ then []
  else
    match newElem with
    | .error _ => []
    | .ok _ =>
      match move_construct_at E v.data_.slots v.size_ (v.size_ - 1) with
      | (_, .error _) => []
      | (b1, .ok ()) =>
        match move_backward E b1 (v.size_ - 1) v.size_ (v.size_ - 1 - before) with
        | (_, .error _) => []
        | (_, .ok ()) => [.index before v.Capacity]

/-! ### Scripts of appends and `PopBack` -/

/-- One call of a script of appends and pops on a `Vector`. -/
inductive BackOp (T : Type) where
  /-- `PushBack(const T&)`. -/
  | pushBack (x : T)
  /-- `PushBack(T&&)`. -/
  | pushBackMove (x : T)
  /-- `EmplaceBack(args...)`, with what `T(args...)` gives. -/
  | emplaceBack (newElem : Except Exn T)
  /-- `PopBack()`. -/
  | popBack

/-- Whether the call is an append. -/
def BackOp.isAppend : BackOp T → Bool
  | .popBack => false
  | _ => true

/-- Whether a script, started on a vector of size `n`, never pops an empty vector. -/
def backGuarded : List (BackOp T) → Nat → Bool
  | [], _ => true
  | .popBack :: ops, n => decide (0 < n) && backGuarded ops (n - 1)
  | _ :: ops, n => backGuarded ops (n + 1)

/-- A script of appends and pops run on a `Vector`; an exception leaving a call ends the
run. -/
def Vector.runBack (E : Elem T) : List (BackOp T) → Vector T → Except Exn (Vector T)
  | [], v => .ok v
  | .pushBack x :: ops, v =>
    match (v.PushBack E x).result with
    | .error e => .error e
    | .ok () => Vector.runBack E ops (v.PushBack E x).vec
  | .pushBackMove x :: ops, v =>
    match (v.PushBackMove E x).result with
    | .error e => .error e
    | .ok () => Vector.runBack E ops (v.PushBackMove E x).vec
  | .emplaceBack newElem :: ops, v =>
    match (v.EmplaceBack E newElem).result with
    | .error e => .error e
    | .ok _ => Vector.runBack E ops (v.EmplaceBack E newElem).vec
  | .popBack :: ops, v => Vector.runBack E ops v.PopBack

/-- Whether `c` is the smallest power of two that is at least `n`. -/
def SmallestPow2AtLeast (c n : Nat) : Prop :=
  (∃ k, c = 2 ^ k) ∧ n ≤ c ∧ ∀ j, n ≤ 2 ^ j → c ≤ 2 ^ j

end advanced_vector

namespace simple_vector

variable {T : Type}

/-! ### Construction, swap, assignment, access and comparison of `SimpleVector` -/

/-- `ArrayPtr(ArrayPtr&& other)`: the new pointer and `other` afterwards. -/
def ArrayPtr.moveCtor (other : ArrayPtr T) : ArrayPtr T × ArrayPtr T :=
  ({ raw_ptr_ := other.raw_ptr_ }, { raw_ptr_ := none })

/-- `SimpleVector(const SimpleVector& other)`. -/
def SimpleVector.copy (E : Elem T) (other : SimpleVector T) : SimpleVector T :=
  let items : ArrayPtr T := ArrayPtr.ofSize E other.size_
  { size_ := other.size_, capacity_ := other.size_,
    items_ := items.withItems (copy_into other.live items.Get 0) }

/-- `SimpleVector(SimpleVector&& other)`: the new vector and `other` afterwards. -/
def SimpleVector.moveCtor (other : SimpleVector T) : SimpleVector T × SimpleVector T :=
  let m := ArrayPtr.moveCtor other.items_
  ({ size_ := other.size_, capacity_ := other.size_, items_ := m.1 },
   { size_ := 0, capacity_ := 0, items_ := m.2 })

/-- `SimpleVector::swap(SimpleVector&)`: `*this` and `other` afterwards. -/
def SimpleVector.swap (this other : SimpleVector T) : SimpleVector T × SimpleVector T :=
  let i := ArrayPtr.swap this.items_ other.items_
  ({ size_ := other.size_, capacity_ := other.capacity_, items_ := i.1 },
   { size_ := this.size_, capacity_ := this.capacity_, items_ := i.2 })

/-- `SimpleVector::swap(SimpleVector&&)`: `*this` and `other` afterwards; `*this` receives
the members of a copy of `other`. -/
def SimpleVector.swapRvalue (E : Elem T) (this other : SimpleVector T) :
    SimpleVector T × SimpleVector T :=
  let copy_other := SimpleVector.copy E other
  ({ size_ := copy_other.size_, capacity_ := copy_other.capacity_, items_ := copy_other.items_ },
   { size_ := this.size_, capacity_ := this.capacity_, items_ := this.items_ })

/-- `SimpleVector::operator=(const SimpleVector& rhs)`: `*this` afterwards; `same_object`
is `this == &rhs`. -/
def SimpleVector.CopyAssign (E : Elem T) (this rhs : SimpleVector T) (same_object : Bool) :
    SimpleVector T :=
  if same_object then this
  else (SimpleVector.swap this (SimpleVector.copy E rhs)).1

/-- `SimpleVector::operator=(SimpleVector&& rhs)`: `*this` afterwards; the body copies the
named reference `rhs` and swaps with the copy, so `rhs` is not modified. -/
def SimpleVector.MoveAssign (E : Elem T) (this rhs : SimpleVector T) (same_object : Bool) :
    SimpleVector T :=
  if same_object then this
  else (SimpleVector.swap this (SimpleVector.copy E rhs)).1

/-- `SimpleVector::operator[](index)`: the object the returned reference designates. -/
def SimpleVector.Index (v : SimpleVector T) (index : Nat) : Option T := v.items_.Get[index]?

/-- Assignment through the reference `operator[]` returns: `v[index] = value`. -/
def SimpleVector.assignAt (v : SimpleVector T) (index : Nat) (value : T) : SimpleVector T :=
  { v with items_ := v.items_.withItems (v.items_.Get.set index value) }

/-- The error `SimpleVector::At` throws. -/
inductive RangeError where
  /-- `std::out_of_range("index out of range")`. -/
  | out_of_range
  deriving DecidableEq

/-- `SimpleVector::At(index)`: the object the returned reference designates, or the
exception. -/
def SimpleVector.At (v : SimpleVector T) (index : Nat) : Except RangeError (Option T) :=
  if index ≥ v.size_ then .error .out_of_range
  else .ok v.items_.Get[index]?

/-- The element type's comparison operators. -/
structure Cmp (T : Type) where
  /-- `operator==` of `Type`. -/
  eq : T → T → Bool
  /-- `operator<` of `Type`. -/
  lt : T → T → Bool

/-- `std::equal(first1, last1, first2)`: the first list is `[first1, last1)`, the second
what `first2` points at. -/
def std_equal (eq : T → T → Bool) : List T → List T → Bool
  | [], _ => true
  | _ :: _, [] => false
  | x :: xs, y :: ys => if eq x y then std_equal eq xs ys else false

/-- `std::lexicographical_compare(first1, last1, first2, last2)`. -/
def lexicographical_compare (lt : T → T → Bool) : List T → List T → Bool
  | [], [] => false
  | [], _ :: _ => true
  | _ :: _, [] => false
  | x :: xs, y :: ys =>
    if lt x y then true
    else if lt y x then false
    else lexicographical_compare lt xs ys

/-- `operator==(lhs, rhs)`; `same_object` is `&lhs == &rhs`. -/
def SimpleVector.opEq (C : Cmp T) (same_object : Bool) (lhs rhs : SimpleVector T) : Bool :=
  same_object ||
    (decide (lhs.GetSize = rhs.GetSize) && std_equal C.eq lhs.live rhs.items_.Get)

/-- `operator!=(lhs, rhs)`. -/
def SimpleVector.opNe (C : Cmp T) (same_object : Bool) (lhs rhs : SimpleVector T) : Bool :=
  !(SimpleVector.opEq C same_object lhs rhs)

/-- `operator<(lhs, rhs)`. -/
def SimpleVector.opLt (C : Cmp T) (lhs rhs : SimpleVector T) : Bool :=
  lexicographical_compare C.lt lhs.live rhs.live

/-- `operator<=(lhs, rhs)`. -/
def SimpleVector.opLe (C : Cmp T) (lhs rhs : SimpleVector T) : Bool :=
  !(SimpleVector.opLt C rhs lhs)

/-- `operator>(lhs, rhs)`. -/
def SimpleVector.opGt (C : Cmp T) (lhs rhs : SimpleVector T) : Bool :=
  SimpleVector.opLt C rhs lhs

/-- `operator>=(lhs, rhs)`. -/
def SimpleVector.opGe (C : Cmp T) (lhs rhs : SimpleVector T) : Bool :=
  !(SimpleVector.opLt C lhs rhs)

/-- The spec's structural equality of two sequences: same length and equal (by the
element type's `==`) elements at every index. -/
def StructEq (eq : T → T → Bool) (a b : List T) : Prop :=
  a.length = b.length ∧
    ∀ i, i < a.length → ∃ x y, a[i]? = some x ∧ b[i]? = some y ∧ eq x y = true

/-- The spec's lexicographic order of two sequences: at the first index where one element
is less than the other the left one is the smaller, or the left sequence ends first; the
indices before hold elements neither of which is less than the other. -/
def LexLess (lt : T → T → Bool) (a b : List T) : Prop :=
  ∃ k, (∀ i, i < k → ∃ x y, a[i]? = some x ∧ b[i]? = some y ∧ lt x y = false ∧ lt y x = false) ∧
    ((a.length = k ∧ k < b.length) ∨ ∃ x y, a[k]? = some x ∧ b[k]? = some y ∧ lt x y = true)

/-- A totally ordered element type: `<` is asymmetric and two elements are `==` exactly
when neither is less than the other. -/
def Cmp.TotalOrder (C : Cmp T) : Prop :=
  (∀ x y, C.lt x y = true → C.lt y x = false) ∧
  ∀ x y, C.eq x y = true ↔ (C.lt x y = false ∧ C.lt y x = false)

/-- The comparison operators of `int`. -/
def intCmp : Cmp Nat := { eq := fun x y => decide (x = y), lt := fun x y => decide (x < y) }

/-- A `double`-like element type over `Nat` in which 0 plays NaN: it is not `==` to
anything, itself included, and not `<` related to anything. -/
def nanCmp : Cmp Nat :=
  { eq := fun x y => decide (x = y) && decide (x ≠ 0),
    lt := fun x y => decide (x < y) && decide (x ≠ 0) && decide (y ≠ 0) }

/-- The invariant of the claims about sizes: `size_ ≤ capacity_`. -/
def SimpleVector.Inv (v : SimpleVector T) : Prop := v.size_ ≤ v.capacity_

instance (v : SimpleVector T) : Decidable v.Inv :=
  inferInstanceAs (Decidable (v.size_ ≤ v.capacity_))

end simple_vector

/-! ### Containers as objects in the free store

The definitions above take a container by value: the members, with the contents of the
block behind its pointer.  Here a container is an object whose pointer member is an
address, and a call acts on the free store: it reads and writes the block the object
points at, obtains new blocks and releases old ones.  This is where two containers can
be told to share storage or not. -/

/-- The free store: every block handed out so far, by address (its index); `none` once the
block has been released.  Addresses are not reused. -/
structure Store (β : Type) where
  blocks : List (Option β) := []

/-- The live block at address `p`, if there is one. -/
def Store.block {β : Type} (s : Store β) (p : Nat) : Option β := (s.blocks[p]?).join

/-- `new`: the store with the block in it, and the address of the block. -/
def Store.alloc {β : Type} (s : Store β) (b : β) : Store β × Nat :=
  (⟨s.blocks ++ [some b]⟩, s.blocks.length)

/-- New contents for the block at `p` (nothing happens when no live block is there). -/
def Store.write {β : Type} (s : Store β) (p : Nat) (b : β) : Store β :=
  match s.block p with
  | some _ => ⟨s.blocks.set p (some b)⟩
  | none => s

/-- `delete`: the block at `p` is released. -/
def Store.release {β : Type} (s : Store β) (p : Nat) : Store β := ⟨s.blocks.set p none⟩

/-- New contents for the block a pointer designates (nothing to write behind the null
pointer). -/
def Store.writeAt {β : Type} (s : Store β) (ptr : Option Nat) (b : β) : Store β :=
  match ptr with
  | some p => s.write p b
  | none => s

/-- `delete` of a pointer (nothing happens for the null pointer). -/
def Store.releaseAt {β : Type} (s : Store β) (ptr : Option Nat) : Store β :=
  match ptr with
  | some p => s.release p
  | none => s

namespace simple_vector

variable {T : Type}

/-- A `SimpleVector` object in memory: its members, `raw_ptr_` (of `items_`) being the
address of the array, `none` the null pointer. -/
structure Obj where
  size_ : Nat := 0
  capacity_ : Nat := 0
  raw_ptr_ : Option Nat := none
  deriving DecidableEq

/-- The container an object denotes in a store: its members, with the array its pointer
designates. -/
def Obj.get (o : Obj) (s : Store (List T)) : SimpleVector T :=
  { size_ := o.size_, capacity_ := o.capacity_,
    items_ := { raw_ptr_ := o.raw_ptr_.bind s.block } }

/-- An `ArrayPtr` a call has built, put into the free store: its array, if it has one, is
a new block. -/
def place (s : Store (List T)) (a : ArrayPtr T) : Store (List T) × Option Nat :=
  match a.raw_ptr_ with
  | some l => ((s.alloc l).1, some (s.alloc l).2)
  | none => (s, none)

/-- `SimpleVector(const SimpleVector& other)` in the store: `items_(other.size_)` obtains
a new array, `std::copy` fills it from the array of `other`, which is only read. -/
def Obj.copy (E : Elem T) (s : Store (List T)) (other : Obj) : Store (List T) × Obj :=
  let c := (other.get s).copy E
  let r := place s c.items_
  (r.1, { size_ := c.size_, capacity_ := c.capacity_, raw_ptr_ := r.2 })

/-- The store and the object after a member function has left the container `after`.  A
call that `reallocated` built a new `ArrayPtr`, swapped it in and deleted the array the
object pointed at; any other call wrote into the array the object points at. -/
def Obj.put (o : Obj) (s : Store (List T)) (reallocated : Bool) (after : SimpleVector T) :
    Store (List T) × Obj :=
  if reallocated then
    let r := place s after.items_
    (r.1.releaseAt o.raw_ptr_,
      { size_ := after.size_, capacity_ := after.capacity_, raw_ptr_ := r.2 })
  else
    (s.writeAt o.raw_ptr_ after.items_.Get,
      { size_ := after.size_, capacity_ := after.capacity_, raw_ptr_ := o.raw_ptr_ })

/-- `PushBack(const Type&)` on an object; it reallocates when `size_ == capacity_`. -/
def Obj.PushBack (E : Elem T) (s : Store (List T)) (o : Obj) (item : Arg T) :
    Option (Store (List T) × Obj) :=
  ((o.get s).PushBack E item).map (o.put s (decide (o.size_ = o.capacity_)))

/-- `PushBack(Type&&)` on an object. -/
def Obj.PushBackMove (E : Elem T) (s : Store (List T)) (o : Obj) (item : Arg T) :
    Option (Store (List T) × Obj) :=
  ((o.get s).PushBackMove E item).map (o.put s (decide (o.size_ = o.capacity_)))

/-- `Insert(pos, const Type&)` on an object; it reallocates unless `size_ < capacity_`. -/
def Obj.Insert (E : Elem T) (s : Store (List T)) (o : Obj) (insert_index : Nat)
    (value : Arg T) : Option (Store (List T) × Obj) :=
  ((o.get s).Insert E insert_index value).map fun r =>
    o.put s (decide (¬ o.size_ < o.capacity_)) r.1

/-- `Insert(pos, Type&&)` on an object. -/
def Obj.InsertMove (E : Elem T) (s : Store (List T)) (o : Obj) (insert_index : Nat)
    (value : Arg T) : Option (Store (List T) × Obj) :=
  ((o.get s).InsertMove E insert_index value).map fun r =>
    o.put s (decide (¬ o.size_ < o.capacity_)) r.1

/-- `Erase(pos)` on an object; it moves elements inside the array. -/
def Obj.Erase (E : Elem T) (s : Store (List T)) (o : Obj) (pos : Nat) : Store (List T) × Obj :=
  o.put s false ((o.get s).Erase E pos).1

/-- `o[index] = value` on an object. -/
def Obj.assignAt (s : Store (List T)) (o : Obj) (index : Nat) (value : T) :
    Store (List T) × Obj :=
  o.put s false ((o.get s).assignAt index value)

/-- The pointer of the object is null or designates a live array of the store. -/
def Obj.Owns (o : Obj) (s : Store (List T)) : Prop :=
  ∀ p, o.raw_ptr_ = some p → (s.block p).isSome = true

/-- The two objects do not point at the same array. -/
def Obj.Apart (a b : Obj) : Prop := ∀ p, a.raw_ptr_ = some p → b.raw_ptr_ ≠ some p

/-- What a call on another object, which is `b` afterwards, has left of `a` (`s`: the store
before, `s1`: after): `a` denotes the same container, both objects point at live arrays,
and not at the same one. -/
def Obj.Untouched (a : Obj) (s s1 : Store (List T)) (b : Obj) : Prop :=
  a.get s1 = a.get s ∧ a.Owns s1 ∧ b.Owns s1 ∧ a.Apart b

end simple_vector

namespace advanced_vector

variable {T : Type}

/-- A `Vector` object in memory: its members, `buffer_` (of `data_`) being the address of
the block, `none` the null pointer. -/
structure Obj where
  buffer_ : Option Nat := none
  capacity_ : Nat := 0
  size_ : Nat := 0
  deriving DecidableEq

/-- The container an object denotes in a store: its members, with the block its pointer
designates. -/
def Obj.get (o : Obj) (s : Store (Buf T)) : Vector T :=
  { data_ := { buffer_ := o.buffer_.bind s.block, capacity_ := o.capacity_ }, size_ := o.size_ }

/-- A `RawMemory` a call has built, put into the free store: its block, if it has one, is
a new block. -/
def place (s : Store (Buf T)) (m : RawMemory T) : Store (Buf T) × Option Nat :=
  match m.buffer_ with
  | some b => ((s.alloc b).1, some (s.alloc b).2)
  | none => (s, none)

/-- `Vector(const Vector& other)` in the store: `data_(other.size_)` obtains a new block
and `std::uninitialized_copy_n` fills it from the block of `other`, which is only read;
when a copy throws, the new block is released again. -/
def Obj.copy (E : Elem T) (s : Store (Buf T)) (other : Obj) :
    Store (Buf T) × Except Exn Obj :=
  match Vector.copy E (other.get s) with
  | .ok c =>
    let r := place s c.data_
    (r.1, .ok { buffer_ := r.2, capacity_ := c.data_.capacity_, size_ := c.size_ })
  | .error e =>
    let r := place s (RawMemory.granted other.size_ : RawMemory T)
    (r.1.releaseAt r.2, .error e)

/-- The store and the object after a member function has left the outcome `out`.  A call
that `reallocated` built a new `RawMemory`: if it returned, the new block was swapped in
and the block the object pointed at released; if it threw, the new block was released and
the object still points at the old one.  Any other call wrote into the block the object
points at. -/
def Obj.put {α : Type} (o : Obj) (s : Store (Buf T)) (reallocated : Bool) (out : Outcome T α) :
    Store (Buf T) × Obj :=
  if reallocated then
    match out.result with
    | .ok _ =>
      let r := place s out.vec.data_
      (r.1.releaseAt o.buffer_,
        { buffer_ := r.2, capacity_ := out.vec.data_.capacity_, size_ := out.vec.size_ })
    | .error _ =>
      (⟨(s.writeAt o.buffer_ out.vec.data_.slots).blocks ++ [none]⟩,
        { buffer_ := o.buffer_, capacity_ := out.vec.data_.capacity_, size_ := out.vec.size_ })
  else
    (s.writeAt o.buffer_ out.vec.data_.slots,
      { buffer_ := o.buffer_, capacity_ := out.vec.data_.capacity_, size_ := out.vec.size_ })

/-- `Emplace` on an object; it reallocates when `size_ == Capacity()`. -/
def Obj.Emplace (E : Elem T) (s : Store (Buf T)) (o : Obj) (before : Nat)
    (newElem : Except Exn T) : (Store (Buf T) × Obj) × Except Exn Nat :=
  (o.put s (decide (o.size_ = o.capacity_)) ((o.get s).Emplace E before newElem),
    ((o.get s).Emplace E before newElem).result)

/-- `PushBack(const T&)` on an object. -/
def Obj.PushBack (E : Elem T) (s : Store (Buf T)) (o : Obj) (value : T) :
    (Store (Buf T) × Obj) × Except Exn Unit :=
  (o.put s (decide (o.size_ = o.capacity_)) ((o.get s).PushBack E value),
    ((o.get s).PushBack E value).result)

/-- `PushBack(T&&)` on an object. -/
def Obj.PushBackMove (E : Elem T) (s : Store (Buf T)) (o : Obj) (value : T) :
    (Store (Buf T) × Obj) × Except Exn Unit :=
  (o.put s (decide (o.size_ = o.capacity_)) ((o.get s).PushBackMove E value),
    ((o.get s).PushBackMove E value).result)

/-- `Insert(pos, const T&)` on an object. -/
def Obj.Insert (E : Elem T) (s : Store (Buf T)) (o : Obj) (pos : Nat) (value : T) :
    (Store (Buf T) × Obj) × Except Exn Nat :=
  (o.put s (decide (o.size_ = o.capacity_)) ((o.get s).Insert E pos value),
    ((o.get s).Insert E pos value).result)

/-- `Insert(pos, T&&)` on an object. -/
def Obj.InsertMove (E : Elem T) (s : Store (Buf T)) (o : Obj) (pos : Nat) (value : T) :
    (Store (Buf T) × Obj) × Except Exn Nat :=
  (o.put s (decide (o.size_ = o.capacity_)) ((o.get s).InsertMove E pos value),
    ((o.get s).InsertMove E pos value).result)

/-- `Erase(pos)` on an object; it moves elements inside the block. -/
def Obj.Erase (E : Elem T) (s : Store (Buf T)) (o : Obj) (pos : Nat) :
    (Store (Buf T) × Obj) × Except Exn Nat :=
  (o.put s false ((o.get s).Erase E pos), ((o.get s).Erase E pos).result)

/-- `o[index] = value` on an object. -/
def Obj.assignAt (E : Elem T) (s : Store (Buf T)) (o : Obj) (index : Nat) (value : T) :
    (Store (Buf T) × Obj) × Except Exn Unit :=
  (o.put s false ((o.get s).assignAt E index value), ((o.get s).assignAt E index value).result)

/-- The pointer of the object is null or designates a live block of the store. -/
def Obj.Owns (o : Obj) (s : Store (Buf T)) : Prop :=
  ∀ p, o.buffer_ = some p → (s.block p).isSome = true

/-- The two objects do not point at the same block. -/
def Obj.Apart (a b : Obj) : Prop := ∀ p, a.buffer_ = some p → b.buffer_ ≠ some p

/-- What a call on another object, which is `b` afterwards, has left of `a` (`s`: the store
before, `s1`: after): `a` denotes the same container, both objects point at live blocks,
and not at the same one. -/
def Obj.Untouched (a : Obj) (s s1 : Store (Buf T)) (b : Obj) : Prop :=
  a.get s1 = a.get s ∧ a.Owns s1 ∧ b.Owns s1 ∧ a.Apart b

end advanced_vector

namespace advanced_vector

variable {T : Type}

/-! ### Storage lemmas -/

theorem getSlot_eq_some {b : Buf T} {i : Nat} {x : T} :
    getSlot b i = some x ↔ b[i]? = some (some x) := by
  unfold getSlot
  cases h : b[i]? with
  | none => simp
  | some o => cases o <;> simp

theorem writeRange_eq (b vals : Buf T) (first : Nat) (h : first + vals.length ≤ b.length) :
    writeRange b first vals = b.take first ++ vals ++ b.drop (first + vals.length) := by
  unfold writeRange
  apply List.take_of_length_le
  simp
  omega

theorem length_writeRange_block (b vals : Buf T) (first : Nat) :
    (writeRange b first vals).length = b.length := by
  simp [writeRange]
  omega

theorem length_writeRange (b vals : Buf T) (first : Nat) (_h : first + vals.length ≤ b.length) :
    (writeRange b first vals).length = b.length :=
  length_writeRange_block b vals first

theorem getElem?_writeRange_block (b vals : Buf T) (first i : Nat) (h : first ≤ b.length)
    (hi : i < b.length) :
    (writeRange b first vals)[i]? =
      if i < first then b[i]? else if i < first + vals.length then vals[i - first]? else b[i]? := by
  simp only [writeRange, List.getElem?_take, if_pos hi, List.append_assoc, List.getElem?_append,
    List.length_take, List.getElem?_drop]
  have hm : min first b.length = first := by omega
  rw [hm]
  by_cases h1 : i < first
  · simp [h1]
  · simp only [h1, if_false]
    by_cases h2 : i - first < vals.length
    · have : i < first + vals.length := by omega
      simp [h2, this]
    · have : ¬ i < first + vals.length := by omega
      simp only [h2, this, if_false]
      congr 1
      omega

theorem getElem?_writeRange (b vals : Buf T) (first i : Nat)
    (h : first + vals.length ≤ b.length) :
    (writeRange b first vals)[i]? =
      if i < first then b[i]? else if i < first + vals.length then vals[i - first]? else b[i]? := by
  by_cases hi : i < b.length
  · exact getElem?_writeRange_block b vals first i (by omega) hi
  · rw [List.getElem?_eq_none (by rw [length_writeRange_block]; omega),
      if_neg (by omega), if_neg (by omega), List.getElem?_eq_none (by omega)]

theorem length_destroy_n (b : Buf T) (first n : Nat) : (destroy_n b first n).length = b.length := by
  induction n generalizing b first with
  | zero => rfl
  | succ n ih => simp [destroy_n, ih, destroy_at]

theorem getElem?_destroy_n (b : Buf T) (first n i : Nat) :
    (destroy_n b first n)[i]? =
      if first ≤ i ∧ i < first + n then (b[i]?).map (fun _ => none) else b[i]? := by
  induction n generalizing b first with
  | zero =>
    have : ¬ (first ≤ i ∧ i < first) := by omega
    simp [destroy_n, this]
  | succ n ih =>
    simp only [destroy_n, ih, destroy_at, List.getElem?_set]
    by_cases h1 : first = i
    · subst h1
      by_cases h2 : first < b.length
      · simp [h2]
      · simp [h2]
        have : b[first]? = none := by simp; omega
        simp [this]
    · simp only [h1, if_false]
      by_cases h3 : first + 1 ≤ i ∧ i < first + 1 + n
      · have : first ≤ i ∧ i < first + (n + 1) := by omega
        simp [h3, this]
      · have : ¬ (first ≤ i ∧ i < first + (n + 1)) := by omega
        simp [h3, this]

theorem readRange_map_some (xs : List T) (rest : Buf T) (first n : Nat)
    (h : first + n ≤ xs.length) :
    readRange (xs.map some ++ rest) first n = (xs.drop first).take n := by
  unfold readRange
  have h1 : List.drop first (xs.map some ++ rest) = (xs.drop first).map some ++ rest := by
    rw [List.drop_append_of_le_length (by simp; omega), List.map_drop]
  rw [h1, List.take_append_of_le_length (by simp; omega), ← List.map_take,
    List.reduceOption, List.filterMap_map]
  simp

end advanced_vector

namespace advanced_vector
variable {T : Type}

theorem moveCtor_ok {E : Elem T} {x y r : T} (h : E.moveCtor x = .ok (y, r)) :
    y = x ∧ r = E.moved_from x := by
  unfold Elem.moveCtor at h
  split at h
  · cases h; exact ⟨rfl, rfl⟩
  · split at h
    · cases h
    · cases h; exact ⟨rfl, rfl⟩

theorem moveAssign_ok {E : Elem T} {d s d' s' : T} (h : E.moveAssign d s = .ok (d', s')) :
    d' = s ∧ s' = E.assigned_from d s := by
  unfold Elem.moveAssign at h
  split at h
  · cases h
  · cases h; exact ⟨rfl, rfl⟩

theorem copyCtor_ok {E : Elem T} {x y : T} (h : E.copyCtor x = .ok y) : y = x := by
  unfold Elem.copyCtor at h
  split at h
  · cases h
  · cases h; rfl

theorem uninitialized_copy_n_ok {E : Elem T} {xs ys : List T}
    (h : uninitialized_copy_n E xs = .ok ys) : ys = xs := by
  induction xs generalizing ys with
  | nil => unfold uninitialized_copy_n at h; cases h; rfl
  | cons x xs ih =>
    unfold uninitialized_copy_n at h
    split at h
    · cases h
    · rename_i y hy
      split at h
      · cases h
      · rename_i zs hzs
        cases h
        rw [copyCtor_ok hy, ih hzs]

theorem uninitialized_move_n_length (E : Elem T) (xs : List T) :
    (uninitialized_move_n E xs).1.length = xs.length := by
  induction xs with
  | nil => rfl
  | cons x xs ih =>
    unfold uninitialized_move_n
    split
    · rfl
    · split
      · rename_i h; rw [h] at ih; simpa using ih
      · rename_i h; rw [h] at ih; simpa using ih

theorem uninitialized_move_n_ok {E : Elem T} {xs rs ys : List T}
    (h : uninitialized_move_n E xs = (rs, .ok ys)) : ys = xs := by
  induction xs generalizing rs ys with
  | nil => unfold uninitialized_move_n at h; cases h; rfl
  | cons x xs ih =>
    unfold uninitialized_move_n at h
    split at h
    · cases h
    · rename_i y r hy
      split at h
      · cases h
      · rename_i rs' zs hzs
        cases h
        rw [(moveCtor_ok hy).1, ih hzs]

theorem readRange_congr {b b' : Buf T} {first n : Nat}
    (h : ∀ i, first ≤ i → i < first + n → b[i]? = b'[i]?) :
    readRange b first n = readRange b' first n := by
  unfold readRange
  congr 1
  apply List.ext_getElem?
  intro i
  simp only [List.getElem?_take, List.getElem?_drop]
  by_cases hi : i < n
  · simp only [hi, if_true]
    exact h _ (by omega) (by omega)
  · simp [hi]

/-- A successful transfer: the destination receives the source values, the source block
keeps its length and is untouched outside the range read. -/
theorem UninitializedMoveOrCopy_ok {E : Elem T} {from_ to_ old new : Buf T} {first n d : Nat}
    (h : UninitializedMoveOrCopy E from_ first n to_ d = (old, new, .ok ()))
    (hlen : (readRange from_ first n).length = n) (hb : first + n ≤ from_.length) :
    new = writeRange to_ d ((readRange from_ first n).map some) ∧
    old.length = from_.length ∧
    (∀ i, i < first ∨ first + n ≤ i → old[i]? = from_[i]?) := by
  unfold UninitializedMoveOrCopy at h
  split at h
  · split at h
    · cases h
    · rename_i rs ys hm
      have hys := uninitialized_move_n_ok hm
      have hrs := uninitialized_move_n_length E (readRange from_ first n)
      rw [hm] at hrs
      simp only at hrs
      cases h
      refine ⟨by rw [hys], ?_, ?_⟩
      · apply length_writeRange
        simp [hrs, hlen]
        exact hb
      · intro i hi
        rw [getElem?_writeRange _ _ _ _ (by simp only [List.length_map, hrs, hlen]; exact hb)]
        simp only [List.length_map, hrs, hlen]
        rcases hi with hi | hi
        · simp [hi]
        · have h1 : ¬ i < first := by omega
          have h2 : ¬ i < first + n := by omega
          simp [h1, h2]
  · split at h
    · cases h
    · rename_i ys hc
      cases h
      exact ⟨by rw [uninitialized_copy_n_ok hc], rfl, fun _ _ => rfl⟩

end advanced_vector

namespace advanced_vector
variable {T : Type}

theorem writeRange_nil (b : Buf T) (first : Nat) : writeRange b first [] = b := by
  simp [writeRange, List.take_append_drop]

theorem getElem?_map_some_append_replicate (xs : List T) (k i : Nat) :
    (xs.map some ++ List.replicate k (none : Option T))[i]? =
      if i < xs.length then (xs[i]?).map some else if i < xs.length + k then some none else none := by
  simp only [List.getElem?_append, List.length_map, List.getElem?_map, List.getElem?_replicate]
  by_cases h : i < xs.length
  · simp [h]
  · simp only [h, if_false]
    by_cases h2 : i < xs.length + k
    · have : i - xs.length < k := by omega
      simp [h2, this]
    · have : ¬ i - xs.length < k := by omega
      simp [h2, this]

theorem build_shape (pre suf : List T) (x : T) (c : Nat)
    (hc : pre.length + suf.length + 1 ≤ c) :
    writeRange (writeRange ((List.replicate c (none : Option T)).set pre.length (some x)) 0
        (pre.map some)) (pre.length + 1) (suf.map some) =
      (pre ++ x :: suf).map some ++ List.replicate (c - (pre.length + suf.length + 1)) none := by
  apply List.ext_getElem?
  intro i
  rw [getElem?_writeRange _ _ _ _ (by rw [length_writeRange _ _ _ (by simp; omega)]; simp; omega),
    getElem?_writeRange _ _ _ _ (by simp; omega), getElem?_map_some_append_replicate]
  simp only [List.length_map, List.getElem?_set, List.getElem?_replicate, List.length_replicate,
    List.length_append, List.length_cons, List.getElem?_map, List.getElem?_append,
    Nat.not_lt_zero, if_false, Nat.zero_add, Nat.sub_zero]
  by_cases h1 : i < pre.length
  · have : i < pre.length + 1 := by omega
    have h3 : i < pre.length + (suf.length + 1) := by omega
    simp [h1, this, h3]
  · by_cases h2 : i = pre.length
    · subst h2
      have h3 : pre.length < pre.length + (suf.length + 1) := by omega
      have h4 : pre.length < c := by omega
      simp [h3, h4]
    · by_cases h3 : i < pre.length + 1 + suf.length
      · have h4 : ¬ i < pre.length + 1 := by omega
        have h5 : i < pre.length + (suf.length + 1) := by omega
        have h6 : i - pre.length = (i - (pre.length + 1)) + 1 := by omega
        simp [h1, h3, h4, h5]
        rw [h6, List.getElem?_cons_succ]
      · have h4 : ¬ i < pre.length + 1 := by omega
        have h5 : ¬ i < pre.length + (suf.length + 1) := by omega
        have h7 : ¬ pre.length = i := fun h => h2 h.symm
        simp only [h1, h3, h4, h5, h7, if_false]
        by_cases h8 : i < c
        · have : i < pre.length + (suf.length + 1) + (c - (pre.length + suf.length + 1)) := by omega
          simp [h8, this]
        · have : ¬ i < pre.length + (suf.length + 1) + (c - (pre.length + suf.length + 1)) := by omega
          simp [h8, this]

end advanced_vector

namespace advanced_vector
variable {T : Type}

theorem slots_granted (c : Nat) :
    (RawMemory.granted c : RawMemory T).slots = List.replicate c none := by
  unfold RawMemory.granted RawMemory.slots
  by_cases h : c = 0
  · subst h; simp
  · simp [h]

theorem withSlots_granted (c : Nat) (b : Buf T) (h : c ≠ 0) :
    (RawMemory.granted c : RawMemory T).withSlots b = { buffer_ := some b, capacity_ := c } := by
  simp [RawMemory.granted, RawMemory.withSlots, h]

theorem Allocate_zero (E : Elem T) : RawMemory.Allocate E 0 = .ok none := rfl

theorem Allocate_pos (E : Elem T) {n : Nat} (hn : n ≠ 0) :
    RawMemory.Allocate E n =
      if E.new_throws (n * E.sizeof % 2 ^ 64) then .error Exn.bad_alloc
      else .ok (some (List.replicate (n * E.sizeof % 2 ^ 64 / E.sizeof) none)) := by
  unfold RawMemory.Allocate
  rw [if_pos hn]

/-- What `RawMemory(n)` gives when it returns: the capacity asked for, the null pointer
exactly for `n = 0`, and a block of raw slots. -/
theorem ofCapacity_ok {E : Elem T} {n : Nat} {m : RawMemory T}
    (h : RawMemory.ofCapacity E n = .ok m) :
    m.capacity_ = n ∧ (n = 0 → m.buffer_ = none) ∧ (n ≠ 0 → m.buffer_.isSome = true) ∧
    m.slots = List.replicate m.slots.length none := by
  unfold RawMemory.ofCapacity at h
  by_cases hn : n = 0
  · subst hn
    rw [Allocate_zero] at h
    cases h
    exact ⟨rfl, fun _ => rfl, fun h0 => absurd rfl h0, rfl⟩
  · rw [Allocate_pos E hn] at h
    by_cases ht : E.new_throws (n * E.sizeof % 2 ^ 64) = true
    · rw [if_pos ht] at h
      cases h
    · rw [if_neg ht] at h
      cases h
      refine ⟨rfl, fun h0 => absurd h0 hn, fun _ => rfl, ?_⟩
      simp [RawMemory.slots]

/-- The only exception `RawMemory(n)` throws is `std::bad_alloc`. -/
theorem ofCapacity_error {E : Elem T} {n : Nat} {e : Exn}
    (h : RawMemory.ofCapacity E n = .error e) : e = Exn.bad_alloc := by
  unfold RawMemory.ofCapacity at h
  by_cases hn : n = 0
  · subst hn
    rw [Allocate_zero] at h
    cases h
  · rw [Allocate_pos E hn] at h
    by_cases ht : E.new_throws (n * E.sizeof % 2 ^ 64) = true
    · rw [if_pos ht] at h
      cases h
      rfl
    · rw [if_neg ht] at h
      cases h

/-- When the byte count fits in `size_t`, a `RawMemory(n)` that returns holds the block
asked for. -/
theorem ofCapacity_eq_granted {E : Elem T} {n : Nat} {m : RawMemory T}
    (hfit : n * E.sizeof < 2 ^ 64) (h : RawMemory.ofCapacity E n = .ok m) :
    m = RawMemory.granted n := by
  unfold RawMemory.ofCapacity at h
  unfold RawMemory.granted
  by_cases hn : n = 0
  · subst hn
    rw [Allocate_zero] at h
    cases h
    rfl
  · rw [Allocate_pos E hn] at h
    by_cases ht : E.new_throws (n * E.sizeof % 2 ^ 64) = true
    · rw [if_pos ht] at h
      cases h
    · rw [if_neg ht] at h
      cases h
      rw [if_pos hn, Nat.mod_eq_of_lt hfit, Nat.mul_div_cancel _ E.sizeof_pos]

/-- When the byte count fits in `size_t` and `operator new` does not throw, `RawMemory(n)`
returns the block asked for. -/
theorem ofCapacity_granted {E : Elem T} {n : Nat} (hfit : n * E.sizeof < 2 ^ 64)
    (hnew : E.new_throws (n * E.sizeof) = false) :
    RawMemory.ofCapacity E n = .ok (RawMemory.granted n) := by
  unfold RawMemory.ofCapacity RawMemory.granted
  by_cases hn : n = 0
  · subst hn
    rfl
  · rw [Allocate_pos E hn, if_pos hn, Nat.mod_eq_of_lt hfit, hnew,
      Nat.mul_div_cancel _ E.sizeof_pos]
    rfl

theorem Vector.Holds.slots_length {v : Vector T} {xs : List T} (h : v.Holds xs) :
    v.data_.slots.length = v.data_.capacity_ := by
  obtain ⟨_, h2, h3, _⟩ := h
  rw [h3]
  simp
  omega

theorem Vector.Holds.live_eq {v : Vector T} {xs : List T} (h : v.Holds xs) : v.live = xs := by
  obtain ⟨h1, h2, h3, _⟩ := h
  unfold Vector.live
  rw [h3, h1, readRange_map_some _ _ _ _ (by omega)]
  simp

theorem all_none_of_getElem? {b : Buf T} (h : ∀ i, i < b.length → b[i]? = some none) :
    ∀ s ∈ b, s = none := by
  intro s hs
  obtain ⟨i, hi, rfl⟩ := List.getElem_of_mem hs
  have := h i hi
  rw [List.getElem?_eq_getElem hi] at this
  exact Option.some.inj this

theorem slots_withSlots (m : RawMemory T) (b : Buf T) :
    (m.withSlots b).slots = if m.buffer_.isSome then b else [] := by
  unfold RawMemory.withSlots RawMemory.slots
  cases m.buffer_ <;> simp

theorem mem_slots_withSlots {m : RawMemory T} {b : Buf T} {s : Option T}
    (h : s ∈ (m.withSlots b).slots) : s ∈ b := by
  rw [slots_withSlots] at h
  split at h
  · exact h
  · simp at h

theorem withSlots_slots (m : RawMemory T) : m.withSlots m.slots = m := by
  unfold RawMemory.withSlots RawMemory.slots
  cases m with
  | mk b c => cases b <;> simp

/-- After the live range of a block whose tail is raw has been destroyed, nothing in it is
constructed. -/
theorem destroy_n_all_none {b old : Buf T} {n : Nat} (hlen : old.length = b.length)
    (hraw : ∀ i, n ≤ i → i < b.length → b[i]? = some none)
    (hout : ∀ i, n ≤ i → old[i]? = b[i]?) :
    ∀ s ∈ destroy_n old 0 n, s = none := by
  apply all_none_of_getElem?
  intro i hi
  rw [length_destroy_n] at hi
  rw [getElem?_destroy_n]
  by_cases h : i < n
  · have : 0 ≤ i ∧ i < 0 + n := by omega
    simp only [this, and_self, if_true]
    rw [List.getElem?_eq_getElem hi]
    rfl
  · have : ¬ (0 ≤ i ∧ i < 0 + n) := by omega
    simp only [this, if_false]
    rw [hout i (by omega)]
    exact hraw i (by omega) (by omega)

theorem Vector.Holds.raw_tail {v : Vector T} {xs : List T} (h : v.Holds xs) :
    ∀ i, v.size_ ≤ i → i < v.data_.slots.length → v.data_.slots[i]? = some none := by
  intro i hi hl
  have hlen := h.slots_length
  obtain ⟨h1, h2, h3, _⟩ := h
  rw [hlen] at hl
  rw [h3, getElem?_map_some_append_replicate]
  have : ¬ i < xs.length := by omega
  have h5 : i < xs.length + (v.data_.capacity_ - xs.length) := by omega
  simp [this, h5]

theorem EmplaceRealloc_ok {E : Elem T} {v : Vector T} {xs : List T} {p : Nat} {x : T} {it : Nat}
    (hv : v.Holds xs) (hp : p ≤ xs.length)
    (h : (v.EmplaceRealloc E p (.ok x)).result = .ok it) :
    it = p ∧ (v.EmplaceRealloc E p (.ok x)).vec.Holds (xs.take p ++ x :: xs.drop p) ∧
    (v.EmplaceRealloc E p (.ok x)).vec.data_.capacity_ = (if xs.length = 0 then 1 else xs.length * 2) ∧
    ∀ s ∈ (v.EmplaceRealloc E p (.ok x)).freed, s = none := by
  have hraw := hv.raw_tail
  obtain ⟨h1, h2, h3, h4⟩ := hv
  have hlen : v.data_.slots.length = v.data_.capacity_ := Vector.Holds.slots_length ⟨h1, h2, h3, h4⟩
  generalize ho : v.EmplaceRealloc E p (.ok x) = o at h ⊢
  unfold Vector.EmplaceRealloc at ho
  simp only [slots_granted] at ho
  have hr1 : readRange v.data_.slots 0 p = xs.take p := by
    rw [h3, readRange_map_some _ _ _ _ (by omega)]; simp
  split at ho
  · subst ho; cases h
  · rename_i old1 new1 hT1
    have ⟨hn1, hol1, hout1⟩ := UninitializedMoveOrCopy_ok hT1 (by rw [hr1]; simp; omega) (by omega)
    have hr2 : readRange old1 p (v.size_ - p) = xs.drop p := by
      rw [@readRange_congr T old1 v.data_.slots p (v.size_ - p)
          (fun i hi _ => hout1 i (Or.inr (by omega))), h3,
        readRange_map_some _ _ _ _ (by omega), h1]
      simp
    split at ho
    · subst ho; cases h
    · rename_i old2 new2 hT2
      have hsuf : new2 = writeRange new1 (p + 1) ((xs.drop p).map some) ∧
          old2.length = v.data_.slots.length ∧ ∀ i, v.size_ ≤ i → old2[i]? = v.data_.slots[i]? := by
        split at hT2
        · have ⟨a, b, c⟩ := UninitializedMoveOrCopy_ok hT2 (by rw [hr2]; simp; omega) (by omega)
          refine ⟨by rw [a, hr2], by omega, fun i hi => ?_⟩
          rw [c i (Or.inr (by omega)), hout1 i (Or.inr (by omega))]
        · rename_i hps
          have hps : p = v.size_ := by simpa using hps
          cases hT2
          have : xs.drop p = [] := by simp; omega
          refine ⟨by rw [this]; simp [writeRange_nil], hol1, fun i hi => ?_⟩
          exact hout1 i (Or.inr (by omega))
      obtain ⟨hn2, hol2, hout2⟩ := hsuf
      have hc : (if v.size_ = 0 then 1 else v.size_ * 2) ≠ 0 := by split <;> omega
      have hshape := build_shape (xs.take p) (xs.drop p) x (if v.size_ = 0 then 1 else v.size_ * 2)
        (by simp; split <;> omega)
      have hpl : (xs.take p).length = p := by simp; omega
      rw [hpl] at hshape
      subst ho
      simp only at h
      simp only [RawMemory.Swap, withSlots_granted _ _ hc]
      refine ⟨by cases h; rfl, ⟨?_, ?_, ?_, ?_⟩, by rw [h1], ?_⟩
      · simp; omega
      · simp; split <;> omega
      · simp only [RawMemory.slots, Option.getD_some]
        rw [hn2, hn1, hr1]
        unfold construct_at
        rw [hshape]
        simp
        omega
      · intro h0; exact absurd h0 hc
      · intro s hs
        exact destroy_n_all_none hol2 (fun i hi hl => hraw i hi hl) hout2 s (mem_slots_withSlots hs)

end advanced_vector

namespace advanced_vector
variable {T : Type}

theorem move_assign_at_ok {E : Elem T} {b b' : Buf T} {dst src : Nat} {d s : T}
    (hd : b[dst]? = some (some d)) (hs : b[src]? = some (some s))
    (h : move_assign_at E b dst src = (b', .ok ())) :
    b' = (b.set src (some (E.assigned_from d s))).set dst (some s) := by
  unfold move_assign_at at h
  rw [getSlot_eq_some.mpr hd, getSlot_eq_some.mpr hs] at h
  simp only at h
  split at h
  · cases h
  · rename_i d' s' hm
    obtain ⟨rfl, rfl⟩ := moveAssign_ok hm
    cases h
    rfl

/-- A completed `std::move_backward` by one slot: the range moved up by one, the slot at
its front is still constructed, everything else is untouched. -/
theorem move_backward_ok {E : Elem T} (m : Nat) : ∀ (b b' : Buf T) (L : Nat),
    move_backward E b L (L + 1) m = (b', .ok ()) → m ≤ L → L < b.length →
    (∀ i, L - m ≤ i → i ≤ L → ∃ x, b[i]? = some (some x)) →
    b'.length = b.length ∧ (∀ i, i < L - m ∨ L < i → b'[i]? = b[i]?) ∧
    (∀ i, L - m < i → i ≤ L → b'[i]? = b[i - 1]?) ∧ ∃ x, b'[L - m]? = some (some x) := by
  induction m with
  | zero =>
    intro b b' L h _ _ hc
    unfold move_backward at h
    cases h
    exact ⟨rfl, fun _ _ => rfl, fun i h1 h2 => by omega, hc L (by omega) (by omega)⟩
  | succ m ih =>
    intro b b' L h hm hL hc
    unfold move_backward at h
    simp only [Nat.add_sub_cancel] at h
    obtain ⟨d, hd⟩ := hc L (by omega) (by omega)
    obtain ⟨s, hs⟩ := hc (L - 1) (by omega) (by omega)
    split at h
    · cases h
    · rename_i b1 hb1
      have hb1 := move_assign_at_ok hd hs hb1
      obtain ⟨L', rfl⟩ : ∃ L', L = L' + 1 := ⟨L - 1, by omega⟩
      simp only [Nat.add_sub_cancel] at h hb1 hs
      have hg : ∀ i, b1[i]? = if i = L' + 1 then some (some s)
          else if i = L' then some (some (E.assigned_from d s)) else b[i]? := by
        intro i
        rw [hb1]
        simp only [List.getElem?_set, List.length_set]
        by_cases h1 : L' + 1 = i
        · subst h1; simp [hL]
        · have h1' : ¬ i = L' + 1 := fun h => h1 h.symm
          simp only [h1, h1', if_false]
          by_cases h2 : L' = i
          · subst h2
            have : L' < b.length := by omega
            simp [this]
          · have h2' : ¬ i = L' := fun h => h2 h.symm
            simp [h2, h2']
      have hlen1 : b1.length = b.length := by rw [hb1]; simp
      obtain ⟨i1, i2, i3, i4⟩ := ih b1 b' L' h (by omega) (by omega) (by
        intro i h1 h2
        rw [hg]
        by_cases h3 : i = L'
        · subst h3; simp
        · have : ¬ i = L' + 1 := by omega
          simp only [this, h3, if_false]
          exact hc i (by omega) (by omega))
      have e1 : L' + 1 - (m + 1) = L' - m := by omega
      rw [e1]
      refine ⟨by omega, ?_, ?_, i4⟩
      · intro i hi
        rw [i2 i (by omega), hg]
        have h5 : ¬ i = L' + 1 := by omega
        have h6 : ¬ i = L' := by omega
        simp [h5, h6]
      · intro i hi1 hi2
        by_cases h7 : i = L' + 1
        · subst h7
          rw [i2 _ (Or.inr (by omega)), hg]
          simp [hs]
        · rw [i3 i hi1 (by omega), hg]
          have h5 : ¬ i - 1 = L' + 1 := by omega
          have h6 : ¬ i - 1 = L' := by omega
          simp [h5, h6]

/-- A completed `std::move` down by one slot: the range moved down by one, the slot at its
back is still constructed, everything else is untouched. -/
theorem move_range_ok {E : Elem T} (m : Nat) : ∀ (b b' : Buf T) (F : Nat),
    move_range E b (F + 1) F m = (b', .ok ()) → F + m < b.length →
    (∀ i, F ≤ i → i ≤ F + m → ∃ x, b[i]? = some (some x)) →
    b'.length = b.length ∧ (∀ i, i < F ∨ F + m < i → b'[i]? = b[i]?) ∧
    (∀ i, F ≤ i → i < F + m → b'[i]? = b[i + 1]?) ∧ ∃ x, b'[F + m]? = some (some x) := by
  induction m with
  | zero =>
    intro b b' F h _ hc
    unfold move_range at h
    cases h
    exact ⟨rfl, fun _ _ => rfl, fun i h1 h2 => by omega, hc F (by omega) (by omega)⟩
  | succ m ih =>
    intro b b' F h hL hc
    unfold move_range at h
    obtain ⟨d, hd⟩ := hc F (by omega) (by omega)
    obtain ⟨s, hs⟩ := hc (F + 1) (by omega) (by omega)
    split at h
    · cases h
    · rename_i b1 hb1
      have hb1 := move_assign_at_ok hd hs hb1
      have hg : ∀ i, b1[i]? = if i = F then some (some s)
          else if i = F + 1 then some (some (E.assigned_from d s)) else b[i]? := by
        intro i
        rw [hb1]
        simp only [List.getElem?_set, List.length_set]
        by_cases h1 : F = i
        · subst h1
          have : F < b.length := by omega
          simp [this]
        · have h1' : ¬ i = F := fun h => h1 h.symm
          simp only [h1, h1', if_false]
          by_cases h2 : F + 1 = i
          · subst h2
            have : F + 1 < b.length := by omega
            simp [this]
          · have h2' : ¬ i = F + 1 := fun h => h2 h.symm
            simp [h2, h2']
      have hlen1 : b1.length = b.length := by rw [hb1]; simp
      obtain ⟨i1, i2, i3, i4⟩ := ih b1 b' (F + 1) h (by omega) (by
        intro i h1 h2
        rw [hg]
        by_cases h3 : i = F + 1
        · subst h3; simp
        · have : ¬ i = F := by omega
          simp only [this, h3, if_false]
          exact hc i (by omega) (by omega))
      have e1 : F + 1 + m = F + (m + 1) := by omega
      rw [e1] at i2 i3 i4
      refine ⟨by omega, ?_, ?_, i4⟩
      · intro i hi
        rw [i2 i (by omega), hg]
        have h5 : ¬ i = F + 1 := by omega
        have h6 : ¬ i = F := by omega
        simp [h5, h6]
      · intro i hi1 hi2
        by_cases h7 : i = F
        · subst h7
          rw [i2 _ (Or.inl (by omega)), hg]
          simp [hs]
        · rw [i3 i (by omega) hi2, hg]
          have h5 : ¬ i + 1 = F + 1 := by omega
          have h6 : ¬ i + 1 = F := by omega
          simp [h5, h6]

end advanced_vector

namespace advanced_vector
variable {T : Type}

theorem move_construct_at_ok {E : Elem T} {b b' : Buf T} {dst src : Nat} {s : T}
    (hs : b[src]? = some (some s)) (h : move_construct_at E b dst src = (b', .ok ())) :
    b' = (b.set src (some (E.moved_from s))).set dst (some s) := by
  unfold move_construct_at at h
  rw [getSlot_eq_some.mpr hs] at h
  simp only at h
  split at h
  · cases h
  · rename_i y r hm
    obtain ⟨rfl, rfl⟩ := moveCtor_ok hm
    cases h
    rfl

theorem move_assign_from_ok {E : Elem T} {b b' : Buf T} {dst : Nat} {d t : T}
    (hd : b[dst]? = some (some d)) (h : move_assign_from E b dst t = (b', .ok ())) :
    b' = b.set dst (some t) := by
  unfold move_assign_from at h
  rw [getSlot_eq_some.mpr hd] at h
  simp only at h
  split at h
  · cases h
  · rename_i d' s' hm
    obtain ⟨rfl, rfl⟩ := moveAssign_ok hm
    cases h
    rfl

theorem getElem?_insert_at (xs : List T) (x : T) (p i : Nat) (hp : p ≤ xs.length) :
    (xs.take p ++ x :: xs.drop p)[i]? =
      if i < p then xs[i]? else if i = p then some x else xs[i - 1]? := by
  have hl : (xs.take p).length = p := by simp; omega
  simp only [List.getElem?_append, hl, List.getElem?_take]
  by_cases h1 : i < p
  · simp [h1]
  · simp only [h1, if_false]
    by_cases h2 : i = p
    · subst h2; simp
    · obtain ⟨k, hk⟩ : ∃ k, i - p = k + 1 := ⟨i - p - 1, by omega⟩
      simp only [h2, if_false, hk, List.getElem?_cons_succ, List.getElem?_drop]
      congr 1
      omega

theorem Vector.Holds.getElem?_slots {v : Vector T} {xs : List T} (h : v.Holds xs) (i : Nat) :
    v.data_.slots[i]? = if i < xs.length then (xs[i]?).map some
      else if i < v.data_.capacity_ then some none else none := by
  obtain ⟨h1, h2, h3, _⟩ := h
  rw [h3, getElem?_map_some_append_replicate]
  have : xs.length + (v.data_.capacity_ - xs.length) = v.data_.capacity_ := by omega
  rw [this]

theorem Vector.Holds.buffer_isSome {v : Vector T} {xs : List T} (h : v.Holds xs)
    (hc : 0 < v.data_.capacity_) : v.data_.buffer_.isSome = true := by
  have hl := h.slots_length
  unfold RawMemory.slots at hl
  cases hb : v.data_.buffer_ with
  | none => rw [hb] at hl; simp at hl; omega
  | some b => rfl

/-- The shape of a block with a value inserted at `p` into spare capacity. -/
theorem holds_of_getElem? {v : Vector T} {ys : List T} {c : Nat} {b : Buf T}
    (hb : v.data_.buffer_.isSome = true) (hc : v.data_.capacity_ = c) (hc0 : 0 < c)
    (hys : ys.length ≤ c)
    (hg : ∀ i, b[i]? = if i < ys.length then (ys[i]?).map some
      else if i < c then some none else none) :
    (Vector.mk (v.data_.withSlots b) ys.length).Holds ys := by
  have hcap : (v.data_.withSlots b).capacity_ = c := by simp [RawMemory.withSlots, hc]
  refine ⟨rfl, by rw [hcap]; exact hys, ?_, ?_⟩
  · simp only [slots_withSlots, hb, if_true, hcap]
    apply List.ext_getElem?
    intro i
    rw [hg, getElem?_map_some_append_replicate]
    have : ys.length + (c - ys.length) = c := by omega
    rw [this]
  · intro h0
    rw [hcap] at h0
    omega


theorem Emplace_inplace_ok {E : Elem T} {v : Vector T} {xs : List T} {p : Nat} {x : T} {it : Nat}
    (hv : v.Holds xs) (hp : p ≤ xs.length) (hcap : v.size_ ≠ v.Capacity)
    (h : (v.Emplace E p (.ok x)).result = .ok it) :
    it = p ∧ (v.Emplace E p (.ok x)).vec.Holds (xs.take p ++ x :: xs.drop p) ∧
    (v.Emplace E p (.ok x)).vec.data_.capacity_ = v.data_.capacity_ ∧
    (v.Emplace E p (.ok x)).freed = [] := by
  have hS := hv.getElem?_slots
  have hlen := hv.slots_length
  have hsz : v.size_ = xs.length := hv.1
  have hle : xs.length ≤ v.data_.capacity_ := hv.2.1
  have hlt : xs.length < v.data_.capacity_ := by
    unfold Vector.Capacity RawMemory.Capacity at hcap
    omega
  have hbuf := hv.buffer_isSome (by omega)
  have hnl : (xs.take p ++ x :: xs.drop p).length = xs.length + 1 := by simp; omega
  generalize ho : v.Emplace E p (.ok x) = o at h ⊢
  unfold Vector.Emplace at ho
  rw [if_neg hcap] at ho
  split at ho
  · -- insertion at the end
    rename_i hpe
    subst ho
    simp only at h ⊢
    refine ⟨by cases h; rfl, ?_, by simp [RawMemory.withSlots], trivial⟩
    rw [hsz, ← hnl]
    apply holds_of_getElem? hbuf rfl (by omega) (by omega)
    intro i
    unfold construct_at
    rw [List.getElem?_set, hS, hnl, getElem?_insert_at _ _ _ _ hp, hlen]
    rw [hsz] at hpe
    subst hpe
    by_cases h1 : i < xs.length
    · have h2 : ¬ xs.length = i := by omega
      have h3 : i < xs.length + 1 := by omega
      simp [h1, h2, h3]
    · by_cases h2 : i = xs.length
      · subst h2; simp [hlt]
      · have h3 : ¬ xs.length = i := fun h => h2 h.symm
        have h4 : ¬ i < xs.length + 1 := by omega
        simp [h1, h3, h4]
  · -- insertion in the middle
    rename_i hpe
    rw [hsz] at hpe
    have hpn : p < xs.length := by omega
    obtain ⟨n, hn⟩ : ∃ n, xs.length = n + 1 := ⟨xs.length - 1, by omega⟩
    have hlast : ∃ last, xs[n]? = some last := by
      cases hx : xs[n]? with
      | none => simp at hx; omega
      | some l => exact ⟨l, rfl⟩
    obtain ⟨last, hlast⟩ := hlast
    have hSn : v.data_.slots[n]? = some (some last) := by
      rw [hS, hn, hlast]; simp
    unfold Vector.EmplaceShift at ho
    simp only [hsz, hn, Nat.add_sub_cancel] at ho
    split at ho
    · subst ho; cases h
    · rename_i b1 hb1
      have hb1 := move_construct_at_ok hSn hb1
      have hg1 : ∀ i, b1[i]? = if i = n + 1 then some (some last)
          else if i = n then some (some (E.moved_from last)) else v.data_.slots[i]? := by
        intro i
        rw [hb1]
        simp only [List.getElem?_set, List.length_set, hlen]
        by_cases h1 : n + 1 = i
        · subst h1
          have : n + 1 < v.data_.capacity_ := by omega
          simp [this]
        · have h1' : ¬ i = n + 1 := fun h => h1 h.symm
          simp only [h1, h1', if_false]
          by_cases h2 : n = i
          · subst h2
            have : n < v.data_.capacity_ := by omega
            simp [this]
          · have h2' : ¬ i = n := fun h => h2 h.symm
            simp [h2, h2']
      have hl1 : b1.length = v.data_.capacity_ := by rw [hb1]; simp [hlen]
      split at ho
      · split at ho <;> (subst ho; cases h)
      · rename_i b2 hb2
        obtain ⟨l2, o2, s2, c2⟩ := move_backward_ok _ _ _ _ hb2 (by omega) (by omega) (by
          intro i h1 h2
          rw [hg1]
          by_cases h3 : i = n
          · subst h3; simp
          · have h4 : ¬ i = n + 1 := by omega
            have h5 : i < xs.length := by omega
            simp only [h3, h4, if_false, hS, h5, if_true]
            cases hx : xs[i]? with
            | none => simp at hx; omega
            | some y => exact ⟨y, rfl⟩)
        have e1 : n - (n - p) = p := by omega
        rw [e1] at o2 s2 c2
        obtain ⟨d, hd⟩ := c2
        split at ho
        · rename_i b3 hb3
          have hb3 := move_assign_from_ok hd hb3
          subst ho
          simp only at h ⊢
          refine ⟨by cases h; rfl, ?_, by simp [RawMemory.withSlots], trivial⟩
          rw [← hn, ← hnl]
          apply holds_of_getElem? hbuf rfl (by omega) (by omega)
          intro i
          rw [hb3, List.getElem?_set, hnl, getElem?_insert_at _ _ _ _ hp, l2, hl1]
          by_cases h1 : i < p
          · have h2 : ¬ p = i := by omega
            have h3 : i < xs.length + 1 := by omega
            have h4 : ¬ i = n + 1 := by omega
            have h5 : ¬ i = n := by omega
            have h6 : i < xs.length := by omega
            simp only [h1, h2, h3, if_true, if_false]
            rw [o2 i (Or.inl h1), hg1]
            simp only [h4, h5, if_false, hS, h6, if_true]
          · by_cases h2 : i = p
            · subst h2
              have h3 : i < xs.length + 1 := by omega
              have h4 : i < v.data_.capacity_ := by omega
              simp [h3, h4]
            · have h2' : ¬ p = i := fun h => h2 h.symm
              simp only [h1, h2, h2', if_false]
              by_cases h3 : i ≤ n
              · have h4 : i < xs.length + 1 := by omega
                have h5 : ¬ i - 1 = n + 1 := by omega
                have h6 : ¬ i - 1 = n := by omega
                have h7 : i - 1 < xs.length := by omega
                rw [s2 i (by omega) h3, hg1]
                simp only [h4, h5, h6, h7, if_true, if_false, hS]
              · rw [o2 i (Or.inr (by omega)), hg1]
                by_cases h4 : i = n + 1
                · subst h4
                  have h5 : n + 1 < xs.length + 1 := by omega
                  simp [h5, hlast]
                · have h5 : ¬ i < xs.length + 1 := by omega
                  have h6 : ¬ i = n := by omega
                  have h7 : ¬ i < xs.length := by omega
                  simp only [h4, h5, h6, h7, if_false, hS]
        · split at ho
          · split at ho <;> (subst ho; cases h)
          · subst ho; cases h

end advanced_vector

namespace advanced_vector
variable {T : Type}

/-- A successful `Emplace` on a well-formed vector, in every branch. -/
theorem Emplace_ok {E : Elem T} {v : Vector T} {xs : List T} {p : Nat} {x : T} {it : Nat}
    (hv : v.Holds xs) (hp : p ≤ xs.length) (h : (v.Emplace E p (.ok x)).result = .ok it) :
    it = p ∧ (v.Emplace E p (.ok x)).vec.Holds (xs.take p ++ x :: xs.drop p) ∧
    (v.Emplace E p (.ok x)).vec.data_.capacity_ =
      (if v.size_ = v.Capacity then (if v.size_ = 0 then 1 else v.size_ * 2)
        else v.data_.capacity_) ∧
    ∀ s ∈ (v.Emplace E p (.ok x)).freed, s = none := by
  by_cases hc : v.size_ = v.Capacity
  · have e : v.Emplace E p (.ok x) = v.EmplaceRealloc E p (.ok x) := by
      unfold Vector.Emplace; rw [if_pos hc]
    rw [e] at h ⊢
    obtain ⟨a, b, c, d⟩ := EmplaceRealloc_ok hv hp h
    refine ⟨a, b, ?_, d⟩
    rw [c, if_pos hc, hv.1]
  · obtain ⟨a, b, c, d⟩ := Emplace_inplace_ok hv hp hc h
    refine ⟨a, b, ?_, ?_⟩
    · rw [c, if_neg hc]
    · rw [d]; simp

theorem NoThrow.moveCtor {E : Elem T} (hE : E.NoThrow) (x : T) :
    E.moveCtor x = .ok (x, E.moved_from x) := by
  unfold Elem.moveCtor
  rw [hE.2.1 x]
  simp

theorem NoThrow.copyCtor {E : Elem T} (hE : E.NoThrow) (x : T) : E.copyCtor x = .ok x := by
  unfold Elem.copyCtor
  rw [hE.1 x]

theorem NoThrow.moveAssign {E : Elem T} (hE : E.NoThrow) (d s : T) :
    E.moveAssign d s = .ok (s, E.assigned_from d s) := by
  unfold Elem.moveAssign
  rw [hE.2.2.1 d s]

theorem NoThrow.uninitialized_move_n {E : Elem T} (hE : E.NoThrow) (xs : List T) :
    (advanced_vector.uninitialized_move_n E xs).2 = .ok xs := by
  induction xs with
  | nil => rfl
  | cons x xs ih =>
    unfold advanced_vector.uninitialized_move_n
    rw [NoThrow.moveCtor hE]
    simp only
    split
    · rename_i h; rw [h] at ih; cases ih
    · rename_i h; rw [h] at ih; cases ih; rfl

theorem NoThrow.uninitialized_copy_n {E : Elem T} (hE : E.NoThrow) (xs : List T) :
    advanced_vector.uninitialized_copy_n E xs = .ok xs := by
  induction xs with
  | nil => rfl
  | cons x xs ih =>
    unfold advanced_vector.uninitialized_copy_n
    rw [NoThrow.copyCtor hE, ih]

theorem NoThrow.UninitializedMoveOrCopy {E : Elem T} (hE : E.NoThrow) (from_ to_ : Buf T)
    (first n d : Nat) :
    (advanced_vector.UninitializedMoveOrCopy E from_ first n to_ d).2.2 = .ok () := by
  unfold advanced_vector.UninitializedMoveOrCopy
  split
  · have := NoThrow.uninitialized_move_n hE (readRange from_ first n)
    split
    · rename_i h; rw [h] at this; cases this
    · rfl
  · rw [NoThrow.uninitialized_copy_n hE]

theorem NoThrow.move_assign_at {E : Elem T} (hE : E.NoThrow) (b : Buf T) (dst src : Nat) :
    (advanced_vector.move_assign_at E b dst src).2 = .ok () := by
  unfold advanced_vector.move_assign_at
  split
  · rw [NoThrow.moveAssign hE]
  · rfl

theorem NoThrow.move_backward {E : Elem T} (hE : E.NoThrow) (n : Nat) :
    ∀ (b : Buf T) (last d_last : Nat),
      (advanced_vector.move_backward E b last d_last n).2 = .ok () := by
  induction n with
  | zero => intro b last d_last; rfl
  | succ n ih =>
    intro b last d_last
    unfold advanced_vector.move_backward
    have := NoThrow.move_assign_at hE b (d_last - 1) (last - 1)
    split
    · rename_i h; rw [h] at this; cases this
    · exact ih _ _ _

theorem NoThrow.move_range {E : Elem T} (hE : E.NoThrow) (n : Nat) :
    ∀ (b : Buf T) (first d_first : Nat),
      (advanced_vector.move_range E b first d_first n).2 = .ok () := by
  induction n with
  | zero => intro b first d_first; rfl
  | succ n ih =>
    intro b first d_first
    unfold advanced_vector.move_range
    have := NoThrow.move_assign_at hE b d_first first
    split
    · rename_i h; rw [h] at this; cases this
    · exact ih _ _ _

theorem NoThrow.move_construct_at {E : Elem T} (hE : E.NoThrow) (b : Buf T) (dst src : Nat) :
    (advanced_vector.move_construct_at E b dst src).2 = .ok () := by
  unfold advanced_vector.move_construct_at
  split
  · rw [NoThrow.moveCtor hE]
  · rfl

theorem NoThrow.move_assign_from {E : Elem T} (hE : E.NoThrow) (b : Buf T) (dst : Nat) (t : T) :
    (advanced_vector.move_assign_from E b dst t).2 = .ok () := by
  unfold advanced_vector.move_assign_from
  split
  · rw [NoThrow.moveAssign hE]
  · rfl

theorem NoThrow.transfer_ne {E : Elem T} (hE : E.NoThrow) {from_ to_ old new : Buf T}
    {first n d : Nat} {e : Exn} :
    advanced_vector.UninitializedMoveOrCopy E from_ first n to_ d ≠ (old, new, .error e) := by
  intro h
  have := NoThrow.UninitializedMoveOrCopy hE from_ to_ first n d
  rw [h] at this
  cases this

theorem step_ne_error {r : Buf T × Except Exn Unit} (hr : r.2 = .ok ())
    {b : Buf T} {e : Exn} : r ≠ (b, .error e) := by
  intro h
  rw [h] at hr
  cases hr

/-- With an element type that never throws, `Emplace` of a constructed value returns. -/
theorem NoThrow.Emplace {E : Elem T} (hE : E.NoThrow) (v : Vector T) (p : Nat) (x : T) :
    (v.Emplace E p (.ok x)).result = .ok p := by
  unfold Vector.Emplace
  split
  · unfold Vector.EmplaceRealloc
    simp only
    split
    · rename_i h; exact absurd h (NoThrow.transfer_ne hE)
    · split
      · rename_i h
        split at h
        · exact absurd h (NoThrow.transfer_ne hE)
        · cases h
      · rfl
  · split
    · rfl
    · unfold Vector.EmplaceShift
      simp only
      split
      · rename_i h
        exact absurd h (step_ne_error (NoThrow.move_construct_at hE _ _ _))
      · split
        · rename_i h
          exact absurd h (step_ne_error (NoThrow.move_backward hE _ _ _ _))
        · split
          · rfl
          · rename_i h
            exact absurd h (step_ne_error (NoThrow.move_assign_from hE _ _ _))

end advanced_vector

namespace advanced_vector
variable {T : Type}

theorem all_none_replicate (c : Nat) : ∀ s ∈ List.replicate c (none : Option T), s = none := by
  intro s hs
  exact (List.mem_replicate.mp hs).2

/-- When building the new element throws, `Emplace` leaves the vector as it was and the
exception leaves the call, in every branch. -/
theorem Emplace_ctor_error (E : Elem T) (v : Vector T) (p : Nat) (e : Exn) :
    ((v.Emplace E p (.error e)).result = .error e ∨
      (v.Emplace E p (.error e)).result = .error e.sliced) ∧
    (v.Emplace E p (.error e)).vec = v ∧ ∀ s ∈ (v.Emplace E p (.error e)).freed, s = none := by
  unfold Vector.Emplace
  by_cases h1 : v.size_ = v.Capacity
  · rw [if_pos h1]
    unfold Vector.EmplaceRealloc
    refine ⟨Or.inl rfl, rfl, ?_⟩
    simp only [slots_granted]
    exact all_none_replicate _
  · rw [if_neg h1]
    by_cases h2 : p = v.size_
    · rw [if_pos h2]
      exact ⟨Or.inr rfl, rfl, by simp⟩
    · rw [if_neg h2]
      unfold Vector.EmplaceShift
      exact ⟨Or.inl rfl, rfl, by simp⟩

theorem Emplace_newElem_ok {E : Elem T} {v : Vector T} {p it : Nat} {newElem : Except Exn T}
    (h : (v.Emplace E p newElem).result = .ok it) : ∃ x, newElem = .ok x := by
  cases newElem with
  | ok x => exact ⟨x, rfl⟩
  | error e =>
    rcases (Emplace_ctor_error E v p e).1 with h' | h' <;> rw [h'] at h <;> cases h

theorem Insert_eq_Emplace {E : Elem T} {v : Vector T} {p it : Nat} {x : T}
    (h : (v.Insert E p x).result = .ok it) : v.Insert E p x = v.Emplace E p (.ok x) := by
  unfold Vector.Insert at h ⊢
  obtain ⟨y, hy⟩ := Emplace_newElem_ok h
  rw [hy, copyCtor_ok hy]

theorem InsertMove_eq_Emplace {E : Elem T} {v : Vector T} {p it : Nat} {x : T}
    (h : (v.InsertMove E p x).result = .ok it) : v.InsertMove E p x = v.Emplace E p (.ok x) := by
  unfold Vector.InsertMove at h ⊢
  obtain ⟨y, hy⟩ := Emplace_newElem_ok h
  cases hm : E.moveCtor x with
  | error e => rw [hm] at hy; cases hy
  | ok yr =>
    obtain ⟨y', r⟩ := yr
    rw [(moveCtor_ok hm).1]
    rfl

/-- The list-level reading of a successful `Emplace` on a well-formed vector. -/
theorem Emplace_live {E : Elem T} {v : Vector T} {p it : Nat} {x : T} (hv : v.WF)
    (hp : p ≤ v.Size) (h : (v.Emplace E p (.ok x)).result = .ok it) :
    (v.Emplace E p (.ok x)).vec.live = v.live.take p ++ [x] ++ v.live.drop p ∧
    (v.Emplace E p (.ok x)).vec.Size = v.Size + 1 ∧ it = p := by
  have hsz : v.size_ = v.live.length := hv.1
  obtain ⟨a, b, _, _⟩ := Emplace_ok hv (by unfold Vector.Size at hp; omega) h
  refine ⟨by rw [b.live_eq]; simp, ?_, a⟩
  unfold Vector.Size
  rw [b.1, hsz]
  simp
  omega

/-- C1: on a well-formed `Vector` with live elements `xs`, a successful
`Emplace(begin() + p, v)` with `p ≤ size()` leaves the live elements equal to
`xs[0..p) ++ [v] ++ xs[p..size)`, makes `size()` one larger and returns the iterator
`begin() + p`, whichever branch runs (reallocation or in-place shift, at the end or in the
middle); both `Insert` overloads do the same; and for an element type that never throws
the call does succeed. -/
theorem C1_emplace_inserts_at_position (E : Elem T) (v : Vector T) (p : Nat) (x : T)
    (hv : v.WF) (hp : p ≤ v.Size) :
    (∀ it, (v.Emplace E p (.ok x)).result = .ok it →
      (v.Emplace E p (.ok x)).vec.live = v.live.take p ++ [x] ++ v.live.drop p ∧
      (v.Emplace E p (.ok x)).vec.Size = v.Size + 1 ∧ it = p) ∧
    (∀ it, (v.Insert E p x).result = .ok it →
      (v.Insert E p x).vec.live = v.live.take p ++ [x] ++ v.live.drop p ∧
      (v.Insert E p x).vec.Size = v.Size + 1 ∧ it = p) ∧
    (∀ it, (v.InsertMove E p x).result = .ok it →
      (v.InsertMove E p x).vec.live = v.live.take p ++ [x] ++ v.live.drop p ∧
      (v.InsertMove E p x).vec.Size = v.Size + 1 ∧ it = p) ∧
    (E.NoThrow → (v.Emplace E p (.ok x)).result = .ok p ∧ (v.Insert E p x).result = .ok p ∧
      (v.InsertMove E p x).result = .ok p) := by
  refine ⟨fun it h => Emplace_live hv hp h, fun it h => ?_, fun it h => ?_, fun hE => ?_⟩
  · have e := Insert_eq_Emplace h
    rw [e] at h ⊢
    exact Emplace_live hv hp h
  · have e := InsertMove_eq_Emplace h
    rw [e] at h ⊢
    exact Emplace_live hv hp h
  · refine ⟨NoThrow.Emplace hE v p x, ?_, ?_⟩
    · unfold Vector.Insert
      rw [NoThrow.copyCtor hE]
      exact NoThrow.Emplace hE v p x
    · unfold Vector.InsertMove
      rw [NoThrow.moveCtor hE]
      exact NoThrow.Emplace hE v p x

theorem C1_emplace_inserts_at_position_witness :
    (vecOf [1, 2, 3] 4).WF ∧ 1 ≤ (vecOf [1, 2, 3] 4).Size ∧
    ((vecOf [1, 2, 3] 4).Emplace intElem 1 (.ok 9)).result = .ok 1 ∧
    ((vecOf [1, 2, 3] 4).Emplace intElem 1 (.ok 9)).vec.live = [1, 9, 2, 3] ∧
    ((vecOf [1, 2, 3] 4).Emplace intElem 1 (.ok 9)).vec.Size = 4 :=
  have h := C1_emplace_inserts_at_position intElem (vecOf [1, 2, 3] 4) 1 9 (by decide) (by decide)
  ⟨by decide, by decide, rfl, (h.1 1 rfl).1, (h.1 1 rfl).2.1⟩

/-- C2: when constructing the new element from the arguments throws, `Emplace` lets the
exception leave the call (sliced to `std::exception` by the handler of the in-place
at-the-end branch) and the vector, hence `size()`, `capacity()` and every live element,
is exactly as before; this is so in the reallocating branch, the in-place branch at the
end and the in-place branch in the middle, and the block allocated by the reallocating
branch is released with nothing constructed in it. -/
theorem C2_emplace_ctor_failure_strong (E : Elem T) (v : Vector T) (p : Nat) (e : Exn) :
    (∃ e', (v.Emplace E p (.error e)).result = .error e') ∧
    (v.Emplace E p (.error e)).vec = v ∧
    (v.Emplace E p (.error e)).vec.Size = v.Size ∧
    (v.Emplace E p (.error e)).vec.Capacity = v.Capacity ∧
    (v.Emplace E p (.error e)).vec.live = v.live ∧
    (v.size_ = v.Capacity → (v.EmplaceRealloc E p (.error e)).vec = v) ∧
    (v.size_ ≠ v.Capacity → p ≠ v.size_ → (v.EmplaceShift E p (.error e)).vec = v) ∧
    ∀ s ∈ (v.Emplace E p (.error e)).freed, s = none := by
  obtain ⟨a, b, c⟩ := Emplace_ctor_error E v p e
  refine ⟨?_, b, by rw [b], by rw [b], by rw [b], fun _ => rfl, fun _ _ => rfl, c⟩
  rcases a with a | a
  · exact ⟨_, a⟩
  · exact ⟨_, a⟩

end advanced_vector

namespace advanced_vector
variable {T : Type}

theorem nothrow_uninitialized_move_n {E : Elem T} (hn : E.nothrow_move_constructible = true)
    (xs : List T) : (uninitialized_move_n E xs).2 = .ok xs := by
  induction xs with
  | nil => rfl
  | cons x xs ih =>
    unfold uninitialized_move_n
    have : E.moveCtor x = .ok (x, E.moved_from x) := by
      unfold Elem.moveCtor; rw [if_pos hn]
    rw [this]
    simp only
    split
    · rename_i h; rw [h] at ih; cases ih
    · rename_i h; rw [h] at ih; cases ih; rfl

/-- A transfer of a copy-constructible element type that throws has touched neither block:
it was done by copying (a `noexcept` move cannot throw). -/
theorem UninitializedMoveOrCopy_error {E : Elem T} (hcc : E.copy_constructible = true)
    {from_ to_ old new : Buf T} {first n d : Nat} {e : Exn}
    (h : UninitializedMoveOrCopy E from_ first n to_ d = (old, new, .error e)) :
    old = from_ ∧ new = to_ := by
  unfold UninitializedMoveOrCopy at h
  split at h
  · rename_i hc
    have hn : E.nothrow_move_constructible = true := by simpa [hcc] using hc
    have := nothrow_uninitialized_move_n hn (readRange from_ first n)
    split at h
    · rename_i hm; rw [hm] at this; cases this
    · cases h
  · split at h
    · cases h; exact ⟨rfl, rfl⟩
    · cases h

/-- A successful transfer that may be followed by a throwing one was done by copying and
left the source block as it was. -/
theorem UninitializedMoveOrCopy_copy_source {E : Elem T}
    (hn : E.nothrow_move_constructible = false) (hcc : E.copy_constructible = true)
    {from_ to_ old new : Buf T} {first n d : Nat} {r : Except Exn Unit}
    (h : UninitializedMoveOrCopy E from_ first n to_ d = (old, new, r)) : old = from_ := by
  unfold UninitializedMoveOrCopy at h
  rw [if_neg (by simp [hn, hcc])] at h
  split at h <;> (cases h; rfl)

theorem nothrow_transfer_ne {E : Elem T} (hn : E.nothrow_move_constructible = true)
    {from_ to_ old new : Buf T} {first n d : Nat} {e : Exn} :
    UninitializedMoveOrCopy E from_ first n to_ d ≠ (old, new, .error e) := by
  intro h
  unfold UninitializedMoveOrCopy at h
  rw [if_pos (by simp [hn])] at h
  have := nothrow_uninitialized_move_n hn (readRange from_ first n)
  split at h
  · rename_i hm; rw [hm] at this; cases this
  · cases h

/-- `Reserve` that throws, for a copy-constructible element type: nothing changed, and
the new block is released with nothing constructed in it. -/
theorem Reserve_error {E : Elem T} (hcc : E.copy_constructible = true) {v : Vector T}
    {n : Nat} {e : Exn} (h : (v.Reserve E n).result = .error e) :
    (v.Reserve E n).vec = v ∧ ∀ s ∈ (v.Reserve E n).freed, s = none := by
  generalize ho : v.Reserve E n = o at h ⊢
  unfold Vector.Reserve at ho
  split at ho
  · subst ho; cases h
  · split at ho
    · subst ho
      exact ⟨rfl, by simp⟩
    · rename_i new_data hA
      split at ho
      · rename_i old1 new1 e1 hT
        obtain ⟨rfl, rfl⟩ := UninitializedMoveOrCopy_error hcc hT
        subst ho
        refine ⟨by simp [withSlots_slots], ?_⟩
        show ∀ s ∈ new_data.slots, s = none
        rw [(ofCapacity_ok hA).2.2.2]
        exact all_none_replicate _
      · subst ho; cases h

/-- The reallocating `Emplace` that throws while transferring, for a copy-constructible
element type: nothing changed, and the new block is released with nothing constructed in
it. -/
theorem EmplaceRealloc_error {E : Elem T} (hcc : E.copy_constructible = true) {v : Vector T}
    {xs : List T} {p : Nat} {x : T} {e : Exn} (hv : v.Holds xs) (hp : p ≤ xs.length)
    (h : (v.EmplaceRealloc E p (.ok x)).result = .error e) :
    (v.EmplaceRealloc E p (.ok x)).vec = v ∧
    ∀ s ∈ (v.EmplaceRealloc E p (.ok x)).freed, s = none := by
  obtain ⟨h1, h2, h3, h4⟩ := hv
  have hlen : v.data_.slots.length = v.data_.capacity_ := Vector.Holds.slots_length ⟨h1, h2, h3, h4⟩
  have hr1 : readRange v.data_.slots 0 p = xs.take p := by
    rw [h3, readRange_map_some _ _ _ _ (by omega)]; simp
  generalize ho : v.EmplaceRealloc E p (.ok x) = o at h ⊢
  unfold Vector.EmplaceRealloc at ho
  simp only [slots_granted] at ho
  split at ho
  · rename_i old1 new1 e1 hT
    obtain ⟨rfl, rfl⟩ := UninitializedMoveOrCopy_error hcc hT
    subst ho
    refine ⟨by simp [withSlots_slots], ?_⟩
    intro s hs
    simp only [destroy_at, construct_at, List.set_set] at hs
    rcases List.mem_or_eq_of_mem_set hs with h' | h'
    · exact all_none_replicate _ s h'
    · exact h'
  · rename_i old1 new1 hT1
    have ⟨hn1, _, _⟩ := UninitializedMoveOrCopy_ok hT1 (by rw [hr1]; simp; omega) (by omega)
    split at ho
    · rename_i old2 new2 e2 hT2
      split at hT2
      · obtain ⟨rfl, rfl⟩ := UninitializedMoveOrCopy_error hcc hT2
        have hnm : E.nothrow_move_constructible = false := by
          cases hnm : E.nothrow_move_constructible with
          | false => rfl
          | true => exact absurd hT2 (nothrow_transfer_ne hnm)
        have := UninitializedMoveOrCopy_copy_source hnm hcc hT1
        subst this
        subst ho
        refine ⟨by simp [withSlots_slots], ?_⟩
        apply all_none_of_getElem?
        intro i hi
        rw [length_destroy_n] at hi
        rw [getElem?_destroy_n]
        by_cases hip : i < p + 1
        · have : 0 ≤ i ∧ i < 0 + (p + 1) := by omega
          simp only [this, and_self, if_true]
          rw [List.getElem?_eq_getElem hi]
          rfl
        · have : ¬ (0 ≤ i ∧ i < 0 + (p + 1)) := by omega
          simp only [this, if_false]
          rw [hn1] at hi ⊢
          rw [getElem?_writeRange _ _ _ _ (by
            simp [construct_at, hr1]; split <;> omega)]
          rw [length_writeRange _ _ _ (by
            simp [construct_at, hr1]; split <;> omega)] at hi
          simp only [construct_at, List.length_set, List.length_replicate] at hi
          have h5 : ¬ i < 0 := by omega
          have h6 : ¬ i < 0 + (List.map some (readRange v.data_.slots 0 p)).length := by
            simp [hr1]; omega
          have h7 : ¬ p = i := by omega
          simp only [h5, h6, if_false, construct_at, List.getElem?_set, h7,
            List.getElem?_replicate, hi, if_true]
      · cases hT2
    · subst ho; cases h

end advanced_vector

namespace advanced_vector
variable {T : Type}

/-- C3 (defect in the code): inserting 9 at the front of `[1, 2, 3]` (capacity 4) when the
final move assignment of the temporary throws: the handler moves `[before + 1, end())`
back, which stops one slot short of the tail slot, then destroys the tail slot that holds
the displaced last element, so the live elements end as `[1, 2, 2]`, not `[1, 2, 3]`; and
when a move assignment of the shift itself throws (front insertion into `[9, 2, 3]`) the
handler destroys the tail slot without moving anything back, leaving `[9, 2, 2]`. -/
theorem C3_emplace_middle_rollback_loses_last :
    (vecOf [1, 2, 3] 4).WF ∧ (vecOf [1, 2, 3] 4).live = [1, 2, 3] ∧
    ((vecOf [1, 2, 3] 4).Emplace assignThrowsElem 0 (.ok 9)).result = .error (.std 0) ∧
    ((vecOf [1, 2, 3] 4).Emplace assignThrowsElem 0 (.ok 9)).vec.Size = 3 ∧
    ((vecOf [1, 2, 3] 4).Emplace assignThrowsElem 0 (.ok 9)).vec.live = [1, 2, 2] ∧
    getSlot ((vecOf [1, 2, 3] 4).Emplace assignThrowsElem 0 (.ok 9)).vec.data_.slots 3 = none ∧
    (vecOf [9, 2, 3] 4).WF ∧
    ((vecOf [9, 2, 3] 4).Emplace assignThrowsElem 0 (.ok 7)).result = .error (.std 0) ∧
    ((vecOf [9, 2, 3] 4).Emplace assignThrowsElem 0 (.ok 7)).vec.live = [9, 2, 2] ∧
    ((vecOf [1, 2, 3] 4).Emplace assignThrowsElem 0 (.ok 9)).vec.live ≠ (vecOf [1, 2, 3] 4).live ∧
    ((vecOf [9, 2, 3] 4).Emplace assignThrowsElem 0 (.ok 7)).vec.live ≠ (vecOf [9, 2, 3] 4).live :=
  ⟨by decide, by decide, rfl, by decide, by decide, by decide, by decide, rfl, by decide,
    by decide, by decide⟩

/-- C4 as stated fails for a move-only element type whose move constructor throws:
`Reserve(4)` on `[1, 9]` (capacity 2) moves the 1, throws on the 9, and leaves the live
elements as `[0, 9]`; `Emplace(end(), 5)` on the same full vector does the same while
transferring the prefix. -/
theorem C4_counterexample_move_only :
    (vecOf [1, 9] 2).WF ∧ (vecOf [1, 9] 2).Capacity < 4 ∧ (vecOf [1, 9] 2).live = [1, 9] ∧
    ((vecOf [1, 9] 2).Reserve moveOnlyElem 4).result = .error (.std 1) ∧
    ((vecOf [1, 9] 2).Reserve moveOnlyElem 4).vec.live = [0, 9] ∧
    (vecOf [1, 9] 2).Size = (vecOf [1, 9] 2).Capacity ∧
    ((vecOf [1, 9] 2).Emplace moveOnlyElem 2 (.ok 5)).result = .error (.std 1) ∧
    ((vecOf [1, 9] 2).Emplace moveOnlyElem 2 (.ok 5)).vec.live = [0, 9] ∧
    ((vecOf [1, 9] 2).Reserve moveOnlyElem 4).vec.live ≠ (vecOf [1, 9] 2).live ∧
    ((vecOf [1, 9] 2).Emplace moveOnlyElem 2 (.ok 5)).vec.live ≠ (vecOf [1, 9] 2).live :=
  ⟨by decide, by decide, by decide, rfl, by decide, by decide, rfl, by decide, by decide,
    by decide⟩

/-- C4 (amended): for a copy-constructible element type, when `Reserve(n)`, or `Emplace`
on a full well-formed `Vector` with a valid position, throws while transferring the
existing elements into the new block, the exception leaves the call, the vector (its
`size()`, `capacity()` and live elements) is unchanged, and the new block is released
with nothing left constructed in it (the new element included). -/
theorem C4_reallocation_atomic_when_copyable (E : Elem T) (v : Vector T)
    (hcc : E.copy_constructible = true) (hv : v.WF) :
    (∀ n e, (v.Reserve E n).result = .error e →
      (v.Reserve E n).vec = v ∧ ∀ s ∈ (v.Reserve E n).freed, s = none) ∧
    (∀ p x e, p ≤ v.Size → v.Size = v.Capacity → (v.Emplace E p (.ok x)).result = .error e →
      (v.Emplace E p (.ok x)).vec = v ∧ ∀ s ∈ (v.Emplace E p (.ok x)).freed, s = none) := by
  refine ⟨fun n e h => Reserve_error hcc h, fun p x e hp hfull h => ?_⟩
  have e1 : v.Emplace E p (.ok x) = v.EmplaceRealloc E p (.ok x) := by
    unfold Vector.Emplace
    rw [if_pos (show v.size_ = v.Capacity from hfull)]
  rw [e1] at h ⊢
  have hp' : p ≤ v.live.length := by
    have : v.size_ = v.live.length := hv.1
    unfold Vector.Size at hp
    omega
  exact EmplaceRealloc_error hcc hv hp' h

theorem C4_reallocation_atomic_when_copyable_witness :
    copyThrowsElem.copy_constructible = true ∧ (vecOf [1, 9] 2).WF ∧
    ((vecOf [1, 9] 2).Reserve copyThrowsElem 4).result = .error (.std 1) ∧
    ((vecOf [1, 9] 2).Reserve copyThrowsElem 4).vec = vecOf [1, 9] 2 ∧
    ((vecOf [1, 9] 2).Emplace copyThrowsElem 1 (.ok 5)).result = .error (.std 1) ∧
    ((vecOf [1, 9] 2).Emplace copyThrowsElem 1 (.ok 5)).vec = vecOf [1, 9] 2 :=
  have h := C4_reallocation_atomic_when_copyable copyThrowsElem (vecOf [1, 9] 2) rfl (by decide)
  ⟨rfl, by decide, rfl, (h.1 4 (.std 1) rfl).1, rfl,
    (h.2 1 5 (.std 1) (by decide) (by decide) rfl).1⟩

end advanced_vector

namespace simple_vector
variable {T : Type}


theorem sv_move_assign_at_eq {E : Elem T} {b : List T} {dst src : Nat} {d s : T}
    (hd : b[dst]? = some d) (hs : b[src]? = some s) :
    move_assign_at E b dst src = (b.set src (E.assigned_from d s)).set dst s := by
  unfold move_assign_at
  rw [hd, hs]

theorem getElem?_some_of_lt {b : List T} {i : Nat} (h : i < b.length) : ∃ x, b[i]? = some x :=
  ⟨b[i], List.getElem?_eq_getElem h⟩

/-- `std::move` down by one slot inside one array. -/
theorem sv_move_range_spec {E : Elem T} (m : Nat) : ∀ (b : List T) (F : Nat),
    F + m < b.length →
    (move_range E b (F + 1) F m).length = b.length ∧
    (∀ i, i < F ∨ F + m < i → (move_range E b (F + 1) F m)[i]? = b[i]?) ∧
    (∀ i, F ≤ i → i < F + m → (move_range E b (F + 1) F m)[i]? = b[i + 1]?) := by
  induction m with
  | zero =>
    intro b F _
    exact ⟨rfl, fun _ _ => rfl, fun i h1 h2 => by omega⟩
  | succ m ih =>
    intro b F hL
    unfold move_range
    obtain ⟨d, hd⟩ := getElem?_some_of_lt (show F < b.length by omega)
    obtain ⟨s, hs⟩ := getElem?_some_of_lt (show F + 1 < b.length by omega)
    rw [sv_move_assign_at_eq hd hs]
    have hg : ∀ i, ((b.set (F + 1) (E.assigned_from d s)).set F s)[i]? =
        if i = F then some s else if i = F + 1 then some (E.assigned_from d s) else b[i]? := by
      intro i
      simp only [List.getElem?_set, List.length_set]
      by_cases h1 : F = i
      · subst h1
        have : F < b.length := by omega
        simp [this]
      · have h1' : ¬ i = F := fun h => h1 h.symm
        simp only [h1, h1', if_false]
        by_cases h2 : F + 1 = i
        · subst h2
          have : F + 1 < b.length := by omega
          simp [this]
        · have h2' : ¬ i = F + 1 := fun h => h2 h.symm
          simp [h2, h2']
    obtain ⟨i1, i2, i3⟩ := ih ((b.set (F + 1) (E.assigned_from d s)).set F s) (F + 1)
      (by simp; omega)
    have e1 : F + 1 + m = F + (m + 1) := by omega
    rw [e1] at i2 i3
    refine ⟨by rw [i1]; simp, ?_, ?_⟩
    · intro i hi
      rw [i2 i (by omega), hg]
      have h5 : ¬ i = F + 1 := by omega
      have h6 : ¬ i = F := by omega
      simp [h5, h6]
    · intro i hi1 hi2
      by_cases h7 : i = F
      · subst h7
        rw [i2 _ (Or.inl (by omega)), hg]
        simp [hs]
      · rw [i3 i (by omega) hi2, hg]
        have h5 : ¬ i + 1 = F + 1 := by omega
        have h6 : ¬ i + 1 = F := by omega
        simp [h5, h6]

end simple_vector

namespace simple_vector
variable {T : Type}

theorem Get_ofSize (E : Elem T) (n : Nat) :
    (ArrayPtr.ofSize E n).Get = List.replicate n E.default_init := by
  unfold ArrayPtr.ofSize ArrayPtr.Get
  by_cases h : n = 0
  · subst h; simp
  · simp [h]

theorem Get_withItems_ofSize (E : Elem T) (n : Nat) (l : List T) (h : n ≠ 0) :
    ((ArrayPtr.ofSize E n).withItems l).Get = l := by
  simp [ArrayPtr.ofSize, ArrayPtr.withItems, ArrayPtr.Get, h]

theorem withItems_Get (a : ArrayPtr T) : a.withItems a.Get = a := by
  unfold ArrayPtr.withItems ArrayPtr.Get
  cases a with
  | mk p => cases p <;> simp

theorem Get_withItems (a : ArrayPtr T) (l : List T) (h : 0 < a.Get.length) :
    (a.withItems l).Get = l := by
  unfold ArrayPtr.withItems ArrayPtr.Get at *
  cases hp : a.raw_ptr_ with
  | none => rw [hp] at h; simp at h
  | some p => simp

theorem length_move_into (src dst : List T) (first n d : Nat) (h1 : first + n ≤ src.length)
    (h2 : d + n ≤ dst.length) : (move_into src first n dst d).length = dst.length := by
  have hl : ((src.drop first).take n).length = n := by simp; omega
  simp only [move_into, List.length_append, List.length_take, List.length_drop, hl]
  omega

theorem getElem?_move_into (src dst : List T) (first n d i : Nat)
    (h1 : first + n ≤ src.length) (h2 : d + n ≤ dst.length) :
    (move_into src first n dst d)[i]? =
      if i < d then dst[i]? else if i < d + n then src[first + (i - d)]? else dst[i]? := by
  have hl : ((src.drop first).take n).length = n := by simp; omega
  simp only [move_into, List.append_assoc, List.getElem?_append, List.length_take,
    List.getElem?_take, List.getElem?_drop, hl, List.length_drop]
  have hm : min d dst.length = d := by omega
  have hm2 : min n (src.length - first) = n := by omega
  simp only [hm, hm2]
  by_cases h3 : i < d
  · simp [h3]
  · simp only [h3, if_false]
    by_cases h4 : i - d < n
    · have : i < d + n := by omega
      simp [h4, this]
    · have : ¬ i < d + n := by omega
      simp only [h4, this, if_false]
      congr 1
      omega

theorem take_move_into_front (src dst : List T) (n : Nat) (h1 : n ≤ src.length)
    (h2 : n ≤ dst.length) : (move_into src 0 n dst 0).take n = src.take n := by
  apply List.ext_getElem?
  intro i
  simp only [List.getElem?_take]
  by_cases h : i < n
  · rw [if_pos h, if_pos h, getElem?_move_into _ _ _ _ _ _ (by omega) (by omega)]
    simp [h]
  · simp [h]

/-- `SimpleVector::Reserve`: size and live elements stay, the capacity becomes the larger
of the old capacity and the request. -/
theorem sv_Reserve_spec (E : Elem T) (v : SimpleVector T) (c : Nat) (hv : v.WF) :
    (v.Reserve E c).1.WF ∧ (v.Reserve E c).1.size_ = v.size_ ∧
    (v.Reserve E c).1.live = v.live ∧
    (c ≤ v.capacity_ → v.Reserve E c = (v, .ok ())) ∧
    ((v.Reserve E c).2 = .ok () → v.capacity_ < c → (v.Reserve E c).1.capacity_ = c) ∧
    (v.capacity_ < c → E.new_throws c = false → (v.Reserve E c).2 = .ok ()) ∧
    (v.capacity_ < c → E.new_throws c = true → v.Reserve E c = (v, .error .bad_alloc)) := by
  obtain ⟨h1, h2⟩ := hv
  unfold SimpleVector.Reserve
  by_cases h : c > v.capacity_
  · rw [if_pos h]
    by_cases ht : E.new_throws c = true
    · rw [if_pos ht]
      exact ⟨⟨h1, h2⟩, rfl, rfl, fun h' => (by omega), fun h' => (by cases h'),
        fun _ h' => (by rw [ht] at h'; cases h'), fun _ _ => rfl⟩
    · rw [if_neg ht]
      have hc : c ≠ 0 := by omega
      have hl := length_move_into v.items_.Get (List.replicate c E.default_init) 0 v.size_ 0
        (by omega) (by simp; omega)
      have hg : ((ArrayPtr.swap v.items_ ((ArrayPtr.ofSize E c).withItems
          (move_into v.items_.Get 0 v.size_ (ArrayPtr.ofSize E c).Get 0))).1).Get =
          move_into v.items_.Get 0 v.size_ (List.replicate c E.default_init) 0 := by
        simp only [ArrayPtr.swap, Get_withItems_ofSize _ _ _ hc, Get_ofSize]
      refine ⟨⟨?_, ?_⟩, rfl, ?_, fun h' => (by omega), fun _ _ => rfl, fun _ _ => rfl,
        fun _ h' => absurd h' ht⟩
      · show v.size_ ≤ c
        omega
      · show c ≤ _
        rw [hg, hl]
        simp
      · show List.take v.size_ _ = _
        rw [hg]
        exact take_move_into_front _ _ _ (by omega) (by simp; omega)
  · rw [if_neg h]
    exact ⟨⟨h1, h2⟩, rfl, rfl, fun _ => rfl, fun _ h' => (by omega), fun h' => (by omega),
      fun h' => (by omega)⟩

/-- `SimpleVector::PushBack`: the value is appended, the capacity doubles (from 0: becomes
1) exactly when the array was full. -/
theorem sv_pushed_spec (E : Elem T) (v : SimpleVector T) (x : T) (hv : v.WF) :
    (v.pushed E x).WF ∧ (v.pushed E x).live = v.live ++ [x] ∧
    (v.pushed E x).size_ = v.size_ + 1 ∧
    (v.pushed E x).capacity_ =
      (if v.size_ = v.capacity_ then max 1 (v.capacity_ * 2) else v.capacity_) := by
  obtain ⟨h1, h2⟩ := hv
  have key : ∀ (items : List T), v.size_ < items.length → items.take v.size_ = v.live →
      (items.set v.size_ x).take (v.size_ + 1) = v.live ++ [x] := by
    intro items hl ht
    rw [← ht]
    apply List.ext_getElem?
    intro i
    simp only [List.getElem?_take, List.getElem?_set, List.getElem?_append, List.length_take]
    have hm : min v.size_ items.length = v.size_ := by omega
    rw [hm]
    by_cases h3 : i < v.size_
    · have h4 : i < v.size_ + 1 := by omega
      have h5 : ¬ v.size_ = i := by omega
      simp [h3, h4, h5]
    · by_cases h4 : i = v.size_
      · subst h4; simp [hl]
      · have h5 : ¬ i < v.size_ + 1 := by omega
        have h6 : ¬ i - v.size_ = 0 := by omega
        simp only [h3, h5, if_false]
        cases hh : i - v.size_ with
        | zero => omega
        | succ k => simp
  unfold SimpleVector.pushed
  by_cases h : v.size_ = v.capacity_
  · rw [if_pos h, if_pos h]
    have hc : max 1 (v.capacity_ * 2) ≠ 0 := by omega
    have hgt : v.capacity_ < max 1 (v.capacity_ * 2) := by omega
    have hl := length_move_into v.items_.Get (List.replicate (max 1 (v.capacity_ * 2))
      E.default_init) 0 v.size_ 0 (by omega) (by simp; omega)
    simp only [List.length_replicate] at hl
    have hg1 : ((ArrayPtr.swap v.items_ ((ArrayPtr.ofSize E (max 1 (v.capacity_ * 2))).withItems
        (move_into v.items_.Get 0 v.size_ (ArrayPtr.ofSize E (max 1 (v.capacity_ * 2))).Get
          0))).1).Get =
        move_into v.items_.Get 0 v.size_
          (List.replicate (max 1 (v.capacity_ * 2)) E.default_init) 0 := by
      simp only [ArrayPtr.swap, Get_withItems_ofSize _ _ _ hc, Get_ofSize]
    have hg : ∀ l : List T, (((ArrayPtr.swap v.items_
        ((ArrayPtr.ofSize E (max 1 (v.capacity_ * 2))).withItems
        (move_into v.items_.Get 0 v.size_ (ArrayPtr.ofSize E (max 1 (v.capacity_ * 2))).Get
          0))).1).withItems l).Get = l := by
      intro l
      apply Get_withItems
      rw [hg1, hl]
      omega
    refine ⟨⟨?_, ?_⟩, ?_, rfl, rfl⟩
    · show v.size_ + 1 ≤ max 1 (v.capacity_ * 2)
      omega
    · show max 1 (v.capacity_ * 2) ≤ _
      rw [hg, hg1]
      simp [hl]
    · show List.take (v.size_ + 1) _ = _
      rw [hg, hg1]
      exact key _ (by rw [hl]; omega) (take_move_into_front _ _ _ (by omega) (by simp; omega))
  · rw [if_neg h, if_neg h]
    have hpos : 0 < v.items_.Get.length := by omega
    refine ⟨⟨?_, ?_⟩, ?_, rfl, rfl⟩
    · show v.size_ + 1 ≤ v.capacity_
      omega
    · show v.capacity_ ≤ _
      rw [Get_withItems _ _ hpos]
      simp
      omega
    · show List.take (v.size_ + 1) _ = _
      rw [Get_withItems _ _ hpos]
      exact key _ (by omega) rfl

end simple_vector

namespace simple_vector
variable {T : Type}

theorem getElem?_erase_at (xs : List T) (p i : Nat) (hp : p ≤ xs.length) :
    (xs.take p ++ xs.drop (p + 1))[i]? = if i < p then xs[i]? else xs[i + 1]? := by
  have hl : (xs.take p).length = p := by simp; omega
  simp only [List.getElem?_append, hl, List.getElem?_take, List.getElem?_drop]
  by_cases h1 : i < p
  · simp [h1]
  · simp only [h1, if_false]
    congr 1
    omega

theorem drop_move_out (E : Elem T) (src : List T) (p : Nat) :
    (move_out E src 0 p).drop p = src.drop p := by
  unfold move_out
  simp only [List.take_zero, List.nil_append, List.drop_zero, Nat.zero_add]
  rw [List.drop_append_eq_append_drop, List.drop_of_length_le (by simp)]
  simp only [List.length_map, List.length_take, List.nil_append]
  by_cases h : p ≤ src.length
  · rw [Nat.min_eq_left h, Nat.sub_self, List.drop_zero]
  · rw [List.drop_of_length_le (by simp; omega), List.drop_of_length_le (by omega)]

theorem move_into_move_out (E : Elem T) (src dst : List T) (p n d : Nat) :
    move_into (move_out E src 0 p) p n dst d = move_into src p n dst d := by
  unfold move_into
  rw [drop_move_out]

/-- `PushBack(const Type&)` of an object outside the array. -/
theorem PushBack_outside (E : Elem T) (v : SimpleVector T) (x : T) :
    v.PushBack E (.outside x) = some (v.pushed E x) := by
  unfold SimpleVector.PushBack SimpleVector.pushed copy_assign_from Arg.read
  by_cases h : v.size_ = v.capacity_
  · simp only [if_pos h]
    rfl
  · simp only [if_neg h]
    rfl

/-- `PushBack(Type&&)` of an object outside the array. -/
theorem PushBackMove_outside (E : Elem T) (v : SimpleVector T) (x : T) :
    v.PushBackMove E (.outside x) = some (v.pushed E x) := by
  unfold SimpleVector.PushBackMove SimpleVector.pushed copy_assign_from Arg.read
    move_assign_from_own
  by_cases h : v.size_ = v.capacity_
  · simp only [if_pos h]
    rfl
  · simp only [if_neg h]
    rfl

/-- `Insert(pos, const Type&)` of an object outside the array. -/
theorem Insert_outside (E : Elem T) (v : SimpleVector T) (p : Nat) (x : T) :
    v.Insert E p (.outside x) = some (v.inserted E p x) := by
  unfold SimpleVector.Insert SimpleVector.inserted copy_assign_from Arg.read
  by_cases h : v.size_ < v.capacity_
  · simp only [if_pos h]
    rfl
  · simp only [if_neg h, move_into_move_out]
    rfl

/-- `Insert(pos, Type&&)` of an object outside the array. -/
theorem InsertMove_outside (E : Elem T) (v : SimpleVector T) (p : Nat) (x : T) :
    v.InsertMove E p (.outside x) = some (v.inserted E p x) := by
  unfold SimpleVector.InsertMove SimpleVector.inserted move_assign_from_own
    move_assign_from_old
  by_cases h : v.size_ < v.capacity_
  · simp only [if_pos h]
    rfl
  · simp only [if_neg h, Option.map_some', move_into_move_out]

/-- The size and capacity after a `PushBack` (either overload) whose behaviour is defined,
whatever `item` designates. -/
theorem PushBack_sizes {E : Elem T} {v r : SimpleVector T} {item : Arg T}
    (h : v.PushBack E item = some r ∨ v.PushBackMove E item = some r) :
    r.size_ = v.size_ + 1 ∧
    r.capacity_ = (if v.size_ = v.capacity_ then max 1 (v.capacity_ * 2) else v.capacity_) := by
  unfold SimpleVector.PushBack SimpleVector.PushBackMove at h
  by_cases hf : v.size_ = v.capacity_
  · simp only [if_pos hf, Option.map_eq_some'] at h
    rw [if_pos hf]
    rcases h with ⟨l, _, rfl⟩ | ⟨l, _, rfl⟩ <;> exact ⟨rfl, rfl⟩
  · simp only [if_neg hf, Option.map_eq_some'] at h
    rw [if_neg hf]
    rcases h with ⟨l, _, rfl⟩ | ⟨l, _, rfl⟩ <;> exact ⟨rfl, rfl⟩

/-- The size, capacity and iterator after an `Insert` (either overload) whose behaviour is
defined, whatever `value` designates. -/
theorem Insert_sizes {E : Elem T} {v : SimpleVector T} {r : SimpleVector T × Nat} {p : Nat}
    {value : Arg T} (h : v.Insert E p value = some r ∨ v.InsertMove E p value = some r) :
    r.1.size_ = v.size_ + 1 ∧ r.2 = p ∧
    r.1.capacity_ = (if v.size_ < v.capacity_ then v.capacity_ else max 1 (v.capacity_ * 2)) := by
  unfold SimpleVector.Insert SimpleVector.InsertMove at h
  by_cases hf : v.size_ < v.capacity_
  · simp only [if_pos hf, Option.map_eq_some'] at h
    rw [if_pos hf]
    rcases h with ⟨l, _, rfl⟩ | ⟨l, _, rfl⟩ <;> exact ⟨rfl, rfl, rfl⟩
  · simp only [if_neg hf, Option.map_eq_some'] at h
    rw [if_neg hf]
    rcases h with ⟨l, _, rfl⟩ | ⟨l, _, rfl⟩ <;> exact ⟨rfl, rfl, rfl⟩

/-- `SimpleVector::Erase`: the elements after `p` move down by one, the capacity stays. -/
theorem sv_Erase_spec (E : Elem T) (v : SimpleVector T) (p : Nat) (hv : v.WF)
    (hp : p < v.size_) :
    (v.Erase E p).1.WF ∧ (v.Erase E p).1.live = v.live.take p ++ v.live.drop (p + 1) ∧
    (v.Erase E p).1.size_ = v.size_ - 1 ∧ (v.Erase E p).2 = p ∧
    (v.Erase E p).1.capacity_ = v.capacity_ := by
  obtain ⟨h1, h2⟩ := hv
  have hpos : 0 < v.items_.Get.length := by omega
  obtain ⟨m1, m2, m3⟩ := sv_move_range_spec (E := E) (v.size_ - (p + 1)) v.items_.Get p
    (by omega)
  unfold SimpleVector.Erase
  refine ⟨⟨?_, ?_⟩, ?_, rfl, rfl, rfl⟩
  · show v.size_ - 1 ≤ v.capacity_
    omega
  · show v.capacity_ ≤ _
    rw [Get_withItems _ _ hpos, m1]
    exact h2
  · show List.take (v.size_ - 1) _ = _
    rw [Get_withItems _ _ hpos]
    apply List.ext_getElem?
    intro i
    rw [getElem?_erase_at _ _ _ (by simp [SimpleVector.live]; omega)]
    simp only [SimpleVector.live, List.getElem?_take]
    by_cases h3 : i < p
    · have h4 : i < v.size_ - 1 := by omega
      have h5 : i < v.size_ := by omega
      simp only [h3, h4, h5, if_true]
      exact m2 i (Or.inl h3)
    · by_cases h4 : i < v.size_ - 1
      · have h5 : i + 1 < v.size_ := by omega
        simp only [h3, h4, h5, if_true, if_false]
        exact m3 i (by omega) (by omega)
      · have h5 : ¬ i + 1 < v.size_ := by omega
        simp [h3, h4, h5]

end simple_vector

namespace advanced_vector
variable {T : Type}

theorem writeRange_replicate_map_some (xs : List T) (n : Nat) (h : xs.length ≤ n) :
    writeRange (List.replicate n (none : Option T)) 0 (xs.map some) =
      xs.map some ++ List.replicate (n - xs.length) none := by
  rw [writeRange_eq _ _ _ (by simp; omega)]
  simp

/-- A `Reserve` that returns: same elements, capacity the larger of the old capacity and
the request, and the old block released with nothing constructed in it. -/
theorem Reserve_ok {E : Elem T} {v : Vector T} {xs : List T} {n : Nat} (hv : v.Holds xs)
    (hfit : v.Capacity < n → n * E.sizeof < 2 ^ 64) (h : (v.Reserve E n).result = .ok ()) :
    (v.Reserve E n).vec.Holds xs ∧ (n ≤ v.Capacity → (v.Reserve E n).vec = v) ∧
    (v.Capacity < n → (v.Reserve E n).vec.data_.capacity_ = n) ∧
    ∀ s ∈ (v.Reserve E n).freed, s = none := by
  have hraw := hv.raw_tail
  have hv' := hv
  obtain ⟨h1, h2, h3, h4⟩ := hv
  have hlen : v.data_.slots.length = v.data_.capacity_ := hv'.slots_length
  generalize ho : v.Reserve E n = o at h ⊢
  unfold Vector.Reserve at ho
  split at ho
  · rename_i hle
    subst ho
    exact ⟨hv', fun _ => rfl, fun hlt => by omega, by simp⟩
  · rename_i hgt
    have hgt' : v.data_.capacity_ < n := by
      unfold Vector.Capacity RawMemory.Capacity at hgt; omega
    have hr1 : readRange v.data_.slots 0 v.size_ = xs := by
      rw [h3, h1, readRange_map_some _ _ _ _ (by omega)]; simp
    split at ho
    · subst ho; cases h
    rename_i new_data hA
    have hg := ofCapacity_eq_granted (hfit (by omega)) hA
    subst hg
    simp only [slots_granted] at ho
    split at ho
    · subst ho; cases h
    · rename_i old1 new1 hT1
      have ⟨hn1, hol1, hout1⟩ := UninitializedMoveOrCopy_ok hT1 (by rw [hr1]; omega) (by omega)
      have hc : n ≠ 0 := by omega
      subst ho
      have hsw : (RawMemory.Swap (v.data_.withSlots (destroy_n old1 0 v.size_))
          ((RawMemory.granted n).withSlots new1)).1 = { buffer_ := some new1, capacity_ := n } := by
        simp only [RawMemory.Swap, withSlots_granted _ _ hc]
      refine ⟨⟨h1, ?_, ?_, ?_⟩, fun hle => ?_, fun _ => ?_, ?_⟩
      · simp only [hsw]
        omega
      · simp only [hsw, RawMemory.slots, Option.getD_some]
        rw [hn1, hr1, writeRange_replicate_map_some _ _ (by omega)]
      · simp only [hsw]
        intro h0
        exact absurd h0 hc
      · unfold Vector.Capacity RawMemory.Capacity at hle; omega
      · simp only [hsw]
      · intro s hs
        exact destroy_n_all_none hol1 (fun i hi hl => hraw i hi hl)
          (fun i hi => hout1 i (Or.inr (by omega))) s (mem_slots_withSlots hs)

theorem NoThrow.Reserve {E : Elem T} (hE : E.NoThrow) (v : Vector T) (n : Nat)
    (hfit : v.Capacity < n → n * E.sizeof < 2 ^ 64)
    (hnew : v.Capacity < n → E.new_throws (n * E.sizeof) = false) :
    (v.Reserve E n).result = .ok () := by
  unfold Vector.Reserve
  split
  · rfl
  · rw [ofCapacity_granted (hfit (by omega)) (hnew (by omega))]
    simp only
    split
    · rename_i h; exact absurd h (NoThrow.transfer_ne hE)
    · rfl

/-- A `Resize` that returns: the first `new_size` old elements, then value-initialised
ones; capacity the larger of the old capacity and `new_size`. -/
theorem Resize_ok {E : Elem T} {v : Vector T} {xs : List T} {n : Nat} (hv : v.Holds xs)
    (hfit : v.Capacity < n → n * E.sizeof < 2 ^ 64) (h : (v.Resize E n).result = .ok ()) :
    ∃ pad, (v.Resize E n).vec.Holds (xs.take n ++ pad) ∧ pad.length = n - xs.length ∧
      (∀ y ∈ pad, E.value_init = .ok y) ∧
      (v.Resize E n).vec.data_.capacity_ = max v.data_.capacity_ n ∧
      ∀ s ∈ (v.Resize E n).freed, s = none := by
  have hv' := hv
  have hS := hv.getElem?_slots
  obtain ⟨h1, h2, h3, h4⟩ := hv
  generalize ho : v.Resize E n = o at h ⊢
  unfold Vector.Resize at ho
  split at ho
  · rename_i heq
    subst ho
    refine ⟨[], ?_, by simp; omega, by simp, ?_, by simp⟩
    · have : xs.take n = xs := by rw [heq, h1]; simp
      simp only [List.append_nil, this]
      exact hv'
    · show v.data_.capacity_ = _
      omega
  · split at ho
    · rename_i hne hlt
      subst ho
      have hbuf := hv'.buffer_isSome (by omega)
      have hl : (xs.take n).length = n := by simp; omega
      refine ⟨[], ?_, by simp; omega, by simp, ?_, by simp⟩
      · simp only [List.append_nil]
        have := @holds_of_getElem? T v (xs.take n) v.data_.capacity_
          (destroy_n v.data_.slots n (v.size_ - n)) hbuf rfl (by omega) (by rw [hl]; omega) (by
            intro i
            rw [getElem?_destroy_n, hS, hl, List.getElem?_take]
            by_cases h5 : i < n
            · have h6 : ¬ (n ≤ i ∧ i < n + (v.size_ - n)) := by omega
              have h7 : i < xs.length := by omega
              simp [h5, h6, h7]
            · by_cases h6 : i < xs.length
              · have h7 : n ≤ i ∧ i < n + (v.size_ - n) := by omega
                have h8 : i < v.data_.capacity_ := by omega
                simp only [h5, h6, h7, h8, and_self, if_true, if_false]
                obtain ⟨y, hy⟩ : ∃ y, xs[i]? = some y := ⟨xs[i], List.getElem?_eq_getElem h6⟩
                rw [hy]
                rfl
              · have h7 : ¬ (n ≤ i ∧ i < n + (v.size_ - n)) := by omega
                simp only [h5, h6, h7, if_false])
        rw [hl] at this
        exact this
      · show (v.data_.withSlots _).capacity_ = _
        simp only [RawMemory.withSlots]
        omega
    · rename_i hne hge
      have hgt : xs.length < n := by omega
      split at ho
      · subst ho; cases h
      · rename_i v1 f hR
        have hRr : (v.Reserve E n).result = .ok () := by rw [hR]
        obtain ⟨r1, r2, r3, r4⟩ := Reserve_ok hv' hfit hRr
        rw [hR] at r1 r2 r3 r4
        simp only at r1 r2 r3 r4
        have hcap1 : v1.data_.capacity_ = max v.data_.capacity_ n := by
          by_cases hc : n ≤ v.Capacity
          · rw [r2 hc]
            unfold Vector.Capacity RawMemory.Capacity at hc
            omega
          · have hc' : v.Capacity < n := by omega
            rw [r3 hc']
            unfold Vector.Capacity RawMemory.Capacity at hc'
            omega
        have hS1 := r1.getElem?_slots
        have hsz1 : v1.size_ = xs.length := r1.1
        have hbuf1 := r1.buffer_isSome (by omega)
        have hlen1 := r1.slots_length
        unfold uninitialized_value_construct_n at ho
        rw [if_neg (by omega)] at ho
        cases hd : E.value_init with
        | error e =>
          rw [hd] at ho
          simp only at ho
          subst ho
          cases h
        | ok d =>
            rw [hd] at ho
            simp only at ho
            subst ho
            have hl : (xs.take n ++ List.replicate (n - xs.length) d).length = n := by
              simp; omega
            refine ⟨List.replicate (n - xs.length) d, ?_, by simp, ?_, hcap1, r4⟩
            · have := @holds_of_getElem? T v1 (xs.take n ++ List.replicate (n - xs.length) d)
                v1.data_.capacity_
                (writeRange v1.data_.slots v1.size_ (List.replicate (n - v1.size_) (some d)))
                hbuf1 rfl (by omega) (by rw [hl]; omega) (by
                  intro i
                  rw [getElem?_writeRange _ _ _ _ (by simp only [List.length_replicate]; omega),
                    hS1, hl, hsz1]
                  simp only [List.length_replicate, List.getElem?_append, List.getElem?_take,
                    List.length_take, List.getElem?_replicate]
                  have hm : min n xs.length = xs.length := by omega
                  rw [hm]
                  by_cases h5 : i < xs.length
                  · have h6 : i < n := by omega
                    simp [h5, h6]
                  · by_cases h6 : i < n
                    · have h7 : i < xs.length + (n - xs.length) := by omega
                      have h8 : i - xs.length < n - xs.length := by omega
                      simp [h5, h6, h7, h8]
                    · have h7 : ¬ i < xs.length + (n - xs.length) := by omega
                      simp [h5, h6, h7])
              rw [hl] at this
              exact this
            · intro y hy
              rw [(List.mem_replicate.mp hy).2]

end advanced_vector

namespace advanced_vector
variable {T : Type}

theorem NoThrow.Resize {E : Elem T} (hE : E.NoThrow) (v : Vector T) (n : Nat)
    (hfit : v.Capacity < n → n * E.sizeof < 2 ^ 64)
    (hnew : v.Capacity < n → E.new_throws (n * E.sizeof) = false) :
    (v.Resize E n).result = .ok () := by
  unfold Vector.Resize
  split
  · rfl
  · split
    · rfl
    · have hR := NoThrow.Reserve hE v n hfit hnew
      split
      · rename_i h; rw [h] at hR; cases hR
      · obtain ⟨d, hd⟩ := hE.2.2.2.2
        unfold uninitialized_value_construct_n
        rw [hd]
        split
        · rename_i h
          split at h <;> cases h
        · rfl

/-- `Reserve` when `operator new` throws: `std::bad_alloc` leaves the call and nothing has
changed. -/
theorem Reserve_bad_alloc {E : Elem T} (v : Vector T) (n : Nat) (hgt : v.Capacity < n)
    (hfit : n * E.sizeof < 2 ^ 64) (hnew : E.new_throws (n * E.sizeof) = true) :
    v.Reserve E n = ⟨v, .error Exn.bad_alloc, []⟩ := by
  have hA : RawMemory.ofCapacity E n = .error Exn.bad_alloc := by
    unfold RawMemory.ofCapacity
    rw [Allocate_pos E (by omega), Nat.mod_eq_of_lt hfit, if_pos hnew]
  unfold Vector.Reserve
  rw [if_neg (by omega), hA]

/-- `Resize` when `operator new` throws: `std::bad_alloc` leaves the call and nothing has
changed. -/
theorem Resize_bad_alloc {E : Elem T} (v : Vector T) (n : Nat) (hsz : v.size_ ≤ v.Capacity)
    (hgt : v.Capacity < n) (hfit : n * E.sizeof < 2 ^ 64)
    (hnew : E.new_throws (n * E.sizeof) = true) :
    v.Resize E n = ⟨v, .error Exn.bad_alloc, []⟩ := by
  unfold Vector.Resize
  rw [if_neg (by omega), if_neg (by omega), Reserve_bad_alloc v n hgt hfit hnew]

/-- An `Erase` that returns: the elements after `p` moved down by one, same capacity. -/
theorem Erase_ok {E : Elem T} {v : Vector T} {xs : List T} {p it : Nat} (hv : v.Holds xs)
    (hp : p < xs.length) (h : (v.Erase E p).result = .ok it) :
    it = p ∧ (v.Erase E p).vec.Holds (xs.take p ++ xs.drop (p + 1)) ∧
    (v.Erase E p).vec.data_.capacity_ = v.data_.capacity_ ∧ (v.Erase E p).freed = [] := by
  have hS := hv.getElem?_slots
  have hlen := hv.slots_length
  have hsz : v.size_ = xs.length := hv.1
  have hle : xs.length ≤ v.data_.capacity_ := hv.2.1
  have hbuf := hv.buffer_isSome (by omega)
  generalize ho : v.Erase E p = o at h ⊢
  unfold Vector.Erase at ho
  split at ho
  · subst ho; cases h
  · rename_i b hb
    obtain ⟨m1, m2, m3, _⟩ := move_range_ok _ _ _ _ hb (by omega) (by
      intro i hi1 hi2
      rw [hS, if_pos (by omega)]
      obtain ⟨y, hy⟩ : ∃ y, xs[i]? = some y :=
        ⟨xs.get ⟨i, by omega⟩, List.getElem?_eq_getElem (by omega)⟩
      exact ⟨y, by rw [hy]; rfl⟩)
    subst ho
    simp only at h ⊢
    have hl : (xs.take p ++ xs.drop (p + 1)).length = xs.length - 1 := by simp; omega
    refine ⟨by cases h; rfl, ?_, by simp [RawMemory.withSlots], trivial⟩
    rw [hsz, ← hl]
    apply holds_of_getElem? hbuf rfl (by omega) (by omega)
    intro i
    rw [hl, simple_vector.getElem?_erase_at _ _ _ (by omega)]
    unfold destroy_at
    rw [List.getElem?_set, m1, hlen]
    rw [hsz] at m2 m3
    by_cases h3 : i < p
    · have h4 : ¬ xs.length - 1 = i := by omega
      have h5 : i < xs.length - 1 := by omega
      have h6 : i < xs.length := by omega
      simp only [h3, h4, h5, if_true, if_false]
      rw [m2 i (Or.inl h3), hS, if_pos h6]
    · by_cases h4 : i < xs.length - 1
      · have h5 : ¬ xs.length - 1 = i := by omega
        have h6 : i + 1 < xs.length := by omega
        simp only [h3, h4, h5, if_true, if_false]
        rw [m3 i (by omega) (by omega), hS, if_pos h6]
      · by_cases h5 : i = xs.length - 1
        · have h6 : xs.length - 1 = i := h5.symm
          have h7 : xs.length - 1 < v.data_.capacity_ := by omega
          have h8 : i < v.data_.capacity_ := by omega
          simp [h4, h6, h7, h8]
        · have h6 : ¬ xs.length - 1 = i := fun h => h5 h.symm
          have h7 : ¬ i < xs.length := by omega
          simp only [h3, h4, h6, if_false]
          rw [m2 i (Or.inr (by omega)), hS, if_neg h7]

theorem NoThrow.Erase {E : Elem T} (hE : E.NoThrow) (v : Vector T) (p : Nat) :
    (v.Erase E p).result = .ok p := by
  unfold Vector.Erase
  split
  · rename_i h
    exact absurd h (step_ne_error (NoThrow.move_range hE _ _ _ _))
  · rfl

/-- `PopBack` on a non-empty vector drops the last element and keeps the capacity. -/
theorem PopBack_ok {v : Vector T} {xs : List T} (hv : v.Holds xs) (hne : 0 < xs.length) :
    v.PopBack.Holds xs.dropLast ∧ v.PopBack.data_.capacity_ = v.data_.capacity_ := by
  have hS := hv.getElem?_slots
  have hlen := hv.slots_length
  have hsz : v.size_ = xs.length := hv.1
  have hle : xs.length ≤ v.data_.capacity_ := hv.2.1
  have hbuf := hv.buffer_isSome (by omega)
  have hl : xs.dropLast.length = xs.length - 1 := by simp
  unfold Vector.PopBack
  refine ⟨?_, by simp [RawMemory.withSlots]⟩
  rw [hsz, ← hl]
  apply holds_of_getElem? hbuf rfl (by omega) (by omega)
  intro i
  unfold destroy_at
  rw [List.getElem?_set, hlen, hl, hS, List.dropLast_eq_take, List.getElem?_take]
  by_cases h3 : i < xs.length - 1
  · have h4 : ¬ xs.length - 1 = i := by omega
    have h5 : i < xs.length := by omega
    simp [h3, h4, h5]
  · by_cases h5 : i = xs.length - 1
    · have h6 : xs.length - 1 = i := h5.symm
      have h7 : xs.length - 1 < v.data_.capacity_ := by omega
      have h8 : i < v.data_.capacity_ := by omega
      simp [h3, h6, h7, h8]
    · have h6 : ¬ xs.length - 1 = i := fun h => h5 h.symm
      have h7 : ¬ i < xs.length := by omega
      simp [h3, h6, h7]

/-- A `PushBack` (either overload) that returns appends the value. -/
theorem PushBack_ok {E : Elem T} {v : Vector T} {xs : List T} {x : T} (hv : v.Holds xs) :
    ((v.PushBack E x).result = .ok () → (v.PushBack E x).vec.Holds (xs ++ [x])) ∧
    ((v.PushBackMove E x).result = .ok () → (v.PushBackMove E x).vec.Holds (xs ++ [x])) := by
  have hsz : v.size_ = xs.length := hv.1
  have key : ∀ newElem : Except Exn T, (∀ y, newElem = .ok y → y = x) →
      ((v.Emplace E v.size_ newElem).result.map fun _ => ()) = .ok () →
      (v.Emplace E v.size_ newElem).vec.Holds (xs ++ [x]) := by
    intro newElem hx h
    cases hr : (v.Emplace E v.size_ newElem).result with
    | error e => rw [hr] at h; cases h
    | ok it =>
      obtain ⟨y, hy⟩ := Emplace_newElem_ok hr
      have := hx y hy
      subst this
      subst hy
      obtain ⟨_, b, _, _⟩ := Emplace_ok hv (by omega) hr
      rw [hsz] at b ⊢
      simpa using b
  constructor
  · exact key _ (fun y hy => copyCtor_ok hy)
  · apply key
    intro y hy
    cases hm : E.moveCtor x with
    | error e => rw [hm] at hy; cases hy
    | ok yr =>
      obtain ⟨y', r⟩ := yr
      rw [hm] at hy
      cases hy
      exact (moveCtor_ok hm).1

theorem NoThrow.PushBack {E : Elem T} (hE : E.NoThrow) (v : Vector T) (x : T) :
    (v.PushBack E x).result = .ok () ∧ (v.PushBackMove E x).result = .ok () := by
  constructor
  · unfold Vector.PushBack Vector.EmplaceBack
    simp only
    rw [NoThrow.copyCtor hE, NoThrow.Emplace hE]
    rfl
  · unfold Vector.PushBackMove Vector.EmplaceBack
    simp only
    rw [NoThrow.moveCtor hE]
    show Except.map _ (Vector.Emplace E v v.size_ (.ok x)).result = _
    rw [NoThrow.Emplace hE]
    rfl

end advanced_vector

variable {T : Type}

/-- The length of the list a guarded script leaves: pushes minus pops. -/
theorem runOnList_length (ops : List (StackOp T)) : ∀ (l : List T),
    popsGuarded ops l.length = true →
    (runOnList ops l).length + countPop ops = l.length + countPush ops := by
  induction ops with
  | nil => intro l _; rfl
  | cons op ops ih =>
    intro l h
    cases op with
    | push x =>
      simp only [popsGuarded] at h
      have := ih (l ++ [x]) (by simpa using h)
      simp only [runOnList, StackOp.onList, countPop, countPush]
      simp at this
      omega
    | pushMove x =>
      simp only [popsGuarded] at h
      have := ih (l ++ [x]) (by simpa using h)
      simp only [runOnList, StackOp.onList, countPop, countPush]
      simp at this
      omega
    | pop =>
      simp only [popsGuarded, Bool.and_eq_true, decide_eq_true_eq] at h
      have := ih l.dropLast (by simpa using h.2)
      simp only [runOnList, StackOp.onList, countPop, countPush]
      simp at this
      omega

namespace advanced_vector

/-- A script that runs to its end on a `Vector` leaves what the list reading gives. -/
theorem run_ok {E : Elem T} (ops : List (StackOp T)) : ∀ (v v' : Vector T) (xs : List T),
    v.Holds xs → popsGuarded ops xs.length = true → Vector.run E ops v = .ok v' →
    v'.Holds (runOnList ops xs) := by
  induction ops with
  | nil =>
    intro v v' xs hv _ h
    unfold Vector.run at h
    cases h
    exact hv
  | cons op ops ih =>
    intro v v' xs hv hg h
    cases op with
    | push x =>
      unfold Vector.run at h
      split at h
      · cases h
      · rename_i hr
        exact ih _ _ _ ((PushBack_ok hv).1 hr) (by simpa [popsGuarded, StackOp.onList] using hg) h
    | pushMove x =>
      unfold Vector.run at h
      split at h
      · cases h
      · rename_i hr
        exact ih _ _ _ ((PushBack_ok hv).2 hr) (by simpa [popsGuarded, StackOp.onList] using hg) h
    | pop =>
      unfold Vector.run at h
      simp only [popsGuarded, Bool.and_eq_true, decide_eq_true_eq] at hg
      exact ih _ _ _ (PopBack_ok hv hg.1).1 (by simpa [StackOp.onList] using hg.2) h

theorem NoThrow.run {E : Elem T} (hE : E.NoThrow) (ops : List (StackOp T)) :
    ∀ v : Vector T, ∃ v', Vector.run E ops v = .ok v' := by
  induction ops with
  | nil => intro v; exact ⟨v, rfl⟩
  | cons op ops ih =>
    intro v
    cases op with
    | push x =>
      unfold Vector.run
      rw [(NoThrow.PushBack hE v x).1]
      exact ih _
    | pushMove x =>
      unfold Vector.run
      rw [(NoThrow.PushBack hE v x).2]
      exact ih _
    | pop =>
      unfold Vector.run
      exact ih _

theorem Holds_empty : (Vector.empty : Vector T).Holds [] := by
  refine ⟨rfl, by simp, ?_, fun _ => rfl⟩
  simp [Vector.empty, RawMemory.slots]

end advanced_vector

namespace simple_vector

theorem sv_PopBack_spec (v : SimpleVector T) (hv : v.WF) :
    v.PopBack.WF ∧ v.PopBack.live = v.live.dropLast ∧ v.PopBack.size_ = v.size_ - 1 ∧
    v.PopBack.capacity_ = v.capacity_ := by
  obtain ⟨h1, h2⟩ := hv
  refine ⟨⟨?_, h2⟩, ?_, rfl, rfl⟩
  · show v.size_ - 1 ≤ v.capacity_
    omega
  · show List.take (v.size_ - 1) v.items_.Get = (List.take v.size_ v.items_.Get).dropLast
    rw [List.dropLast_eq_take, List.take_take]
    simp only [List.length_take]
    congr 1
    omega

/-- A script run on a `SimpleVector`, every pushed object lying outside the array, is
defined and leaves what the list reading gives. -/
theorem sv_run_spec (E : Elem T) (ops : List (StackOp T)) : ∀ (v : SimpleVector T),
    v.WF → popsGuarded ops v.size_ = true →
    ∃ r, SimpleVector.run E ops v = some r ∧ r.WF ∧ r.live = runOnList ops v.live := by
  induction ops with
  | nil => intro v hv _; exact ⟨v, rfl, hv, rfl⟩
  | cons op ops ih =>
    intro v hv hg
    cases op with
    | push x =>
      obtain ⟨a, b, c, _⟩ := sv_pushed_spec E v x hv
      have := ih _ a (by rw [c]; simpa [popsGuarded] using hg)
      unfold SimpleVector.run
      simp only [runOnList, StackOp.onList, PushBack_outside]
      rw [← b]
      exact this
    | pushMove x =>
      obtain ⟨a, b, c, _⟩ := sv_pushed_spec E v x hv
      have := ih _ a (by rw [c]; simpa [popsGuarded] using hg)
      unfold SimpleVector.run
      simp only [runOnList, StackOp.onList, PushBackMove_outside]
      rw [← b]
      exact this
    | pop =>
      obtain ⟨a, b, c, _⟩ := sv_PopBack_spec v hv
      simp only [popsGuarded, Bool.and_eq_true, decide_eq_true_eq] at hg
      have := ih _ a (by rw [c]; exact hg.2)
      unfold SimpleVector.run
      simp only [runOnList, StackOp.onList]
      rw [← b]
      exact this

theorem sv_WF_empty : (SimpleVector.empty : SimpleVector T).WF := by
  refine ⟨Nat.le_refl _, ?_⟩
  show 0 ≤ _
  omega

theorem sv_live_length {v : SimpleVector T} (hv : v.WF) : v.live.length = v.size_ := by
  obtain ⟨h1, h2⟩ := hv
  simp [SimpleVector.live]
  omega

end simple_vector

variable {T : Type}

namespace simple_vector

/-- Growing `Resize` within the capacity leaves the array as it is: `size_` is assigned
before the loop that should fill `[old size, new_size)`, so the loop body never runs. -/
theorem sv_Resize_within_capacity (E : Elem T) (v : SimpleVector T) (n : Nat)
    (h1 : v.size_ < n) (h2 : n ≤ v.capacity_) :
    (v.Resize E n).items_ = v.items_ ∧ (v.Resize E n).size_ = n := by
  unfold SimpleVector.Resize
  rw [if_neg (by omega), if_pos h2]
  simp only [Nat.sub_self, fill, withItems_Get, and_self]

/-- C5 (defect in the code): `SimpleVector{1, 2, 3}`, `PopBack()`, `Resize(3)`: the new
size is within the capacity, the fill loop starts at the already updated `size_` and does
nothing, and index 2 holds the stale 3 instead of `Type()` = 0. -/
theorem C5_simple_resize_keeps_stale_value :
    (SimpleVector.ofList intElem [1, 2, 3]).PopBack.WF ∧
    (SimpleVector.ofList intElem [1, 2, 3]).PopBack.GetSize = 2 ∧
    (SimpleVector.ofList intElem [1, 2, 3]).PopBack.GetCapacity = 3 ∧
    ((SimpleVector.ofList intElem [1, 2, 3]).PopBack.Resize intElem 3).GetSize = 3 ∧
    ((SimpleVector.ofList intElem [1, 2, 3]).PopBack.Resize intElem 3).live = [1, 2, 3] ∧
    ((SimpleVector.ofList intElem [1, 2, 3]).PopBack.Resize intElem 3).live[2]? ≠
      some intElem.value_init := by
  decide

/-- C8 (defect in the code): `SimpleVector<int> v{1, 2, 3}; v.Reserve(6);
v.Insert(v.begin(), v[2]);`.  `value` is a reference to slot 2; the in-place branch shifts
the elements first and reads `value` afterwards, when slot 2 holds the former `v[1]`: the
vector becomes `[2, 1, 2, 3]`, not `[3, 1, 2, 3]`, with either overload.  An object outside
the array holding 3 is inserted as the claim says, and `Vector::Insert`, which builds the
new element before it shifts, gives `[3, 1, 2, 3]` for the same call. -/
theorem C8_simple_insert_reads_shifted_element :
    ((SimpleVector.ofList intElem [1, 2, 3]).Reserve intElem 6).1.WF ∧
    ((SimpleVector.ofList intElem [1, 2, 3]).Reserve intElem 6).1.live = [1, 2, 3] ∧
    ((SimpleVector.ofList intElem [1, 2, 3]).Reserve intElem 6).1.GetCapacity = 6 ∧
    ((SimpleVector.ofList intElem [1, 2, 3]).Reserve intElem 6).1.Index 2 = some 3 ∧
    ((((SimpleVector.ofList intElem [1, 2, 3]).Reserve intElem 6).1.Insert intElem 0
      (.slot 2)).map fun r => (r.1.live, r.2)) = some ([2, 1, 2, 3], 0) ∧
    ((((SimpleVector.ofList intElem [1, 2, 3]).Reserve intElem 6).1.InsertMove intElem 0
      (.slot 2)).map fun r => (r.1.live, r.2)) = some ([2, 1, 2, 3], 0) ∧
    [1, 2, 3].take 0 ++ [3] ++ [1, 2, 3].drop 0 = [3, 1, 2, 3] ∧
    ((((SimpleVector.ofList intElem [1, 2, 3]).Reserve intElem 6).1.Insert intElem 0
      (.outside 3)).map fun r => (r.1.live, r.2)) = some ([3, 1, 2, 3], 0) ∧
    ((advanced_vector.vecOf [1, 2, 3] 6).Insert advanced_vector.intElem 0 3).vec.live =
      [3, 1, 2, 3] := by
  decide

end simple_vector

namespace advanced_vector

/-- C6 as stated fails for a `new_size` whose byte count does not fit in `size_t`, and for
one the free store cannot provide.  `Vector<int>` holding `[1, 2, 3]`, `Resize(2^62 + 1)`:
`(2^62 + 1) * sizeof(int)` wraps to 4, `RawMemory::Allocate` obtains a block with room
for one `int`, and the call goes on to construct three, then `2^62 - 2` more objects in it
(past its end: undefined behaviour; the model drops those writes): `size()` and
`capacity()` report `2^62 + 1` over a block of one slot, and the former second element is
not there.  `Resize(10^15)`: `operator new` throws, `std::bad_alloc` leaves the call. -/
theorem C6_counterexample_resize_overflow :
    (vecOf [1, 2, 3] 4).WF ∧
    RawMemory.Allocate intElem (2 ^ 62 + 1) = .ok (some [none]) ∧
    ((vecOf [1, 2, 3] 4).Resize intElem (2 ^ 62 + 1)).result = .ok () ∧
    ((vecOf [1, 2, 3] 4).Resize intElem (2 ^ 62 + 1)).vec.Size = 2 ^ 62 + 1 ∧
    ((vecOf [1, 2, 3] 4).Resize intElem (2 ^ 62 + 1)).vec.Capacity = 2 ^ 62 + 1 ∧
    ((vecOf [1, 2, 3] 4).Resize intElem (2 ^ 62 + 1)).vec.data_.slots = [some 1] ∧
    ((vecOf [1, 2, 3] 4).Resize intElem (2 ^ 62 + 1)).vec.live[1]? ≠ (vecOf [1, 2, 3] 4).live[1]? ∧
    ((vecOf [1, 2, 3] 4).Resize intElem (10 ^ 15)).result = .error Exn.bad_alloc :=
  ⟨by decide, rfl, rfl, rfl, rfl, rfl, by decide, rfl⟩

/-- C6 (amended): on a well-formed `Vector`, for a `new_size` that is at most the capacity
or whose byte count `new_size * sizeof(T)` fits in `size_t`: a `Resize(new_size)` that
returns leaves `size() == new_size`, the first `min(old size, new_size)` elements
unchanged, a value-initialised `T()` at every index in `[old size, new_size)`, and
`capacity() == max(old capacity, new_size)`; the call returns when no element operation
throws and, if it has to allocate, `operator new` does not throw; and when `operator new`
throws, `std::bad_alloc` leaves the call with the vector unchanged. -/
theorem C6_vector_resize (E : Elem T) (v : Vector T) (n : Nat) (hv : v.WF)
    (hfit : v.Capacity < n → n * E.sizeof < 2 ^ 64) :
    ((v.Resize E n).result = .ok () →
      (v.Resize E n).vec.Size = n ∧
      (∀ i, i < min v.Size n → (v.Resize E n).vec.live[i]? = v.live[i]?) ∧
      (∀ i, v.Size ≤ i → i < n →
        ∃ d, E.value_init = .ok d ∧ (v.Resize E n).vec.live[i]? = some d) ∧
      (v.Resize E n).vec.Capacity = max v.Capacity n) ∧
    (E.NoThrow → (v.Capacity < n → E.new_throws (n * E.sizeof) = false) →
      (v.Resize E n).result = .ok ()) ∧
    (v.Capacity < n → E.new_throws (n * E.sizeof) = true →
      (v.Resize E n).result = .error Exn.bad_alloc ∧ (v.Resize E n).vec = v) := by
  refine ⟨fun h => ?_, fun hE hnew => NoThrow.Resize hE v n hfit hnew, fun hgt hnew => ?_⟩
  · have hsz : v.size_ = v.live.length := hv.1
    obtain ⟨pad, a, b, c, d, _⟩ := Resize_ok hv hfit h
    unfold Vector.Size Vector.Capacity RawMemory.Capacity
    have hl : (v.live.take n).length = min n v.live.length := by simp
    refine ⟨?_, ?_, ?_, d⟩
    · rw [a.1]
      simp [b]
      omega
    · intro i hi
      rw [a.live_eq, List.getElem?_append_left (by rw [hl]; omega), List.getElem?_take,
        if_pos (by omega)]
    · intro i h1 h2
      have hlt : v.live.length < n := by omega
      have hl' : (v.live.take n).length = v.live.length := by rw [hl]; omega
      obtain ⟨y, hy⟩ : ∃ y, pad[i - v.live.length]? = some y :=
        ⟨pad.get ⟨i - v.live.length, by omega⟩, List.getElem?_eq_getElem (by omega)⟩
      refine ⟨y, c y (List.getElem?_mem hy), ?_⟩
      rw [a.live_eq, List.getElem?_append_right (by rw [hl']; omega), hl', hy]
  · have hsz : v.size_ ≤ v.Capacity := by
      have h1 : v.size_ = v.live.length := hv.1
      have h2 : v.live.length ≤ v.data_.capacity_ := hv.2.1
      unfold Vector.Capacity RawMemory.Capacity
      omega
    rw [Resize_bad_alloc v n hsz hgt (hfit hgt) hnew]
    exact ⟨rfl, rfl⟩

theorem C6_vector_resize_witness :
    ((Vector.empty : Vector Nat).Reserve intElem 10).vec.WF ∧
    ((Vector.empty : Vector Nat).Reserve intElem 10).vec.Capacity = 10 ∧
    (((Vector.empty : Vector Nat).Reserve intElem 10).vec.Capacity < 4 →
      4 * intElem.sizeof < 2 ^ 64) ∧
    (((Vector.empty : Vector Nat).Reserve intElem 10).vec.Resize intElem 4).vec.Size = 4 ∧
    (((Vector.empty : Vector Nat).Reserve intElem 10).vec.Resize intElem 4).vec.Capacity = 10 ∧
    (((Vector.empty : Vector Nat).Reserve intElem 10).vec.Resize intElem 4).vec.live =
      [0, 0, 0, 0] ∧
    (vecOf [1, 2, 3] 4).WF ∧ ((vecOf [1, 2, 3] 4).Capacity < 6 → 6 * intElem.sizeof < 2 ^ 64) ∧
    ((vecOf [1, 2, 3] 4).Resize intElem 6).vec.Size = 6 ∧
    ((vecOf [1, 2, 3] 4).Resize intElem 6).vec.Capacity = 6 ∧
    ((vecOf [1, 2, 3] 4).Resize intElem 6).vec.live = [1, 2, 3, 0, 0, 0] :=
  have h := (C6_vector_resize intElem ((Vector.empty : Vector Nat).Reserve intElem 10).vec 4
    (by decide) (by decide)).1 rfl
  have h' := (C6_vector_resize intElem (vecOf [1, 2, 3] 4) 6 (by decide) (by decide)).1 rfl
  ⟨by decide, by decide, by decide, h.1, h.2.2.2, by decide, by decide, by decide, h'.1,
    h'.2.2.2, by decide⟩

end advanced_vector

/-- C7 as stated fails for a `C` whose byte count does not fit in `size_t`, and for one
the free store cannot provide.  `Vector<int>` holding `[1, 2, 3]`, `Reserve(2^62 + 1)`:
`(2^62 + 1) * sizeof(int)` wraps to 4, `RawMemory::Allocate` obtains a block with room
for one `int`, and the call moves three into it (two past its end: undefined behaviour;
the model drops those writes): `Capacity()` reports `2^62 + 1` over a block of one slot
and only the first element is inside it.  `Reserve(10^15)`: the allocation throws and
`std::bad_alloc` leaves the call, in both designs. -/
theorem C7_counterexample_reserve_overflow :
    (advanced_vector.vecOf [1, 2, 3] 4).WF ∧
    (simple_vector.SimpleVector.ofList simple_vector.intElem [1, 2, 3]).WF ∧
    advanced_vector.RawMemory.Allocate advanced_vector.intElem (2 ^ 62 + 1) = .ok (some [none]) ∧
    ((advanced_vector.vecOf [1, 2, 3] 4).Reserve advanced_vector.intElem (2 ^ 62 + 1)).result =
      .ok () ∧
    ((advanced_vector.vecOf [1, 2, 3] 4).Reserve advanced_vector.intElem
      (2 ^ 62 + 1)).vec.Capacity = 2 ^ 62 + 1 ∧
    ((advanced_vector.vecOf [1, 2, 3] 4).Reserve advanced_vector.intElem
      (2 ^ 62 + 1)).vec.Size = 3 ∧
    ((advanced_vector.vecOf [1, 2, 3] 4).Reserve advanced_vector.intElem
      (2 ^ 62 + 1)).vec.data_.slots = [some 1] ∧
    ((advanced_vector.vecOf [1, 2, 3] 4).Reserve advanced_vector.intElem
      (2 ^ 62 + 1)).vec.live ≠ (advanced_vector.vecOf [1, 2, 3] 4).live ∧
    ((advanced_vector.vecOf [1, 2, 3] 4).Reserve advanced_vector.intElem (10 ^ 15)).result =
      .error advanced_vector.Exn.bad_alloc ∧
    ((simple_vector.SimpleVector.ofList simple_vector.intElem [1, 2, 3]).Reserve
      simple_vector.intElem (10 ^ 15)).2 = .error .bad_alloc :=
  ⟨by decide, by decide, rfl, rfl, rfl, rfl, rfl, by decide, rfl, rfl⟩

/-- C7 (amended): `Reserve(C)` on a well-formed container, in both designs, for a `C` that
is at most the capacity or, for `Vector`, whose byte count `C * sizeof(T)` fits in
`size_t`.  A `Reserve(C)` that returns leaves the size and the live elements unchanged
and the capacity at least `C`; when `C ≤ capacity` beforehand the call returns and the
whole container is unchanged, when `C > capacity` the new capacity is exactly `C`.  When
`C > capacity` the call returns if the allocation does not throw (and, for `Vector`, no
element operation throws); if the allocation throws, `std::bad_alloc` leaves the call
and the container is unchanged. -/
theorem C7_reserve_frame (E : advanced_vector.Elem T) (E' : simple_vector.Elem T)
    (v : advanced_vector.Vector T) (sv : simple_vector.SimpleVector T) (c : Nat)
    (hv : v.WF) (hsv : sv.WF) (hfit : v.Capacity < c → c * E.sizeof < 2 ^ 64) :
    ((v.Reserve E c).result = .ok () →
      (v.Reserve E c).vec.Size = v.Size ∧ (v.Reserve E c).vec.live = v.live ∧
      c ≤ (v.Reserve E c).vec.Capacity ∧
      (c ≤ v.Capacity → (v.Reserve E c).vec = v) ∧
      (v.Capacity < c → (v.Reserve E c).vec.Capacity = c)) ∧
    (c ≤ v.Capacity → (v.Reserve E c).result = .ok ()) ∧
    (E.NoThrow → (v.Capacity < c → E.new_throws (c * E.sizeof) = false) →
      (v.Reserve E c).result = .ok ()) ∧
    (v.Capacity < c → E.new_throws (c * E.sizeof) = true →
      (v.Reserve E c).result = .error advanced_vector.Exn.bad_alloc ∧
      (v.Reserve E c).vec = v) ∧
    ((sv.Reserve E' c).2 = .ok () →
      (sv.Reserve E' c).1.GetSize = sv.GetSize ∧ (sv.Reserve E' c).1.live = sv.live ∧
      c ≤ (sv.Reserve E' c).1.GetCapacity ∧
      (c ≤ sv.GetCapacity → (sv.Reserve E' c).1 = sv) ∧
      (sv.GetCapacity < c → (sv.Reserve E' c).1.GetCapacity = c)) ∧
    (c ≤ sv.GetCapacity → (sv.Reserve E' c).2 = .ok ()) ∧
    (sv.GetCapacity < c → E'.new_throws c = false → (sv.Reserve E' c).2 = .ok ()) ∧
    (sv.GetCapacity < c → E'.new_throws c = true →
      (sv.Reserve E' c).2 = .error .bad_alloc ∧ (sv.Reserve E' c).1 = sv) := by
  obtain ⟨_, s2, s3, s4, s5, s6, s7⟩ := simple_vector.sv_Reserve_spec E' sv c hsv
  refine ⟨fun h => ?_, fun hle => ?_,
    fun hE hnew => advanced_vector.NoThrow.Reserve hE v c hfit hnew, fun hgt hnew => ?_,
    fun h => ⟨s2, s3, ?_, fun hc => ?_, s5 h⟩, fun hc => ?_, s6, fun hgt hnew => ?_⟩
  · obtain ⟨a, b, d, _⟩ := advanced_vector.Reserve_ok hv hfit h
    have hsz : v.size_ = v.live.length := hv.1
    refine ⟨?_, a.live_eq, ?_, b, d⟩
    · unfold advanced_vector.Vector.Size
      rw [a.1, hsz]
    · by_cases hc : c ≤ v.Capacity
      · rw [b hc]; exact hc
      · have := d (by omega)
        unfold advanced_vector.Vector.Capacity advanced_vector.RawMemory.Capacity
        omega
  · unfold advanced_vector.Vector.Reserve
    rw [if_pos hle]
  · rw [advanced_vector.Reserve_bad_alloc v c hgt (hfit hgt) hnew]
    exact ⟨rfl, rfl⟩
  · unfold simple_vector.SimpleVector.GetCapacity at *
    by_cases hc : c ≤ sv.capacity_
    · rw [s4 hc]; exact hc
    · rw [s5 h (by omega)]
  · rw [s4 hc]
  · rw [s4 hc]
  · rw [s7 hgt hnew]
    exact ⟨rfl, rfl⟩

theorem C7_reserve_frame_witness :
    (advanced_vector.vecOf [1, 2, 3] 4).WF ∧
    (simple_vector.SimpleVector.ofList simple_vector.intElem [1, 2, 3]).WF ∧
    ((advanced_vector.vecOf [1, 2, 3] 4).Capacity < 10 →
      10 * advanced_vector.intElem.sizeof < 2 ^ 64) ∧
    ((advanced_vector.vecOf [1, 2, 3] 4).Reserve advanced_vector.intElem 10).vec.live = [1, 2, 3] ∧
    ((advanced_vector.vecOf [1, 2, 3] 4).Reserve advanced_vector.intElem 10).vec.Capacity = 10 ∧
    ((simple_vector.SimpleVector.ofList simple_vector.intElem [1, 2, 3]).Reserve
      simple_vector.intElem 10).1.live = [1, 2, 3] ∧
    ((simple_vector.SimpleVector.ofList simple_vector.intElem [1, 2, 3]).Reserve
      simple_vector.intElem 10).1.GetCapacity = 10 :=
  have h := C7_reserve_frame advanced_vector.intElem simple_vector.intElem
    (advanced_vector.vecOf [1, 2, 3] 4)
    (simple_vector.SimpleVector.ofList simple_vector.intElem [1, 2, 3]) 10 (by decide) (by decide)
    (by decide)
  ⟨by decide, by decide, by decide, (h.1 rfl).2.1, (h.1 rfl).2.2.2.2 (by decide),
    (h.2.2.2.2.1 rfl).2.1, (h.2.2.2.2.1 rfl).2.2.2.2 (by decide)⟩

/-- C9: `Erase(begin() + p)` with `p < size` on a well-formed container, in both designs:
`Vector::Erase` that returns, and `SimpleVector::Erase`, leave the live elements equal to
`xs[0..p) ++ xs[p+1..size)`, make the size one smaller, leave the capacity unchanged and
return the iterator at index `p`; for an element type that never throws `Vector::Erase`
returns. -/
theorem C9_erase_removes_at_position (E : advanced_vector.Elem T) (E' : simple_vector.Elem T)
    (v : advanced_vector.Vector T) (sv : simple_vector.SimpleVector T) (p q : Nat)
    (hv : v.WF) (hp : p < v.Size) (hsv : sv.WF) (hq : q < sv.GetSize) :
    (∀ it, (v.Erase E p).result = .ok it →
      (v.Erase E p).vec.live = v.live.take p ++ v.live.drop (p + 1) ∧
      (v.Erase E p).vec.Size = v.Size - 1 ∧ (v.Erase E p).vec.Capacity = v.Capacity ∧
      it = p) ∧
    (E.NoThrow → (v.Erase E p).result = .ok p) ∧
    (sv.Erase E' q).1.live = sv.live.take q ++ sv.live.drop (q + 1) ∧
    (sv.Erase E' q).1.GetSize = sv.GetSize - 1 ∧
    (sv.Erase E' q).1.GetCapacity = sv.GetCapacity ∧ (sv.Erase E' q).2 = q := by
  obtain ⟨_, s2, s3, s4, s5⟩ := simple_vector.sv_Erase_spec E' sv q hsv hq
  refine ⟨fun it h => ?_, fun hE => advanced_vector.NoThrow.Erase hE v p, s2, s3, s5, s4⟩
  have hsz : v.size_ = v.live.length := hv.1
  unfold advanced_vector.Vector.Size at hp
  obtain ⟨a, b, c, _⟩ := advanced_vector.Erase_ok hv (by omega) h
  refine ⟨b.live_eq, ?_, c, a⟩
  unfold advanced_vector.Vector.Size
  rw [b.1, hsz]
  simp
  omega

theorem C9_erase_removes_at_position_witness :
    (advanced_vector.vecOf [1, 9, 2, 3] 4).WF ∧ 2 < (advanced_vector.vecOf [1, 9, 2, 3] 4).Size ∧
    (simple_vector.SimpleVector.ofList simple_vector.intElem [1, 9, 2, 3]).WF ∧
    2 < (simple_vector.SimpleVector.ofList simple_vector.intElem [1, 9, 2, 3]).GetSize ∧
    ((advanced_vector.vecOf [1, 9, 2, 3] 4).Erase advanced_vector.intElem 2).vec.live = [1, 9, 3] ∧
    ((simple_vector.SimpleVector.ofList simple_vector.intElem [1, 9, 2, 3]).Erase
      simple_vector.intElem 2).1.live = [1, 9, 3] :=
  have h := C9_erase_removes_at_position advanced_vector.intElem simple_vector.intElem
    (advanced_vector.vecOf [1, 9, 2, 3] 4)
    (simple_vector.SimpleVector.ofList simple_vector.intElem [1, 9, 2, 3]) 2 2
    (by decide) (by decide) (by decide) (by decide)
  ⟨by decide, by decide, by decide, by decide, (h.1 2 rfl).1, h.2.2.1⟩

/-- C10 (defect in the code): `SimpleVector<int> v; v.PushBack(1); v.PushBack(v[0]);`.
After the first call the vector is full, so the second one grows: it moves the element
into a new array, swaps, and on leaving the block deletes the old array, in which `item`
lies; `items_[size_] = item` then reads a deleted object, which is undefined behaviour
(`PushBack(Type&&)` does the same).  The list reading of the two calls is `[1, 1]`, which
is what the same call gives when the array has room, and what `Vector::PushBack`, which
builds the new element before it releases the old block, gives. -/
theorem C10_simple_push_back_reads_deleted_array :
    ((simple_vector.SimpleVector.empty : simple_vector.SimpleVector Nat).PushBack
      simple_vector.intElem (.outside 1)).map
        (fun v => (v.live, v.GetSize, v.GetCapacity)) = some ([1], 1, 1) ∧
    (((simple_vector.SimpleVector.empty : simple_vector.SimpleVector Nat).PushBack
      simple_vector.intElem (.outside 1)).bind fun v =>
        (v.PushBack simple_vector.intElem (.slot 0)).map simple_vector.SimpleVector.live) = none ∧
    (((simple_vector.SimpleVector.empty : simple_vector.SimpleVector Nat).PushBack
      simple_vector.intElem (.outside 1)).bind fun v =>
        (v.PushBackMove simple_vector.intElem (.slot 0)).map simple_vector.SimpleVector.live) =
      none ∧
    runOnList [StackOp.push 1, .push 1] [] = [1, 1] ∧
    (((simple_vector.SimpleVector.ofReserve simple_vector.intElem 2).PushBack
      simple_vector.intElem (.outside 1)).bind fun v =>
        (v.PushBack simple_vector.intElem (.slot 0)).map simple_vector.SimpleVector.live) =
      some [1, 1] ∧
    (advanced_vector.Vector.run advanced_vector.intElem [StackOp.push 1, .push 1]
      advanced_vector.Vector.empty).toOption.map advanced_vector.Vector.live = some [1, 1] := by
  decide

namespace advanced_vector
variable {T : Type}

theorem growth_eq_max (n : Nat) : (if n = 0 then 1 else n * 2) = max 1 (2 * n) := by
  split <;> omega

/-- The capacity after an `Emplace` that returns, on a well-formed vector. -/
theorem Emplace_capacity {E : Elem T} {v : Vector T} {p it : Nat} {newElem : Except Exn T}
    (hv : v.WF) (hp : p ≤ v.Size) (h : (v.Emplace E p newElem).result = .ok it) :
    (v.Size = v.Capacity → (v.Emplace E p newElem).vec.Capacity = max 1 (2 * v.Size)) ∧
    (v.Size < v.Capacity → (v.Emplace E p newElem).vec.Capacity = v.Capacity) := by
  obtain ⟨x, rfl⟩ := Emplace_newElem_ok h
  have hsz : v.size_ = v.live.length := hv.1
  obtain ⟨_, _, c, _⟩ := Emplace_ok hv (by unfold Vector.Size at hp; omega) h
  unfold Vector.Size Vector.Capacity RawMemory.Capacity at *
  constructor
  · intro hfull
    rw [c, if_pos hfull, growth_eq_max]
  · intro hlt
    rw [c, if_neg (by omega)]

/-- C11: on a well-formed `Vector` and a valid position, an `Emplace` that returns (hence
`Insert`, `EmplaceBack`, `PushBack`, which forward to it) leaves
`capacity() == max(1, 2 * old size())` when it was called with `size() == capacity()`, and
leaves `capacity()` unchanged when it was called with `size() < capacity()`. -/
theorem C11_vector_growth_policy (E : Elem T) (v : Vector T) (p : Nat) (hv : v.WF)
    (hp : p ≤ v.Size) :
    (∀ newElem it, (v.Emplace E p newElem).result = .ok it →
      (v.Size = v.Capacity → (v.Emplace E p newElem).vec.Capacity = max 1 (2 * v.Size)) ∧
      (v.Size < v.Capacity → (v.Emplace E p newElem).vec.Capacity = v.Capacity)) ∧
    (∀ x it, (v.Insert E p x).result = .ok it →
      (v.Size = v.Capacity → (v.Insert E p x).vec.Capacity = max 1 (2 * v.Size)) ∧
      (v.Size < v.Capacity → (v.Insert E p x).vec.Capacity = v.Capacity)) ∧
    (∀ x it, (v.InsertMove E p x).result = .ok it →
      (v.Size = v.Capacity → (v.InsertMove E p x).vec.Capacity = max 1 (2 * v.Size)) ∧
      (v.Size < v.Capacity → (v.InsertMove E p x).vec.Capacity = v.Capacity)) ∧
    (∀ newElem it, (v.EmplaceBack E newElem).result = .ok it →
      (v.Size = v.Capacity → (v.EmplaceBack E newElem).vec.Capacity = max 1 (2 * v.Size)) ∧
      (v.Size < v.Capacity → (v.EmplaceBack E newElem).vec.Capacity = v.Capacity)) ∧
    (∀ x, (v.PushBack E x).result = .ok () →
      (v.Size = v.Capacity → (v.PushBack E x).vec.Capacity = max 1 (2 * v.Size)) ∧
      (v.Size < v.Capacity → (v.PushBack E x).vec.Capacity = v.Capacity)) ∧
    (∀ x, (v.PushBackMove E x).result = .ok () →
      (v.Size = v.Capacity → (v.PushBackMove E x).vec.Capacity = max 1 (2 * v.Size)) ∧
      (v.Size < v.Capacity → (v.PushBackMove E x).vec.Capacity = v.Capacity)) := by
  have back : ∀ newElem : Except Exn T,
      ((v.Emplace E v.size_ newElem).result.map fun _ => ()) = .ok () →
      (v.Size = v.Capacity → (v.Emplace E v.size_ newElem).vec.Capacity = max 1 (2 * v.Size)) ∧
      (v.Size < v.Capacity → (v.Emplace E v.size_ newElem).vec.Capacity = v.Capacity) := by
    intro newElem h
    cases hr : (v.Emplace E v.size_ newElem).result with
    | error e => rw [hr] at h; cases h
    | ok it => exact Emplace_capacity hv (Nat.le_refl _) hr
  refine ⟨fun newElem it h => Emplace_capacity hv hp h, fun x it h => Emplace_capacity hv hp h,
    fun x it h => Emplace_capacity hv hp h,
    fun newElem it h => Emplace_capacity hv (Nat.le_refl _) h, fun x h => back _ h,
    fun x h => back _ h⟩

theorem C11_vector_growth_policy_witness :
    (vecOf [1, 2, 3] 3).WF ∧ 1 ≤ (vecOf [1, 2, 3] 3).Size ∧
    ((vecOf [1, 2, 3] 3).Emplace intElem 1 (.ok 9)).vec.Capacity = max 1 (2 * 3) ∧
    ((vecOf [1, 2, 3] 4).Emplace intElem 1 (.ok 9)).vec.Capacity = 4 ∧
    ((Vector.empty : Vector Nat).PushBack intElem 7).vec.Capacity = 1 :=
  ⟨by decide, by decide,
    ((C11_vector_growth_policy intElem (vecOf [1, 2, 3] 3) 1 (by decide) (by decide)).1
      (.ok 9) 1 rfl).1 rfl,
    ((C11_vector_growth_policy intElem (vecOf [1, 2, 3] 4) 1 (by decide) (by decide)).1
      (.ok 9) 1 rfl).2 (by decide),
    ((C11_vector_growth_policy intElem Vector.empty 0 (by decide) (by decide)).2.2.2.2.1
      7 rfl).1 rfl⟩

end advanced_vector

variable {T : Type}

/-- C13: move construction, in both designs: the new container has the source's prior size
and holds its prior live elements in order, and the source is left with size 0 and
capacity 0 (for `Vector` through `Swap` with the freshly initialised members; the
`RawMemory` move constructor likewise leaves its source null with capacity 0). -/
theorem C13_move_construction_empties_source (v : advanced_vector.Vector T)
    (sv : simple_vector.SimpleVector T) (m : advanced_vector.RawMemory T) :
    (advanced_vector.Vector.moveCtor v).1.Size = v.Size ∧
    (advanced_vector.Vector.moveCtor v).1.live = v.live ∧
    (advanced_vector.Vector.moveCtor v).1 = v ∧
    (advanced_vector.Vector.moveCtor v).2.Size = 0 ∧
    (advanced_vector.Vector.moveCtor v).2.Capacity = 0 ∧
    (advanced_vector.RawMemory.moveCtor m).1 = m ∧
    (advanced_vector.RawMemory.moveCtor m).2.buffer_ = none ∧
    (advanced_vector.RawMemory.moveCtor m).2.Capacity = 0 ∧
    (simple_vector.SimpleVector.moveCtor sv).1.GetSize = sv.GetSize ∧
    (simple_vector.SimpleVector.moveCtor sv).1.live = sv.live ∧
    (simple_vector.SimpleVector.moveCtor sv).2.GetSize = 0 ∧
    (simple_vector.SimpleVector.moveCtor sv).2.GetCapacity = 0 ∧
    (simple_vector.SimpleVector.moveCtor sv).2.live = [] := by
  refine ⟨rfl, rfl, rfl, rfl, rfl, rfl, rfl, rfl, rfl, rfl, rfl, rfl, ?_⟩
  simp [simple_vector.SimpleVector.moveCtor, simple_vector.SimpleVector.live]

namespace simple_vector

/-- C20: the `SimpleVector` move-constructed from `A` reports `GetCapacity()` equal to
`A`'s prior `GetSize()`, so its size equals its capacity, while the array it took over is
`A`'s array, which has at least `A`'s prior capacity slots. -/
theorem C20_simple_move_ctor_capacity (sv : SimpleVector T) (hv : sv.WF) :
    (SimpleVector.moveCtor sv).1.GetCapacity = sv.GetSize ∧
    (SimpleVector.moveCtor sv).1.GetSize = (SimpleVector.moveCtor sv).1.GetCapacity ∧
    (SimpleVector.moveCtor sv).1.items_ = sv.items_ ∧
    (SimpleVector.moveCtor sv).1.items_.Get.length = sv.items_.Get.length ∧
    sv.GetCapacity ≤ (SimpleVector.moveCtor sv).1.items_.Get.length ∧
    (SimpleVector.moveCtor sv).1.WF :=
  ⟨rfl, rfl, rfl, rfl, hv.2, ⟨Nat.le_refl _, Nat.le_trans hv.1 hv.2⟩⟩

theorem C20_simple_move_ctor_capacity_witness :
    ((SimpleVector.ofList intElem [1]).Reserve intElem 5).1.WF ∧
    ((SimpleVector.ofList intElem [1]).Reserve intElem 5).1.GetSize = 1 ∧
    ((SimpleVector.ofList intElem [1]).Reserve intElem 5).1.GetCapacity = 5 ∧
    (SimpleVector.moveCtor ((SimpleVector.ofList intElem [1]).Reserve intElem 5).1).1.GetCapacity
      = 1 ∧
    (SimpleVector.moveCtor
      ((SimpleVector.ofList intElem [1]).Reserve intElem 5).1).1.items_.Get.length = 5 :=
  have h := C20_simple_move_ctor_capacity ((SimpleVector.ofList intElem [1]).Reserve intElem 5).1
    (by decide)
  ⟨by decide, by decide, by decide, h.1, by decide⟩

/-- C15: `SimpleVector::At(i)` throws `std::out_of_range` exactly when `i ≥ GetSize()`, in
particular at `i == GetSize()` whatever the capacity; when `i < GetSize()` it designates
the same object as `operator[](i)`, which on a well-formed vector is live element `i`;
`At` writes nothing (it returns no new container). -/
theorem C15_simple_at_checked (v : SimpleVector T) (i : Nat) (hv : v.WF) :
    (v.At i = .error .out_of_range ↔ v.GetSize ≤ i) ∧
    ((∃ r, v.At i = .ok r) ↔ i < v.GetSize) ∧
    v.At v.GetSize = .error .out_of_range ∧
    (i < v.GetSize → v.At i = .ok (v.Index i) ∧ v.Index i = v.live[i]? ∧
      ∃ x, v.Index i = some x) := by
  obtain ⟨h1, h2⟩ := hv
  unfold SimpleVector.At SimpleVector.GetSize SimpleVector.Index
  refine ⟨?_, ?_, ?_, ?_⟩
  · by_cases h : i ≥ v.size_
    · rw [if_pos h]
      exact ⟨fun _ => h, fun _ => rfl⟩
    · rw [if_neg h]
      exact ⟨fun h' => (by cases h'), fun h' => absurd h' h⟩
  · by_cases h : i ≥ v.size_
    · rw [if_pos h]
      exact ⟨fun ⟨r, hr⟩ => (by cases hr), fun h' => (by omega)⟩
    · rw [if_neg h]
      exact ⟨fun _ => (by omega), fun _ => ⟨_, rfl⟩⟩
  · rw [if_pos (Nat.le_refl _)]
  · intro h
    refine ⟨by rw [if_neg (by omega)], ?_, ?_⟩
    · simp [SimpleVector.live, List.getElem?_take, h]
    · exact ⟨v.items_.Get.get ⟨i, by omega⟩, List.getElem?_eq_getElem (by omega)⟩

theorem C15_simple_at_checked_witness :
    ((SimpleVector.ofList intElem [7]).Reserve intElem 5).1.WF ∧
    ((SimpleVector.ofList intElem [7]).Reserve intElem 5).1.At 1 = .error .out_of_range ∧
    ((SimpleVector.ofList intElem [7]).Reserve intElem 5).1.At 0 = .ok (some 7) :=
  have h := C15_simple_at_checked ((SimpleVector.ofList intElem [7]).Reserve intElem 5).1 1
    (by decide)
  ⟨by decide, h.2.2.1, rfl⟩

end simple_vector

namespace advanced_vector
variable {T : Type}

theorem copyAssign_ok {E : Elem T} {d s d' : T} (h : E.copyAssign d s = .ok d') : d' = s := by
  unfold Elem.copyAssign at h
  split at h
  · cases h
  · cases h; rfl

theorem copy_assign_at_ok {E : Elem T} {b b' : Buf T} {dst : Nat} {d s : T}
    (hd : b[dst]? = some (some d)) (h : copy_assign_at E b dst s = (b', .ok ())) :
    b' = b.set dst (some s) := by
  unfold copy_assign_at at h
  rw [getSlot_eq_some.mpr hd] at h
  simp only at h
  split at h
  · cases h
  · rename_i d' hm
    have := copyAssign_ok hm
    subst this
    cases h
    rfl

/-- A completed `std::copy` into constructed slots: they hold the source values, the rest
of the block is untouched. -/
theorem copy_range_ok {E : Elem T} (src : List T) : ∀ (b b' : Buf T) (d : Nat),
    copy_range E b d src = (b', .ok ()) → d + src.length ≤ b.length →
    (∀ i, d ≤ i → i < d + src.length → ∃ x, b[i]? = some (some x)) →
    b'.length = b.length ∧
    ∀ i, b'[i]? = if d ≤ i ∧ i < d + src.length then (src[i - d]?).map some else b[i]? := by
  induction src with
  | nil =>
    intro b b' d h _ _
    unfold copy_range at h
    cases h
    refine ⟨rfl, fun i => ?_⟩
    have : ¬ (d ≤ i ∧ i < d + ([] : List T).length) := by simp
    rw [if_neg this]
  | cons s ss ih =>
    intro b b' d h hlen hc
    unfold copy_range at h
    obtain ⟨x, hx⟩ := hc d (Nat.le_refl _) (by simp)
    split at h
    · cases h
    · rename_i b1 hb1
      have hb1 := copy_assign_at_ok hx hb1
      have hl1 : b1.length = b.length := by rw [hb1]; simp
      simp only [List.length_cons] at hlen hc ⊢
      obtain ⟨i1, i2⟩ := ih b1 b' (d + 1) h (by omega) (by
        intro i h1 h2
        rw [hb1, List.getElem?_set_ne (by omega)]
        exact hc i (by omega) (by omega))
      refine ⟨by omega, fun i => ?_⟩
      rw [i2 i]
      by_cases h1 : d + 1 ≤ i ∧ i < d + 1 + ss.length
      · have h2 : d ≤ i ∧ i < d + (ss.length + 1) := by omega
        rw [if_pos h1, if_pos h2]
        obtain ⟨k, hk⟩ : ∃ k, i - d = k + 1 := ⟨i - d - 1, by omega⟩
        have hk' : i - (d + 1) = k := by omega
        rw [hk, hk', List.getElem?_cons_succ]
      · rw [if_neg h1, hb1]
        by_cases h3 : i = d
        · subst h3
          have h2 : i ≤ i ∧ i < i + (ss.length + 1) := by omega
          have h4 : i < b.length := by omega
          rw [if_pos h2]
          simp [h4]
        · have h2 : ¬ (d ≤ i ∧ i < d + (ss.length + 1)) := by omega
          rw [if_neg h2, List.getElem?_set_ne (fun h => h3 h.symm)]

theorem NoThrow.copyAssign {E : Elem T} (hE : E.NoThrow) (d s : T) :
    E.copyAssign d s = .ok s := by
  unfold Elem.copyAssign
  rw [hE.2.2.2.1 d s]

theorem NoThrow.copy_range {E : Elem T} (hE : E.NoThrow) (src : List T) :
    ∀ (b : Buf T) (d : Nat), (advanced_vector.copy_range E b d src).2 = .ok () := by
  induction src with
  | nil => intro b d; rfl
  | cons s ss ih =>
    intro b d
    unfold advanced_vector.copy_range
    have : (copy_assign_at E b d s).2 = .ok () := by
      unfold copy_assign_at
      split
      · rw [NoThrow.copyAssign hE]
      · rfl
    split
    · rename_i h; rw [h] at this; cases this
    · exact ih _ _

/-- A copy construction that returns: the same elements in a block of exactly that size. -/
theorem copy_ok {E : Elem T} {b c : Vector T} {ys : List T} (hb : b.Holds ys)
    (h : Vector.copy E b = .ok c) : c.Holds ys ∧ c.data_.capacity_ = ys.length := by
  obtain ⟨h1, h2, h3, h4⟩ := hb
  have hr : readRange b.data_.slots 0 b.size_ = ys := by
    rw [h3, h1, readRange_map_some _ _ _ _ (by omega)]; simp
  unfold Vector.copy at h
  rw [hr] at h
  simp only at h
  split at h
  · cases h
  · rename_i zs hz
    have := uninitialized_copy_n_ok hz
    subst this
    cases h
    by_cases h0 : b.size_ = 0
    · have hnil : zs = [] := by
        apply List.eq_nil_of_length_eq_zero; omega
      subst hnil
      rw [h0]
      refine ⟨⟨rfl, ?_, ?_, fun _ => rfl⟩, rfl⟩
      · exact Nat.le_refl _
      · simp [RawMemory.granted, RawMemory.Allocate, RawMemory.withSlots, RawMemory.slots]
    · rw [withSlots_granted _ _ h0, slots_granted,
        writeRange_replicate_map_some _ _ (by omega)]
      refine ⟨⟨h1, ?_, ?_, fun h' => absurd h' h0⟩, h1⟩
      · show zs.length ≤ b.size_
        omega
      · show zs.map some ++ _ = zs.map some ++ List.replicate (b.size_ - zs.length) none
        rfl

theorem NoThrow.copy {E : Elem T} (hE : E.NoThrow) (b : Vector T) :
    ∃ c, Vector.copy E b = .ok c := by
  unfold Vector.copy
  simp only
  rw [NoThrow.uninitialized_copy_n hE]
  exact ⟨_, rfl⟩

end advanced_vector

namespace advanced_vector
variable {T : Type}

theorem Vector.Holds.constructed {v : Vector T} {xs : List T} (h : v.Holds xs) (i : Nat)
    (hi : i < xs.length) : v.data_.slots[i]? = some (xs[i]?) ∧ ∃ x, xs[i]? = some x := by
  have hx : ∃ x, xs[i]? = some x := ⟨xs.get ⟨i, hi⟩, List.getElem?_eq_getElem hi⟩
  refine ⟨?_, hx⟩
  obtain ⟨x, hx⟩ := hx
  rw [h.getElem?_slots, if_pos hi, hx]
  rfl

/-- A copy assignment from another vector that returns: the elements of the source; a
block of exactly the source's size when that exceeded the capacity, the old block
otherwise; whatever is released has nothing constructed in it. -/
theorem CopyAssign_ok {E : Elem T} {a b : Vector T} {xs ys : List T} (ha : a.Holds xs)
    (hb : b.Holds ys) (h : (a.CopyAssign E b false).result = .ok ()) :
    (a.CopyAssign E b false).vec.Holds ys ∧
    (a.CopyAssign E b false).vec.data_.capacity_ =
      (if ys.length > a.data_.capacity_ then ys.length else a.data_.capacity_) ∧
    ∀ s ∈ (a.CopyAssign E b false).freed, s = none := by
  have hSa := ha.getElem?_slots
  have hla := ha.slots_length
  have hsa : a.size_ = xs.length := ha.1
  have hsb : b.size_ = ys.length := hb.1
  have hxa : xs.length ≤ a.data_.capacity_ := ha.2.1
  have hrb : ∀ first n, first + n ≤ ys.length →
      readRange b.data_.slots first n = (ys.drop first).take n := by
    intro first n hfn
    rw [hb.2.2.1, readRange_map_some _ _ _ _ hfn]
  generalize ho : a.CopyAssign E b false = o at h ⊢
  unfold Vector.CopyAssign at ho
  simp only [Bool.false_eq_true, if_false] at ho
  unfold RawMemory.Capacity at ho
  split at ho
  · -- copy and swap
    rename_i hgt
    split at ho
    · subst ho; cases h
    · rename_i c hc
      obtain ⟨c1, c2⟩ := copy_ok hb hc
      subst ho
      refine ⟨c1, ?_, ?_⟩
      · show c.data_.capacity_ = _
        rw [c2, if_pos (by omega)]
      · show ∀ s ∈ destroy_n a.data_.slots 0 a.size_, s = none
        exact destroy_n_all_none rfl (fun i hi hl => ha.raw_tail i hi hl) (fun _ _ => rfl)
  · rename_i hle
    have hle' : ys.length ≤ a.data_.capacity_ := by omega
    by_cases hc0 : a.data_.capacity_ = 0
    · -- nothing to copy into a null block
      have hx0 : xs.length = 0 := by omega
      have hy0 : ys.length = 0 := by omega
      have hynil : ys = [] := List.eq_nil_of_length_eq_zero hy0
      have hbuf : a.data_.buffer_ = none := ha.2.2.2 hc0
      rw [if_neg (by omega)] at ho
      have er : readRange b.data_.slots 0 a.size_ = [] := by
        rw [hrb 0 a.size_ (by omega), hynil]; simp
      have er2 : readRange b.data_.slots a.size_ (b.size_ - a.size_) = [] := by
        rw [hrb _ _ (by omega), hynil]; simp
      rw [er, er2] at ho
      simp only [copy_range, uninitialized_copy_n] at ho
      subst ho
      subst hynil
      refine ⟨⟨?_, ?_, ?_, fun _ => ?_⟩, ?_, ?_⟩
      · show b.size_ = 0
        omega
      · show 0 ≤ _
        omega
      · simp [RawMemory.withSlots, RawMemory.slots, hbuf, hc0]
      · simp [RawMemory.withSlots, hbuf]
      · show (a.data_.withSlots _).capacity_ = _
        rw [if_neg (by omega)]
        rfl
      · intro s hs
        cases hs
    · have hbuf := ha.buffer_isSome (by omega)
      have hcap : ∀ bb, (a.data_.withSlots bb).capacity_ = a.data_.capacity_ := fun _ => rfl
      split at ho
      · -- the source is shorter
        rename_i hlt
        rw [hrb 0 b.size_ (by omega)] at ho
        have ety : (ys.drop 0).take b.size_ = ys := by simp [hsb]
        rw [ety] at ho
        split at ho
        · subst ho; cases h
        · rename_i bb hbb
          obtain ⟨l1, g1⟩ := copy_range_ok _ _ _ _ hbb (by omega) (by
            intro i _ h2
            obtain ⟨e1, x, hx⟩ := ha.constructed i (by omega)
            exact ⟨x, by rw [e1, hx]⟩)
          subst ho
          refine ⟨?_, by rw [hcap, if_neg (by omega)], by simp⟩
          rw [hsb]
          apply holds_of_getElem? hbuf rfl (by omega) hle'
          intro i
          rw [getElem?_destroy_n, g1, hSa]
          by_cases h1 : i < ys.length
          · have h2 : ¬ (ys.length ≤ i ∧ i < ys.length + (a.size_ - ys.length)) := by omega
            have h3 : 0 ≤ i ∧ i < 0 + ys.length := by omega
            simp [h1, h2, h3]
          · by_cases h2 : i < xs.length
            · have h3 : ys.length ≤ i ∧ i < ys.length + (a.size_ - ys.length) := by omega
              have h4 : ¬ (0 ≤ i ∧ i < 0 + ys.length) := by omega
              have h5 : i < a.data_.capacity_ := by omega
              obtain ⟨x, hx⟩ : ∃ x, xs[i]? = some x :=
                ⟨xs.get ⟨i, h2⟩, List.getElem?_eq_getElem h2⟩
              simp [h1, h2, h3, h4, h5, hx]
            · have h3 : ¬ (ys.length ≤ i ∧ i < ys.length + (a.size_ - ys.length)) := by omega
              have h4 : ¬ (0 ≤ i ∧ i < 0 + ys.length) := by omega
              simp [h1, h2, h3, h4]
      · -- the source is at least as long
        rename_i hge
        rw [hrb 0 a.size_ (by omega), hrb a.size_ (b.size_ - a.size_) (by omega)] at ho
        have e1 : (ys.drop 0).take a.size_ = ys.take xs.length := by simp [hsa]
        have e2 : (ys.drop a.size_).take (b.size_ - a.size_) = ys.drop xs.length := by
          rw [hsa, hsb]; simp
        rw [e1, e2] at ho
        have htl : (ys.take xs.length).length = xs.length := by simp; omega
        split at ho
        · subst ho; cases h
        · rename_i bb hbb
          obtain ⟨l1, g1⟩ := copy_range_ok _ _ _ _ hbb (by rw [htl]; omega) (by
            intro i _ h2
            obtain ⟨e1, x, hx⟩ := ha.constructed i (by rw [htl] at h2; omega)
            exact ⟨x, by rw [e1, hx]⟩)
          split at ho
          · subst ho; cases h
          · rename_i zs hz
            have := uninitialized_copy_n_ok hz
            subst this
            subst ho
            refine ⟨?_, by rw [hcap, if_neg (by omega)], by simp⟩
            rw [hsb]
            apply holds_of_getElem? hbuf rfl (by omega) hle'
            intro i
            rw [getElem?_writeRange _ _ _ _ (by simp; omega), g1, hSa, htl, hsa]
            simp only [List.length_map, List.length_drop, List.getElem?_map, List.getElem?_take,
              List.getElem?_drop, Nat.zero_add, Nat.sub_zero, Nat.zero_le, true_and]
            by_cases h1 : i < xs.length
            · have h2 : i < ys.length := by omega
              simp [h1, h2]
            · by_cases h2 : i < ys.length
              · have h3 : i < xs.length + (ys.length - xs.length) := by omega
                have h4 : xs.length + (i - xs.length) = i := by omega
                simp [h1, h2, h3, h4]
              · have h3 : ¬ i < xs.length + (ys.length - xs.length) := by omega
                simp [h1, h2, h3]

end advanced_vector

namespace advanced_vector
variable {T : Type}

theorem NoThrow.CopyAssign {E : Elem T} (hE : E.NoThrow) (a b : Vector T) (same : Bool) :
    (a.CopyAssign E b same).result = .ok () := by
  unfold Vector.CopyAssign
  split
  · rfl
  · split
    · obtain ⟨c, hc⟩ := NoThrow.copy hE b
      rw [hc]
    · split
      · split
        · rename_i h
          exact absurd h (step_ne_error (NoThrow.copy_range hE _ _ _))
        · rfl
      · split
        · rename_i h
          exact absurd h (step_ne_error (NoThrow.copy_range hE _ _ _))
        · rw [NoThrow.uninitialized_copy_n hE]

/-- C12: copy assignment `a = b` between well-formed `Vector`s that returns leaves the
live elements of `a` equal to those of `b` and `a.Size() == b.Size()`; `a.Capacity()` is
`b.Size()` when `b.Size()` exceeded `a`'s old capacity (copy and swap) and unchanged
otherwise (in place, `b` smaller or larger than `a`'s old size); `b` is only read (the
operator takes it by reference to const and the model returns no new `b`);
self-assignment changes nothing; for an element type that never throws the assignment
returns. -/
theorem C12_vector_copy_assignment (E : Elem T) (a b : Vector T) (ha : a.WF) (hb : b.WF) :
    ((a.CopyAssign E b false).result = .ok () →
      (a.CopyAssign E b false).vec.live = b.live ∧
      (a.CopyAssign E b false).vec.Size = b.Size ∧
      (b.Size > a.Capacity → (a.CopyAssign E b false).vec.Capacity = b.Size) ∧
      (b.Size ≤ a.Capacity → (a.CopyAssign E b false).vec.Capacity = a.Capacity)) ∧
    ((a.CopyAssign E a true).vec = a ∧ (a.CopyAssign E a true).result = .ok ()) ∧
    (E.NoThrow → (a.CopyAssign E b false).result = .ok ()) := by
  refine ⟨fun h => ?_, ⟨rfl, rfl⟩, fun hE => NoThrow.CopyAssign hE a b false⟩
  obtain ⟨c1, c2, _⟩ := CopyAssign_ok ha hb h
  have hsb : b.size_ = b.live.length := hb.1
  unfold Vector.Size Vector.Capacity RawMemory.Capacity
  refine ⟨c1.live_eq, by rw [c1.1, hsb], fun hgt => ?_, fun hle => ?_⟩
  · rw [c2, if_pos (by omega), hsb]
  · rw [c2, if_neg (by omega)]

theorem C12_vector_copy_assignment_witness :
    (vecOf [1, 2, 3] 4).WF ∧ (vecOf [7, 8] 2).WF ∧ (vecOf [1, 2, 3, 4, 5] 5).WF ∧
    ((vecOf [1, 2, 3] 4).CopyAssign intElem (vecOf [7, 8] 2) false).vec.live = [7, 8] ∧
    ((vecOf [1, 2, 3] 4).CopyAssign intElem (vecOf [7, 8] 2) false).vec.Capacity = 4 ∧
    ((vecOf [1, 2, 3] 4).CopyAssign intElem (vecOf [1, 2, 3, 4, 5] 5) false).vec.live =
      [1, 2, 3, 4, 5] ∧
    ((vecOf [1, 2, 3] 4).CopyAssign intElem (vecOf [1, 2, 3, 4, 5] 5) false).vec.Capacity = 5 :=
  have h1 := (C12_vector_copy_assignment intElem (vecOf [1, 2, 3] 4) (vecOf [7, 8] 2)
    (by decide) (by decide)).1 rfl
  have h2 := (C12_vector_copy_assignment intElem (vecOf [1, 2, 3] 4) (vecOf [1, 2, 3, 4, 5] 5)
    (by decide) (by decide)).1 rfl
  ⟨by decide, by decide, by decide, h1.1, h1.2.2.2 (by decide), h2.1, h2.2.2.1 (by decide)⟩

end advanced_vector

namespace simple_vector
variable {T : Type}

/-- `std::equal` over sequences of the same length is the spec's elementwise equality. -/
theorem std_equal_iff (eq : T → T → Bool) (a : List T) : ∀ b : List T, a.length = b.length →
    (std_equal eq a b = true ↔
      ∀ i, i < a.length → ∃ x y, a[i]? = some x ∧ b[i]? = some y ∧ eq x y = true) := by
  induction a with
  | nil =>
    intro b _
    simp [std_equal]
  | cons x xs ih =>
    intro b hl
    cases b with
    | nil => simp at hl
    | cons y ys =>
      simp only [List.length_cons, Nat.add_right_cancel_iff] at hl
      unfold std_equal
      constructor
      · intro h i hi
        by_cases hxy : eq x y = true
        · rw [if_pos hxy] at h
          cases i with
          | zero => exact ⟨x, y, List.getElem?_cons_zero, List.getElem?_cons_zero, hxy⟩
          | succ j =>
            simp only [List.length_cons] at hi
            simpa using (ih ys hl).mp h j (by omega)
        · rw [if_neg hxy] at h
          cases h
      · intro h
        obtain ⟨x', y', hx, hy, hxy⟩ := h 0 (by simp)
        simp only [List.getElem?_cons_zero, Option.some.injEq] at hx hy
        subst hx
        subst hy
        rw [if_pos hxy]
        apply (ih ys hl).mpr
        intro i hi
        simpa using h (i + 1) (by simp; omega)

theorem std_equal_take (eq : T → T → Bool) (a : List T) : ∀ b : List T, a.length ≤ b.length →
    std_equal eq a b = std_equal eq a (b.take a.length) := by
  induction a with
  | nil => intro b _; simp [std_equal]
  | cons x xs ih =>
    intro b hl
    cases b with
    | nil => simp at hl
    | cons y ys =>
      simp only [List.length_cons] at hl
      simp only [List.length_cons, List.take_succ_cons, std_equal]
      rw [ih ys (by omega)]

/-- `std::lexicographical_compare` is the spec's lexicographic order. -/
theorem lexicographical_compare_iff (lt : T → T → Bool) (a : List T) : ∀ b : List T,
    lexicographical_compare lt a b = true ↔ LexLess lt a b := by
  induction a with
  | nil =>
    intro b
    cases b with
    | nil =>
      simp only [lexicographical_compare, LexLess]
      constructor
      · intro h; cases h
      · rintro ⟨k, _, h | ⟨x, y, hx, _⟩⟩
        · simp at h
        · simp at hx
    | cons y ys =>
      simp only [lexicographical_compare, LexLess, true_iff]
      exact ⟨0, fun i hi => by omega, Or.inl ⟨rfl, by simp⟩⟩
  | cons x xs ih =>
    intro b
    cases b with
    | nil =>
      simp only [lexicographical_compare, LexLess]
      constructor
      · intro h; cases h
      · rintro ⟨k, _, h | ⟨x', y', _, hy, _⟩⟩
        · simp at h
        · simp at hy
    | cons y ys =>
      unfold lexicographical_compare
      by_cases h1 : lt x y = true
      · rw [if_pos h1]
        simp only [true_iff]
        exact ⟨0, fun i hi => by omega, Or.inr ⟨x, y, List.getElem?_cons_zero, List.getElem?_cons_zero, h1⟩⟩
      · rw [if_neg h1]
        have h1' : lt x y = false := by simpa using h1
        by_cases h2 : lt y x = true
        · rw [if_pos h2]
          constructor
          · intro h; cases h
          · rintro ⟨k, hk, h | ⟨x', y', hx, hy, hxy⟩⟩
            · cases k with
              | zero => simp at h
              | succ j =>
                obtain ⟨x', y', hx, hy, _, hyx⟩ := hk 0 (by omega)
                simp only [List.getElem?_cons_zero, Option.some.injEq] at hx hy
                subst hx; subst hy
                rw [h2] at hyx
                cases hyx
            · cases k with
              | zero =>
                simp only [List.getElem?_cons_zero, Option.some.injEq] at hx hy
                subst hx; subst hy
                rw [h1'] at hxy
                cases hxy
              | succ j =>
                obtain ⟨x'', y'', hx', hy', _, hyx⟩ := hk 0 (by omega)
                simp only [List.getElem?_cons_zero, Option.some.injEq] at hx' hy'
                subst hx'; subst hy'
                rw [h2] at hyx
                cases hyx
        · rw [if_neg h2]
          have h2' : lt y x = false := by simpa using h2
          rw [ih ys]
          constructor
          · rintro ⟨k, hk, h⟩
            refine ⟨k + 1, ?_, ?_⟩
            · intro i hi
              cases i with
              | zero => exact ⟨x, y, List.getElem?_cons_zero, List.getElem?_cons_zero, h1', h2'⟩
              | succ j => simpa using hk j (by omega)
            · rcases h with h | ⟨x', y', hx, hy, hxy⟩
              · exact Or.inl ⟨by simp [h.1], by simp; omega⟩
              · exact Or.inr ⟨x', y', by simpa using hx, by simpa using hy, hxy⟩
          · rintro ⟨k, hk, h⟩
            cases k with
            | zero =>
              rcases h with h | ⟨x', y', hx, hy, hxy⟩
              · simp at h
              · simp only [List.getElem?_cons_zero, Option.some.injEq] at hx hy
                subst hx; subst hy
                rw [h1'] at hxy
                cases hxy
            | succ j =>
              refine ⟨j, ?_, ?_⟩
              · intro i hi
                simpa using hk (i + 1) (by omega)
              · rcases h with h | ⟨x', y', hx, hy, hxy⟩
                · simp only [List.length_cons] at h
                  exact Or.inl ⟨by omega, by omega⟩
                · exact Or.inr ⟨x', y', by simpa using hx, by simpa using hy, hxy⟩

/-- For a totally ordered element type exactly one of "less", "equal", "greater" holds of
two sequences. -/
theorem list_trichotomy (C : Cmp T) (hC : C.TotalOrder) (a : List T) : ∀ b : List T,
    (lexicographical_compare C.lt a b = true ∧
        (decide (a.length = b.length) && std_equal C.eq a b) = false ∧
        lexicographical_compare C.lt b a = false) ∨
    (lexicographical_compare C.lt a b = false ∧
        (decide (a.length = b.length) && std_equal C.eq a b) = true ∧
        lexicographical_compare C.lt b a = false) ∨
    (lexicographical_compare C.lt a b = false ∧
        (decide (a.length = b.length) && std_equal C.eq a b) = false ∧
        lexicographical_compare C.lt b a = true) := by
  induction a with
  | nil =>
    intro b
    cases b with
    | nil => right; left; simp [lexicographical_compare, std_equal]
    | cons y ys => left; simp [lexicographical_compare]
  | cons x xs ih =>
    intro b
    cases b with
    | nil => right; right; simp [lexicographical_compare]
    | cons y ys =>
      obtain ⟨hasym, heq⟩ := hC
      by_cases h1 : C.lt x y = true
      · have h2 := hasym x y h1
        have h3 : C.eq x y = false := by
          cases h : C.eq x y with
          | false => rfl
          | true => rw [((heq x y).mp h).1] at h1; cases h1
        left
        simp [lexicographical_compare, std_equal, h1, h2, h3]
      · have h1' : C.lt x y = false := by simpa using h1
        by_cases h2 : C.lt y x = true
        · have h3 : C.eq x y = false := by
            cases h : C.eq x y with
            | false => rfl
            | true => rw [((heq x y).mp h).2] at h2; cases h2
          right; right
          simp [lexicographical_compare, std_equal, h1', h2, h3]
        · have h2' : C.lt y x = false := by simpa using h2
          have h3 : C.eq x y = true := (heq x y).mpr ⟨h1', h2'⟩
          simpa [lexicographical_compare, std_equal, h1', h2', h3] using ih ys

theorem std_equal_refl (eq : T → T → Bool) (a : List T) (h : ∀ x ∈ a, eq x x = true) :
    std_equal eq a a = true := by
  induction a with
  | nil => rfl
  | cons x xs ih =>
    unfold std_equal
    rw [if_pos (h x (by simp))]
    exact ih (fun y hy => h y (by simp [hy]))

end simple_vector

namespace simple_vector
variable {T : Type}

theorem opEq_distinct (C : Cmp T) (a b : SimpleVector T) (ha : a.WF) (hb : b.WF) :
    SimpleVector.opEq C false a b =
      (decide (a.live.length = b.live.length) && std_equal C.eq a.live b.live) := by
  have la := sv_live_length ha
  have lb := sv_live_length hb
  unfold SimpleVector.opEq SimpleVector.GetSize
  rw [la, lb, Bool.false_or]
  by_cases h : a.size_ = b.size_
  · have e : b.live = b.items_.Get.take a.live.length := by
      rw [la, h]; rfl
    rw [e, ← std_equal_take C.eq a.live b.items_.Get (by rw [la, h]; exact Nat.le_trans hb.1 hb.2)]
  · simp [h]

theorem opEq_distinct_iff (C : Cmp T) (a b : SimpleVector T) (ha : a.WF) (hb : b.WF) :
    SimpleVector.opEq C false a b = true ↔ StructEq C.eq a.live b.live := by
  rw [opEq_distinct C a b ha hb]
  unfold StructEq
  by_cases h : a.live.length = b.live.length
  · simp only [h, decide_True, Bool.true_and, true_and]
    rw [← h]
    exact std_equal_iff C.eq a.live b.live h
  · simp [h]

theorem total_order_refl {C : Cmp T} (hC : C.TotalOrder) (x : T) : C.eq x x = true := by
  obtain ⟨hasym, heq⟩ := hC
  have : C.lt x x = false := by
    cases h : C.lt x x with
    | false => rfl
    | true => rw [hasym x x h] at h; cases h
  exact (heq x x).mpr ⟨this, this⟩

end simple_vector

namespace simple_vector
variable {T : Type}

/-- C16 as stated fails for an element type whose `==` is not reflexive (`double` with a
NaN): a vector compared with itself is `==` by the address shortcut of `operator==`,
although its one element is not `==` to itself. -/
theorem C16_counterexample_same_object_nan :
    (SimpleVector.ofList intElem [0]).WF ∧
    nanCmp.eq 0 0 = false ∧
    SimpleVector.opEq nanCmp true (SimpleVector.ofList intElem [0])
      (SimpleVector.ofList intElem [0]) = true ∧
    ¬ StructEq nanCmp.eq (SimpleVector.ofList intElem [0]).live
      (SimpleVector.ofList intElem [0]).live := by
  refine ⟨by decide, rfl, rfl, ?_⟩
  rintro ⟨_, h⟩
  obtain ⟨x, y, hx, hy, hxy⟩ := h 0 (by decide)
  have ex : (SimpleVector.ofList intElem [0]).live[0]? = some 0 := by decide
  rw [ex] at hx hy
  cases hx
  cases hy
  revert hxy
  decide

/-- C16 (amended): for well-formed `SimpleVector`s, `a == b` holds exactly when they are
the same object or they have the same size and `==` elements at every index below the
size (the two agree when the elements are `==` to themselves); `a < b` holds exactly when
the live elements of `a` are lexicographically less than those of `b`; `!=`, `<=`, `>`,
`>=` are the derived relations; all of them depend on the live elements only; and for a
totally ordered element type exactly one of `a < b`, `a == b`, `a > b` holds. -/
theorem C16_simple_comparisons_structural (C : Cmp T) (a b : SimpleVector T) (ha : a.WF)
    (hb : b.WF) :
    (∀ same, SimpleVector.opEq C same a b = true ↔
      (same = true ∨ StructEq C.eq a.live b.live)) ∧
    ((∀ x, x ∈ a.live → C.eq x x = true) →
      (SimpleVector.opEq C true a a = true ↔ StructEq C.eq a.live a.live)) ∧
    (SimpleVector.opLt C a b = true ↔ LexLess C.lt a.live b.live) ∧
    (∀ same, SimpleVector.opNe C same a b = !SimpleVector.opEq C same a b) ∧
    SimpleVector.opLe C a b = !SimpleVector.opLt C b a ∧
    SimpleVector.opGt C a b = SimpleVector.opLt C b a ∧
    SimpleVector.opGe C a b = !SimpleVector.opLt C a b ∧
    (∀ a' b' : SimpleVector T, a'.WF → b'.WF → a'.live = a.live → b'.live = b.live →
      SimpleVector.opEq C false a' b' = SimpleVector.opEq C false a b ∧
      SimpleVector.opLt C a' b' = SimpleVector.opLt C a b) ∧
    (C.TotalOrder → ∀ same, (same = true → a = b) →
      (SimpleVector.opLt C a b = true ∧ SimpleVector.opEq C same a b = false ∧
        SimpleVector.opGt C a b = false) ∨
      (SimpleVector.opLt C a b = false ∧ SimpleVector.opEq C same a b = true ∧
        SimpleVector.opGt C a b = false) ∨
      (SimpleVector.opLt C a b = false ∧ SimpleVector.opEq C same a b = false ∧
        SimpleVector.opGt C a b = true)) := by
  have hrefl : (∀ x, x ∈ a.live → C.eq x x = true) → StructEq C.eq a.live a.live := by
    intro h
    refine ⟨rfl, fun i hi => ?_⟩
    have hx : a.live[i]? = some (a.live.get ⟨i, hi⟩) := List.getElem?_eq_getElem hi
    exact ⟨_, _, hx, hx, h _ (List.getElem?_mem hx)⟩
  refine ⟨fun same => ?_, fun h => ?_, lexicographical_compare_iff C.lt a.live b.live,
    fun _ => rfl, rfl, rfl, rfl, fun a' b' ha' hb' ea eb => ?_, fun hC same hsame => ?_⟩
  · cases same with
    | false =>
      rw [opEq_distinct_iff C a b ha hb]
      simp
    | true => simp [SimpleVector.opEq]
  · exact ⟨fun _ => hrefl h, fun _ => by simp [SimpleVector.opEq]⟩
  · refine ⟨?_, ?_⟩
    · rw [opEq_distinct C a' b' ha' hb', opEq_distinct C a b ha hb, ea, eb]
    · unfold SimpleVector.opLt
      rw [ea, eb]
  · have key : SimpleVector.opEq C same a b =
        (decide (a.live.length = b.live.length) && std_equal C.eq a.live b.live) := by
      cases same with
      | false => exact opEq_distinct C a b ha hb
      | true =>
        have := hsame rfl
        subst this
        rw [std_equal_refl C.eq a.live (fun x _ => total_order_refl hC x)]
        simp [SimpleVector.opEq]
    rw [key]
    exact list_trichotomy C hC a.live b.live

theorem C16_simple_comparisons_structural_witness :
    (SimpleVector.ofList intElem [1, 2, 3]).PopBack.WF ∧
    (SimpleVector.ofList intElem [1, 2]).WF ∧
    SimpleVector.opEq intCmp false (SimpleVector.ofList intElem [1, 2, 3]).PopBack
      (SimpleVector.ofList intElem [1, 2]) = true ∧
    StructEq intCmp.eq (SimpleVector.ofList intElem [1, 2, 3]).PopBack.live
      (SimpleVector.ofList intElem [1, 2]).live :=
  have h := C16_simple_comparisons_structural intCmp (SimpleVector.ofList intElem [1, 2, 3]).PopBack
    (SimpleVector.ofList intElem [1, 2]) (by decide) (by decide)
  ⟨by decide, by decide, rfl, ((h.1 false).mp rfl).resolve_left (by decide)⟩

end simple_vector

variable {T : Type}

namespace simple_vector

end simple_vector

namespace advanced_vector

end advanced_vector

variable {T : Type}

variable {T : Type}

namespace advanced_vector

theorem Inv_withSlots {v : Vector T} (hv : v.Inv) (b : Buf T) (n : Nat)
    (hn : n ≤ v.data_.capacity_) : (Vector.mk (v.data_.withSlots b) n).Inv := by
  refine ⟨hn, fun h0 => ?_⟩
  have : v.data_.buffer_ = none := hv.2 h0
  simp [RawMemory.withSlots, this]

theorem Inv_granted (c n : Nat) (b : Buf T) (hn : n ≤ c) :
    (Vector.mk ((RawMemory.granted c).withSlots b) n).Inv := by
  refine ⟨hn, fun h0 => ?_⟩
  have h0' : c = 0 := h0
  subst h0'
  simp [RawMemory.withSlots, RawMemory.granted]

/-- A vector over a block `RawMemory(c)` returned keeps the invariant, whatever the room in
the block. -/
theorem Inv_ofCapacity {E : Elem T} {c n : Nat} {m : RawMemory T}
    (hm : RawMemory.ofCapacity E c = .ok m) (b : Buf T) (hn : n ≤ c) :
    (Vector.mk (m.withSlots b) n).Inv := by
  obtain ⟨h1, h2, _, _⟩ := ofCapacity_ok hm
  refine ⟨?_, fun h0 => ?_⟩
  · show n ≤ m.capacity_
    omega
  · have h0' : m.capacity_ = 0 := h0
    have : m.buffer_ = none := h2 (by omega)
    simp [RawMemory.withSlots, this]

theorem Inv_empty : (Vector.empty : Vector T).Inv := ⟨Nat.le_refl _, fun _ => rfl⟩

theorem Inv_ofSize {E : Elem T} {n : Nat} {B : Vector T} (h : Vector.ofSize E n = .ok B) :
    B.Inv := by
  unfold Vector.ofSize at h
  split at h
  · cases h
  · rename_i data hm
    split at h
    · cases h
    · cases h
      exact Inv_ofCapacity hm _ (Nat.le_refl _)

theorem Inv_copy {E : Elem T} {v B : Vector T} (h : Vector.copy E v = .ok B) : B.Inv := by
  unfold Vector.copy at h
  simp only at h
  split at h
  · cases h
  · cases h
    exact Inv_granted _ _ _ (Nat.le_refl _)

theorem Inv_Swap {a b : Vector T} (ha : a.Inv) (hb : b.Inv) :
    (Vector.Swap a b).1.Inv ∧ (Vector.Swap a b).2.Inv := ⟨hb, ha⟩

theorem Inv_Reserve {E : Elem T} {v : Vector T} (hv : v.Inv) (n : Nat) :
    (v.Reserve E n).vec.Inv := by
  unfold Vector.Reserve
  split
  · exact hv
  · rename_i hgt
    unfold Vector.Capacity RawMemory.Capacity at hgt
    split
    · exact hv
    · rename_i new_data hm
      split
      · exact Inv_withSlots hv _ _ hv.1
      · exact Inv_ofCapacity hm _ (by have := hv.1; omega)

theorem capacity_Reserve {E : Elem T} (v : Vector T) (n : Nat)
    (h : (v.Reserve E n).result = .ok ()) : n ≤ (v.Reserve E n).vec.data_.capacity_ := by
  generalize ho : v.Reserve E n = o at h ⊢
  unfold Vector.Reserve at ho
  split at ho
  · rename_i hle
    subst ho
    exact hle
  · split at ho
    · subst ho; cases h
    · rename_i new_data hm
      split at ho
      · subst ho; cases h
      · subst ho
        show n ≤ new_data.capacity_
        rw [(ofCapacity_ok hm).1]

theorem Inv_Resize {E : Elem T} {v : Vector T} (hv : v.Inv) (n : Nat) :
    (v.Resize E n).vec.Inv := by
  unfold Vector.Resize
  split
  · exact hv
  · split
    · rename_i hlt
      exact Inv_withSlots hv _ _ (by have := hv.1; omega)
    · have hR := Inv_Reserve (E := E) hv n
      have hc := capacity_Reserve (E := E) v n
      split
      · rename_i v1 e f hr
        rw [hr] at hR
        exact hR
      · rename_i v1 f hr
        rw [hr] at hR hc
        simp only at hR hc
        split
        · exact Inv_withSlots hR _ _ hR.1
        · exact Inv_withSlots hR _ _ (hc trivial)

theorem Inv_PopBack {v : Vector T} (hv : v.Inv) : v.PopBack.Inv :=
  Inv_withSlots hv _ _ (by have := hv.1; omega)

theorem Inv_Erase {E : Elem T} {v : Vector T} (hv : v.Inv) (p : Nat) : (v.Erase E p).vec.Inv := by
  unfold Vector.Erase
  split
  · exact Inv_withSlots hv _ _ hv.1
  · exact Inv_withSlots hv _ _ (by have := hv.1; omega)

theorem Inv_Emplace {E : Elem T} {v : Vector T} (hv : v.Inv) (p : Nat)
    (newElem : Except Exn T) : (v.Emplace E p newElem).vec.Inv := by
  have hle := hv.1
  unfold Vector.Emplace
  split
  · rename_i hfull
    unfold Vector.EmplaceRealloc
    simp only
    split
    · exact hv
    · split
      · exact Inv_withSlots hv _ _ hle
      · split
        · exact Inv_withSlots hv _ _ hle
        · exact Inv_granted _ _ _ (by split <;> omega)
  · rename_i hne
    have hlt : v.size_ + 1 ≤ v.data_.capacity_ := by
      unfold Vector.Capacity RawMemory.Capacity at hne
      omega
    split
    · split
      · exact hv
      · exact Inv_withSlots hv _ _ hlt
    · unfold Vector.EmplaceShift
      split
      · exact hv
      · split
        · exact Inv_withSlots hv _ _ hle
        · split
          · split
            · exact Inv_withSlots hv _ _ hle
            · exact Inv_withSlots hv _ _ hle
          · split
            · exact Inv_withSlots hv _ _ hlt
            · split
              · split
                · exact Inv_withSlots hv _ _ hle
                · exact Inv_withSlots hv _ _ hle
              · exact Inv_withSlots hv _ _ hle

theorem Inv_CopyAssign {E : Elem T} {a b : Vector T} (ha : a.Inv) (same : Bool) :
    (a.CopyAssign E b same).vec.Inv := by
  have hle := ha.1
  unfold Vector.CopyAssign
  split
  · exact ha
  · split
    · split
      · exact ha
      · rename_i c hc
        exact Inv_copy hc
    · rename_i hnot
      unfold RawMemory.Capacity at hnot
      split
      · split
        · exact Inv_withSlots ha _ _ hle
        · exact Inv_withSlots ha _ _ (by omega)
      · split
        · exact Inv_withSlots ha _ _ hle
        · split
          · exact Inv_withSlots ha _ _ hle
          · exact Inv_withSlots ha _ _ (by omega)

end advanced_vector

variable {T : Type}

namespace simple_vector

theorem sv_Inv_PushBack {E : Elem T} {v r : SimpleVector T} {item : Arg T} (hv : v.Inv)
    (h : v.PushBack E item = some r ∨ v.PushBackMove E item = some r) : r.Inv := by
  unfold SimpleVector.Inv at hv ⊢
  obtain ⟨h1, h2⟩ := PushBack_sizes h
  rw [h1, h2]
  split <;> omega

theorem sv_Inv_Insert {E : Elem T} {v : SimpleVector T} {r : SimpleVector T × Nat} {p : Nat}
    {value : Arg T} (hv : v.Inv)
    (h : v.Insert E p value = some r ∨ v.InsertMove E p value = some r) : r.1.Inv := by
  unfold SimpleVector.Inv at hv ⊢
  obtain ⟨h1, _, h2⟩ := Insert_sizes h
  rw [h1, h2]
  split <;> omega

theorem sv_Inv_Resize (E : Elem T) (v : SimpleVector T) (n : Nat) (hv : v.Inv) :
    (v.Resize E n).Inv := by
  unfold SimpleVector.Inv at hv ⊢
  unfold SimpleVector.Resize
  by_cases h1 : n ≤ v.size_
  · rw [if_pos h1]
    show n ≤ v.capacity_
    omega
  · rw [if_neg h1]
    by_cases h2 : n ≤ v.capacity_
    · rw [if_pos h2]
      exact h2
    · rw [if_neg h2]
      show n ≤ max n (v.capacity_ * 2)
      omega

theorem sv_Inv_Reserve (E : Elem T) (v : SimpleVector T) (n : Nat) (hv : v.Inv) :
    (v.Reserve E n).1.Inv := by
  unfold SimpleVector.Inv at hv ⊢
  unfold SimpleVector.Reserve
  by_cases h : n > v.capacity_
  · rw [if_pos h]
    split
    · exact hv
    · show v.size_ ≤ n
      omega
  · rw [if_neg h]
    exact hv

end simple_vector

/-- C17: `size ≤ capacity` in both designs.  It holds of every container a constructor
produces (`Vector`: default, sized, copy, move; `SimpleVector`: default, sized,
reserve-proxy, initializer-list, copy, move, and of the moved-from source), and every
public mutating operation keeps it, whether or not the call throws (`Vector`:
`EmplaceBack`/`PushBack`, `Emplace`/`Insert`, `PopBack`, `Erase`, `Resize`, `Reserve`,
`Swap`, copy and move assignment; `SimpleVector`: both `PushBack`s and both `Insert`s,
whatever the argument designates, when the behaviour of the call is defined, as it is for
an object outside the array; `PopBack`, `Erase`, `Resize`, `Reserve`, `Clear`, both
`swap`s, copy and move assignment); and for `RawMemory` inside a `Vector`, as for a
freshly built one, capacity 0 implies the null pointer. -/
theorem C17_size_le_capacity (E : advanced_vector.Elem T) (E' : simple_vector.Elem T)
    (v w : advanced_vector.Vector T) (sv sw : simple_vector.SimpleVector T)
    (hv : v.Inv) (hw : w.Inv) (hsv : sv.Inv) (hsw : sw.Inv) :
    ((advanced_vector.Vector.empty : advanced_vector.Vector T).Inv ∧
      (∀ n B, advanced_vector.Vector.ofSize E n = .ok B → B.Inv) ∧
      (∀ B, advanced_vector.Vector.copy E v = .ok B → B.Inv) ∧
      (advanced_vector.Vector.moveCtor v).1.Inv ∧ (advanced_vector.Vector.moveCtor v).2.Inv) ∧
    ((∀ newElem, (v.EmplaceBack E newElem).vec.Inv) ∧
      (∀ x, (v.PushBack E x).vec.Inv) ∧ (∀ x, (v.PushBackMove E x).vec.Inv) ∧
      (∀ p newElem, p ≤ v.Size → (v.Emplace E p newElem).vec.Inv) ∧
      (∀ p x, p ≤ v.Size → (v.Insert E p x).vec.Inv) ∧
      (∀ p x, p ≤ v.Size → (v.InsertMove E p x).vec.Inv) ∧
      (0 < v.Size → v.PopBack.Inv) ∧
      (∀ p, p < v.Size → (v.Erase E p).vec.Inv) ∧
      (∀ n, (v.Resize E n).vec.Inv) ∧ (∀ n, (v.Reserve E n).vec.Inv) ∧
      (advanced_vector.Vector.Swap v w).1.Inv ∧ (advanced_vector.Vector.Swap v w).2.Inv ∧
      (∀ same, (v.CopyAssign E w same).vec.Inv) ∧
      (advanced_vector.Vector.MoveAssign v w).1.Inv ∧
      (advanced_vector.Vector.MoveAssign v w).2.Inv) ∧
    ((v.Capacity = 0 → v.data_.buffer_ = none) ∧
      (∀ n m, advanced_vector.RawMemory.ofCapacity E n = .ok m → m.Capacity = 0 →
        m.buffer_ = none) ∧
      (∀ n, (advanced_vector.RawMemory.granted n : advanced_vector.RawMemory T).Capacity = 0 →
        (advanced_vector.RawMemory.granted n : advanced_vector.RawMemory T).buffer_ = none) ∧
      (advanced_vector.RawMemory.moveCtor v.data_).2.buffer_ = none) ∧
    ((simple_vector.SimpleVector.empty : simple_vector.SimpleVector T).Inv ∧
      (∀ n, (simple_vector.SimpleVector.ofSize E' n).Inv) ∧
      (∀ n x, (simple_vector.SimpleVector.ofSizeValue E' n x).Inv) ∧
      (∀ n, (simple_vector.SimpleVector.ofReserve E' n).Inv) ∧
      (∀ l, (simple_vector.SimpleVector.ofList E' l).Inv) ∧
      (sv.copy E').Inv ∧
      (simple_vector.SimpleVector.moveCtor sv).1.Inv ∧
      (simple_vector.SimpleVector.moveCtor sv).2.Inv) ∧
    ((∀ item r, sv.PushBack E' item = some r → r.Inv) ∧
      (∀ item r, sv.PushBackMove E' item = some r → r.Inv) ∧
      (∀ x, ∃ r, sv.PushBack E' (.outside x) = some r ∧ r.Inv) ∧
      (∀ x, ∃ r, sv.PushBackMove E' (.outside x) = some r ∧ r.Inv) ∧
      (∀ p item r, p ≤ sv.GetSize → sv.Insert E' p item = some r → r.1.Inv) ∧
      (∀ p item r, p ≤ sv.GetSize → sv.InsertMove E' p item = some r → r.1.Inv) ∧
      (∀ p x, p ≤ sv.GetSize → ∃ r, sv.Insert E' p (.outside x) = some r ∧ r.1.Inv) ∧
      (∀ p x, p ≤ sv.GetSize → ∃ r, sv.InsertMove E' p (.outside x) = some r ∧ r.1.Inv) ∧
      (0 < sv.GetSize → sv.PopBack.Inv) ∧
      (∀ p, p < sv.GetSize → (sv.Erase E' p).1.Inv) ∧
      (∀ n, (sv.Resize E' n).Inv) ∧ (∀ n, (sv.Reserve E' n).1.Inv) ∧ sv.Clear.Inv ∧
      (simple_vector.SimpleVector.swap sv sw).1.Inv ∧
      (simple_vector.SimpleVector.swap sv sw).2.Inv ∧
      (simple_vector.SimpleVector.swapRvalue E' sv sw).1.Inv ∧
      (simple_vector.SimpleVector.swapRvalue E' sv sw).2.Inv ∧
      (∀ same, (sv.CopyAssign E' sw same).Inv) ∧ (∀ same, (sv.MoveAssign E' sw same).Inv)) := by
  have hsvle : sv.size_ ≤ sv.capacity_ := hsv
  have hswle : sw.size_ ≤ sw.capacity_ := hsw
  have svInv : ∀ s c (i : simple_vector.ArrayPtr T), s ≤ c →
      (simple_vector.SimpleVector.mk s c i).Inv := fun _ _ _ h => h
  refine ⟨⟨advanced_vector.Inv_empty, fun n B h => advanced_vector.Inv_ofSize h,
      fun B h => advanced_vector.Inv_copy h, hv, advanced_vector.Inv_empty⟩,
    ⟨fun ne => advanced_vector.Inv_Emplace hv _ _, fun x => advanced_vector.Inv_Emplace hv _ _,
      fun x => advanced_vector.Inv_Emplace hv _ _, fun p ne _ => advanced_vector.Inv_Emplace hv _ _,
      fun p x _ => advanced_vector.Inv_Emplace hv _ _,
      fun p x _ => advanced_vector.Inv_Emplace hv _ _,
      fun _ => advanced_vector.Inv_PopBack hv, fun p _ => advanced_vector.Inv_Erase hv p,
      fun n => advanced_vector.Inv_Resize hv n, fun n => advanced_vector.Inv_Reserve hv n,
      hw, hv, fun same => advanced_vector.Inv_CopyAssign hv same, hw, hv⟩,
    ⟨hv.2, fun n m hm h => (advanced_vector.ofCapacity_ok hm).2.1
        (by rw [← (advanced_vector.ofCapacity_ok hm).1]; exact h), fun n h => ?_, rfl⟩,
    ⟨Nat.le_refl _, fun n => Nat.le_refl _, fun n x => Nat.le_refl _, fun n => Nat.zero_le _,
      fun l => Nat.le_refl _, Nat.le_refl _, Nat.le_refl _, Nat.le_refl _⟩,
    ⟨fun item r h => simple_vector.sv_Inv_PushBack hsv (Or.inl h),
      fun item r h => simple_vector.sv_Inv_PushBack hsv (Or.inr h),
      fun x => ⟨_, simple_vector.PushBack_outside E' sv x,
        simple_vector.sv_Inv_PushBack hsv (Or.inl (simple_vector.PushBack_outside E' sv x))⟩,
      fun x => ⟨_, simple_vector.PushBackMove_outside E' sv x,
        simple_vector.sv_Inv_PushBack hsv (Or.inr (simple_vector.PushBackMove_outside E' sv x))⟩,
      fun p item r _ h => simple_vector.sv_Inv_Insert hsv (Or.inl h),
      fun p item r _ h => simple_vector.sv_Inv_Insert hsv (Or.inr h),
      fun p x _ => ⟨_, simple_vector.Insert_outside E' sv p x,
        simple_vector.sv_Inv_Insert hsv (Or.inl (simple_vector.Insert_outside E' sv p x))⟩,
      fun p x _ => ⟨_, simple_vector.InsertMove_outside E' sv p x,
        simple_vector.sv_Inv_Insert hsv (Or.inr (simple_vector.InsertMove_outside E' sv p x))⟩,
      fun _ => ?_, fun p _ => ?_,
      fun n => simple_vector.sv_Inv_Resize E' sv n hsv,
      fun n => simple_vector.sv_Inv_Reserve E' sv n hsv, Nat.zero_le _, hsw, hsv,
      Nat.le_refl _, hsv, fun same => ?_, fun same => ?_⟩⟩
  · have h0 : n = 0 := h
    subst h0
    rfl
  · exact svInv _ _ _ (by omega)
  · exact svInv _ _ _ (by omega)
  · unfold simple_vector.SimpleVector.CopyAssign
    split
    · exact hsv
    · exact Nat.le_refl _
  · unfold simple_vector.SimpleVector.MoveAssign
    split
    · exact hsv
    · exact Nat.le_refl _

theorem C17_size_le_capacity_witness :
    (advanced_vector.vecOf [1, 2, 3] 3).Inv ∧ (advanced_vector.vecOf [7] 4).Inv ∧
    (simple_vector.SimpleVector.ofList simple_vector.intElem [1, 2, 3]).Inv ∧
    (simple_vector.SimpleVector.ofReserve simple_vector.intElem 2).Inv ∧
    ((advanced_vector.vecOf [1, 2, 3] 3).PushBack advanced_vector.intElem 4).vec.Inv ∧
    ∃ r, (simple_vector.SimpleVector.ofList simple_vector.intElem [1, 2, 3]).PushBack
      simple_vector.intElem (.outside 4) = some r ∧ r.Inv :=
  have h := C17_size_le_capacity advanced_vector.intElem simple_vector.intElem
    (advanced_vector.vecOf [1, 2, 3] 3) (advanced_vector.vecOf [7] 4)
    (simple_vector.SimpleVector.ofList simple_vector.intElem [1, 2, 3])
    (simple_vector.SimpleVector.ofReserve simple_vector.intElem 2)
    (by decide) (by decide) (by decide) (by decide)
  ⟨by decide, by decide, by decide, by decide, h.2.1.2.1 4, h.2.2.2.2.2.2.1 4⟩

namespace advanced_vector
variable {T : Type}

/-- An `EmplaceBack` that returns appends one value; the capacity doubles (from 0: becomes
1) exactly when the vector was full. -/
theorem EmplaceBack_ok {E : Elem T} {v : Vector T} {xs : List T} {newElem : Except Exn T}
    {it : Nat} (hv : v.Holds xs) (h : (v.EmplaceBack E newElem).result = .ok it) :
    (∃ x, (v.EmplaceBack E newElem).vec.Holds (xs ++ [x])) ∧
    (v.EmplaceBack E newElem).vec.data_.capacity_ =
      (if xs.length = v.data_.capacity_ then (if xs.length = 0 then 1 else xs.length * 2)
        else v.data_.capacity_) := by
  have hsz : v.size_ = xs.length := hv.1
  unfold Vector.EmplaceBack at h ⊢
  obtain ⟨x, rfl⟩ := Emplace_newElem_ok h
  obtain ⟨_, b, c, _⟩ := Emplace_ok hv (by omega) h
  refine ⟨⟨x, ?_⟩, ?_⟩
  · rw [hsz] at b ⊢
    simpa using b
  · rw [c]
    unfold Vector.Capacity RawMemory.Capacity
    rw [hsz]

/-- What one append does to a well-formed vector, whichever call it is. -/
theorem append_step {E : Elem T} {v : Vector T} {xs : List T} (op : BackOp T)
    (ops : List (BackOp T)) (hop : op.isAppend = true) (hv : v.Holds xs) {v' : Vector T}
    (h : Vector.runBack E (op :: ops) v = .ok v') :
    ∃ w, Vector.runBack E ops w = .ok v' ∧ (∃ x, w.Holds (xs ++ [x])) ∧
      w.data_.capacity_ =
        (if xs.length = v.data_.capacity_ then (if xs.length = 0 then 1 else xs.length * 2)
          else v.data_.capacity_) := by
  cases op with
  | popBack => cases hop
  | pushBack x =>
    unfold Vector.runBack at h
    split at h
    · cases h
    · rename_i hr
      have hr' : ∃ it, (v.EmplaceBack E (E.copyCtor x)).result = .ok it := by
        unfold Vector.PushBack at hr
        simp only at hr
        cases hh : (v.EmplaceBack E (E.copyCtor x)).result with
        | error e => rw [hh] at hr; cases hr
        | ok it => exact ⟨it, rfl⟩
      obtain ⟨it, hit⟩ := hr'
      exact ⟨_, h, EmplaceBack_ok hv hit⟩
  | pushBackMove x =>
    unfold Vector.runBack at h
    split at h
    · cases h
    · rename_i hr
      have hr' : ∃ it, (v.EmplaceBack E ((E.moveCtor x).map Prod.fst)).result = .ok it := by
        unfold Vector.PushBackMove at hr
        simp only at hr
        cases hh : (v.EmplaceBack E ((E.moveCtor x).map Prod.fst)).result with
        | error e => rw [hh] at hr; cases hr
        | ok it => exact ⟨it, rfl⟩
      obtain ⟨it, hit⟩ := hr'
      exact ⟨_, h, EmplaceBack_ok hv hit⟩
  | emplaceBack newElem =>
    unfold Vector.runBack at h
    split at h
    · cases h
    · rename_i it hr
      exact ⟨_, h, EmplaceBack_ok hv hr⟩

theorem pow2_double {c : Nat} (h : c = 0 ∨ ∃ k, c = 2 ^ k) (n : Nat) (hn : n = c) :
    ∃ k, (if n = 0 then 1 else n * 2) = 2 ^ k := by
  rcases h with h | ⟨k, hk⟩
  · exact ⟨0, by rw [if_pos (by omega)]; rfl⟩
  · by_cases h0 : n = 0
    · exact ⟨0, by rw [if_pos h0]; rfl⟩
    · exact ⟨k + 1, by rw [if_neg h0, hn, hk, Nat.pow_succ]⟩

/-- A script of appends and guarded pops keeps the capacity 0 or a power of two. -/
theorem runBack_pow2 {E : Elem T} (ops : List (BackOp T)) : ∀ (v v' : Vector T) (xs : List T),
    v.Holds xs → backGuarded ops xs.length = true →
    (v.data_.capacity_ = 0 ∨ ∃ k, v.data_.capacity_ = 2 ^ k) →
    Vector.runBack E ops v = .ok v' →
    (v'.data_.capacity_ = 0 ∨ ∃ k, v'.data_.capacity_ = 2 ^ k) := by
  induction ops with
  | nil =>
    intro v v' xs _ _ hc h
    unfold Vector.runBack at h
    cases h
    exact hc
  | cons op ops ih =>
    intro v v' xs hv hg hc h
    by_cases hop : op.isAppend = true
    · obtain ⟨w, hw, ⟨x, hwx⟩, hcap⟩ := append_step op ops hop hv h
      have hg' : backGuarded ops (xs ++ [x]).length = true := by
        cases op with
        | popBack => cases hop
        | pushBack _ => simpa [backGuarded] using hg
        | pushBackMove _ => simpa [backGuarded] using hg
        | emplaceBack _ => simpa [backGuarded] using hg
      refine ih w v' _ hwx hg' ?_ hw
      rw [hcap]
      by_cases hfull : xs.length = v.data_.capacity_
      · rw [if_pos hfull]
        exact Or.inr (pow2_double hc _ hfull)
      · rw [if_neg hfull]
        exact hc
    · cases op with
      | popBack =>
        unfold Vector.runBack at h
        simp only [backGuarded, Bool.and_eq_true, decide_eq_true_eq] at hg
        obtain ⟨p1, p2⟩ := PopBack_ok hv hg.1
        exact ih _ v' _ p1 (by simpa using hg.2) (by rw [p2]; exact hc) h
      | pushBack _ => exact absurd rfl hop
      | pushBackMove _ => exact absurd rfl hop
      | emplaceBack _ => exact absurd rfl hop

/-- A script of appends only: the size grows by the number of calls and the capacity stays
a power of two with `size ≤ capacity < 2 * size`. -/
theorem runBack_appends {E : Elem T} (ops : List (BackOp T)) : ∀ (v v' : Vector T) (xs : List T),
    v.Holds xs → (∀ op, op ∈ ops → op.isAppend = true) →
    ((xs.length = 0 ∧ v.data_.capacity_ = 0) ∨
      (1 ≤ xs.length ∧ (∃ k, v.data_.capacity_ = 2 ^ k) ∧ xs.length ≤ v.data_.capacity_ ∧
        v.data_.capacity_ < 2 * xs.length)) →
    Vector.runBack E ops v = .ok v' →
    v'.size_ = xs.length + ops.length ∧
    ((xs.length + ops.length = 0 ∧ v'.data_.capacity_ = 0) ∨
      (1 ≤ xs.length + ops.length ∧ (∃ k, v'.data_.capacity_ = 2 ^ k) ∧
        xs.length + ops.length ≤ v'.data_.capacity_ ∧
        v'.data_.capacity_ < 2 * (xs.length + ops.length))) := by
  induction ops with
  | nil =>
    intro v v' xs hv _ hq h
    unfold Vector.runBack at h
    cases h
    exact ⟨hv.1, hq⟩
  | cons op ops ih =>
    intro v v' xs hv hall hq h
    have hop := hall op (by simp)
    obtain ⟨w, hw, ⟨x, hwx⟩, hcap⟩ := append_step op ops hop hv h
    have hl : (xs ++ [x]).length = xs.length + 1 := by simp
    have := ih w v' _ hwx (fun o ho => hall o (by simp [ho])) (by
      right
      rw [hl, hcap]
      rcases hq with ⟨q1, q2⟩ | ⟨q1, ⟨k, q2⟩, q3, q4⟩
      · rw [if_pos (by omega), if_pos q1]
        exact ⟨by omega, ⟨0, rfl⟩, by omega, by omega⟩
      · by_cases hfull : xs.length = v.data_.capacity_
        · rw [if_pos hfull, if_neg (by omega)]
          exact ⟨by omega, ⟨k + 1, by rw [hfull, q2, Nat.pow_succ]⟩, by omega, by omega⟩
        · rw [if_neg hfull]
          exact ⟨by omega, ⟨k, q2⟩, by omega, by omega⟩) hw
    rw [hl] at this
    simp only [List.length_cons]
    have e : xs.length + 1 + ops.length = xs.length + (ops.length + 1) := by omega
    rw [e] at this
    exact this

theorem smallest_pow2_of_bounds {c n : Nat} (hp : ∃ k, c = 2 ^ k) (h1 : n ≤ c)
    (h2 : c < 2 * n) : SmallestPow2AtLeast c n := by
  refine ⟨hp, h1, fun j hj => ?_⟩
  obtain ⟨k, rfl⟩ := hp
  have h3 : 2 ^ k < 2 ^ (j + 1) := by
    rw [Nat.pow_succ]
    omega
  have h4 : k < j + 1 := (Nat.pow_lt_pow_iff_right (by omega)).mp h3
  exact Nat.pow_le_pow_right (by omega) (by omega)

theorem NoThrow.EmplaceBack {E : Elem T} (hE : E.NoThrow) (v : Vector T) (x : T) :
    (v.EmplaceBack E (.ok x)).result = .ok v.size_ := by
  unfold Vector.EmplaceBack
  exact NoThrow.Emplace hE v v.size_ x

theorem NoThrow.runBack {E : Elem T} (hE : E.NoThrow) (ops : List (BackOp T)) :
    (∀ e, BackOp.emplaceBack (.error e) ∉ ops) →
    ∀ v : Vector T, ∃ v', Vector.runBack E ops v = .ok v' := by
  induction ops with
  | nil => intro _ v; exact ⟨v, rfl⟩
  | cons op ops ih =>
    intro hne v
    have hne' : ∀ e, BackOp.emplaceBack (.error e) ∉ ops :=
      fun e h => hne e (List.mem_cons_of_mem _ h)
    cases op with
    | pushBack x =>
      unfold Vector.runBack
      rw [(NoThrow.PushBack hE v x).1]
      exact ih hne' _
    | pushBackMove x =>
      unfold Vector.runBack
      rw [(NoThrow.PushBack hE v x).2]
      exact ih hne' _
    | emplaceBack newElem =>
      cases newElem with
      | error e => exact absurd (List.mem_cons_self _ _) (hne e)
      | ok x =>
        unfold Vector.runBack
        rw [NoThrow.EmplaceBack hE v x]
        exact ih hne' _
    | popBack =>
      unfold Vector.runBack
      exact ih hne' _

/-- C18: a script of `PushBack` / `EmplaceBack` / `PopBack` calls run to its end on a
default-constructed `Vector`.  If the script is `n ≥ 1` appends, then `size() == n` and
`capacity()` is the smallest power of two that is at least `n`; if the script never pops
an empty vector, `capacity()` is 0 or a power of two.  For an element type that never
throws, a script without a failing `EmplaceBack` argument does run to its end. -/
theorem C18_vector_capacity_power_of_two (E : Elem T) (ops : List (BackOp T)) (v : Vector T)
    (hrun : Vector.runBack E ops Vector.empty = .ok v) :
    ((∀ op, op ∈ ops → op.isAppend = true) → 1 ≤ ops.length →
      v.Size = ops.length ∧ SmallestPow2AtLeast v.Capacity ops.length) ∧
    (backGuarded ops 0 = true → v.Capacity = 0 ∨ ∃ k, v.Capacity = 2 ^ k) ∧
    (E.NoThrow → (∀ e, BackOp.emplaceBack (.error e) ∉ ops) →
      ∃ v', Vector.runBack E ops Vector.empty = .ok v') := by
  unfold Vector.Size Vector.Capacity RawMemory.Capacity
  refine ⟨fun hall hn => ?_, fun hg => ?_, fun hE hne => NoThrow.runBack hE ops hne _⟩
  · obtain ⟨a, b⟩ := runBack_appends ops Vector.empty v [] Holds_empty hall
      (Or.inl ⟨rfl, rfl⟩) hrun
    simp only [List.length_nil, Nat.zero_add] at a b
    refine ⟨a, ?_⟩
    rcases b with ⟨b1, _⟩ | ⟨_, b2, b3, b4⟩
    · omega
    · exact smallest_pow2_of_bounds b2 b3 b4
  · exact runBack_pow2 ops Vector.empty v [] Holds_empty hg (Or.inl rfl) hrun

theorem C18_vector_capacity_power_of_two_witness :
    Vector.runBack intElem
      [BackOp.pushBack 1, .pushBackMove 2, .emplaceBack (.ok 3), .pushBack 4, .pushBack 5]
      Vector.empty = .ok (vecOf [1, 2, 3, 4, 5] 8) ∧
    (vecOf [1, 2, 3, 4, 5] 8).Size = 5 ∧ (vecOf [1, 2, 3, 4, 5] 8).Capacity = 8 ∧
    SmallestPow2AtLeast (vecOf [1, 2, 3, 4, 5] 8).Capacity 5 :=
  have h := C18_vector_capacity_power_of_two intElem
    [BackOp.pushBack 1, .pushBackMove 2, .emplaceBack (.ok 3), .pushBack 4, .pushBack 5]
    (vecOf [1, 2, 3, 4, 5] 8) rfl
  ⟨rfl, rfl, rfl, (h.1 (by decide) (by decide)).2⟩

end advanced_vector

namespace advanced_vector
variable {T : Type}

/-- C19: on a `Vector` with `size ≤ capacity`, the `assert`s evaluated by `Emplace` with
`p ≤ size` (hence by `Insert`, `EmplaceBack`, `PushBack`), by `Erase` with `p < size`, by
`PopBack` with `size > 0` and by `operator[]` with `index < size` all pass: every
`RawMemory::operator+` is evaluated with `offset ≤ capacity`, every
`RawMemory::operator[]` with `index < capacity`, and the `assert`s of `Vector` itself
hold. -/
theorem C19_vector_asserts_pass (E : Elem T) (v : Vector T) (hv : v.Size ≤ v.Capacity) :
    (∀ p newElem, p ≤ v.Size → ∀ a, a ∈ v.EmplaceAsserts E p newElem → a.passes = true) ∧
    (∀ newElem, ∀ a, a ∈ v.EmplaceAsserts E v.Size newElem → a.passes = true) ∧
    (∀ p, p < v.Size → ∀ a, a ∈ v.EraseAsserts E p → a.passes = true) ∧
    (0 < v.Size → ∀ a, a ∈ v.PopBackAsserts → a.passes = true) ∧
    (∀ i, i < v.Size → ∀ a, a ∈ v.IndexAsserts i → a.passes = true) := by
  unfold Vector.Size Vector.Capacity RawMemory.Capacity at *
  have emplace : ∀ p newElem, p ≤ v.size_ → ∀ a, a ∈ v.EmplaceAsserts E p newElem →
      a.passes = true := by
    intro p newElem hp a ha
    unfold Vector.EmplaceAsserts at ha
    unfold Vector.Capacity RawMemory.Capacity at ha
    have hplus : (Assertion.plus p
        (RawMemory.granted (if v.size_ = 0 then 1 else v.size_ * 2) : RawMemory T).capacity_).passes
        = true := by
      show decide (p ≤ (if v.size_ = 0 then 1 else v.size_ * 2)) = true
      apply decide_eq_true
      split <;> omega
    split at ha
    · simp only [List.mem_cons] at ha
      rcases ha with rfl | ha
      · exact hplus
      · split at ha
        · cases ha
        · split at ha
          · simp only [List.mem_singleton] at ha
            subst ha
            exact hplus
          · cases ha
    · rename_i hne
      split at ha
      · cases ha
      · rename_i hpe
        split at ha
        · cases ha
        · split at ha
          · cases ha
          · split at ha
            · cases ha
            · simp only [List.mem_singleton] at ha
              subst ha
              show decide (p < v.data_.capacity_) = true
              apply decide_eq_true
              omega
  refine ⟨emplace, fun newElem => emplace _ newElem (Nat.le_refl _), fun p hp a ha => ?_,
    fun h0 a ha => ?_, fun i hi a ha => ?_⟩
  · unfold Vector.EraseAsserts at ha
    unfold Vector.Capacity RawMemory.Capacity at ha
    simp only [List.mem_cons] at ha
    rcases ha with rfl | ha
    · show (p != v.size_) = true
      simp
      omega
    · split at ha
      · cases ha
      · simp only [List.mem_singleton] at ha
        subst ha
        exact decide_eq_true hv
  · unfold Vector.PopBackAsserts at ha
    unfold Vector.Capacity RawMemory.Capacity at ha
    simp only [List.mem_cons, List.mem_singleton, List.not_mem_nil, or_false] at ha
    rcases ha with rfl | rfl
    · show (v.size_ != 0) = true
      simp
      omega
    · exact decide_eq_true hv
  · unfold Vector.IndexAsserts at ha
    unfold Vector.Capacity RawMemory.Capacity at ha
    simp only [List.mem_cons, List.mem_singleton, List.not_mem_nil, or_false] at ha
    rcases ha with rfl | rfl
    · exact decide_eq_true hi
    · show decide (i < v.data_.capacity_) = true
      apply decide_eq_true
      omega

theorem C19_vector_asserts_pass_witness :
    (vecOf [1, 2, 3] 4).Size ≤ (vecOf [1, 2, 3] 4).Capacity ∧
    (vecOf [1, 2, 3] 4).EmplaceAsserts intElem 1 (.ok 9) = [.index 1 4] ∧
    (vecOf [1, 2, 3] 3).EmplaceAsserts intElem 1 (.ok 9) = [.plus 1 6] ∧
    (vecOf [1, 2, 3] 4).PopBackAsserts = [.vector true, .plus 3 4] ∧
    (∀ a, a ∈ (vecOf [1, 2, 3] 4).EmplaceAsserts intElem 1 (.ok 9) → a.passes = true) :=
  have h := C19_vector_asserts_pass intElem (vecOf [1, 2, 3] 4) (by decide)
  ⟨by decide, by decide, by decide, by decide, h.1 1 (.ok 9) (by decide)⟩

end advanced_vector

theorem Store.lt_of_block_isSome {β : Type} {s : Store β} {p : Nat}
    (h : (s.block p).isSome = true) : p < s.blocks.length := by
  unfold Store.block at h
  by_contra hp
  rw [List.getElem?_eq_none (by omega)] at h
  cases h

theorem Store.block_alloc_old {β : Type} (s : Store β) (b : β) {p : Nat}
    (h : p < s.blocks.length) : (s.alloc b).1.block p = s.block p := by
  unfold Store.block Store.alloc
  simp only
  rw [List.getElem?_append_left h]

theorem Store.block_alloc_new {β : Type} (s : Store β) (b : β) :
    (s.alloc b).1.block (s.alloc b).2 = some b := by
  unfold Store.block Store.alloc
  simp

theorem Store.block_write_ne {β : Type} (s : Store β) (p q : Nat) (b : β) (h : q ≠ p) :
    (s.write p b).block q = s.block q := by
  unfold Store.write
  split
  · unfold Store.block
    simp only
    rw [List.getElem?_set_ne (by omega)]
  · rfl

theorem Store.block_write_same {β : Type} (s : Store β) (p : Nat) (b : β)
    (h : (s.block p).isSome = true) : (s.write p b).block p = some b := by
  have hlt := Store.lt_of_block_isSome h
  unfold Store.write
  split
  · unfold Store.block
    simp [hlt]
  · rename_i hn
    rw [hn] at h
    cases h

theorem Store.block_release_ne {β : Type} (s : Store β) (p q : Nat) (h : q ≠ p) :
    (s.release p).block q = s.block q := by
  unfold Store.release Store.block
  simp only
  rw [List.getElem?_set_ne (by omega)]

theorem Store.length_write {β : Type} (s : Store β) (p : Nat) (b : β) :
    (s.write p b).blocks.length = s.blocks.length := by
  unfold Store.write
  split <;> simp

theorem Store.block_writeAt_ne {β : Type} (s : Store β) (ptr : Option Nat) (b : β) {q : Nat}
    (h : ptr ≠ some q) : (s.writeAt ptr b).block q = s.block q := by
  unfold Store.writeAt
  cases ptr with
  | none => rfl
  | some p => exact Store.block_write_ne _ _ _ _ (by intro h'; subst h'; exact h rfl)

theorem Store.block_writeAt_same {β : Type} (s : Store β) (p : Nat) (b : β)
    (h : (s.block p).isSome = true) : (s.writeAt (some p) b).block p = some b :=
  Store.block_write_same s p b h

theorem Store.length_writeAt {β : Type} (s : Store β) (ptr : Option Nat) (b : β) :
    (s.writeAt ptr b).blocks.length = s.blocks.length := by
  unfold Store.writeAt
  cases ptr with
  | none => rfl
  | some p => exact Store.length_write _ _ _

theorem Store.block_releaseAt_ne {β : Type} (s : Store β) (ptr : Option Nat) {q : Nat}
    (h : ptr ≠ some q) : (s.releaseAt ptr).block q = s.block q := by
  unfold Store.releaseAt
  cases ptr with
  | none => rfl
  | some p => exact Store.block_release_ne _ _ _ (by intro h'; subst h'; exact h rfl)

theorem Store.block_append_none {β : Type} (s : Store β) {p : Nat} (h : p < s.blocks.length) :
    (Store.mk (s.blocks ++ [none])).block p = s.block p := by
  unfold Store.block
  simp only
  rw [List.getElem?_append_left h]

namespace simple_vector
variable {T : Type}

theorem simpleVector_eta (v : SimpleVector T) :
    SimpleVector.mk v.size_ v.capacity_ (ArrayPtr.mk v.items_.raw_ptr_) = v := by
  cases v with
  | mk sz cp it =>
    cases it with
    | mk rp => rfl

end simple_vector

namespace simple_vector
variable {T : Type}

end simple_vector

namespace advanced_vector
variable {T : Type}

theorem place_old (s : Store (Buf T)) (m : RawMemory T) {p : Nat}
    (h : p < s.blocks.length) : (place s m).1.block p = s.block p := by
  unfold place
  split
  · exact Store.block_alloc_old s _ h
  · rfl

theorem place_new (s : Store (Buf T)) (m : RawMemory T) :
    (place s m).2.bind (place s m).1.block = m.buffer_ := by
  unfold place
  split
  · rename_i l hl
    show (s.alloc l).1.block (s.alloc l).2 = _
    rw [Store.block_alloc_new, hl]
  · rename_i hl
    rw [hl]
    rfl

theorem place_fresh (s : Store (Buf T)) (m : RawMemory T) {q : Nat}
    (h : (place s m).2 = some q) :
    q = s.blocks.length ∧ ((place s m).1.block q).isSome = true := by
  unfold place at h ⊢
  split at h
  · simp only [Option.some.injEq] at h
    subst h
    simp only
    rw [Store.block_alloc_new]
    exact ⟨rfl, rfl⟩
  · cases h

theorem place_none (s : Store (Buf T)) (m : RawMemory T) (h : (place s m).2 = none) :
    (place s m).1 = s := by
  unfold place at h ⊢
  split at h
  · cases h
  · rfl

theorem get_eq_of_block {a : Obj} {s s1 : Store (Buf T)}
    (h : ∀ p, a.buffer_ = some p → s1.block p = s.block p) : a.get s1 = a.get s := by
  unfold Obj.get
  cases hp : a.buffer_ with
  | none => rfl
  | some p => simp only [Option.some_bind, h p hp]

theorem get_isSome {b : Obj} {s : Store (Buf T)} (hb : b.Owns s) :
    (b.get s).data_.buffer_.isSome = b.buffer_.isSome := by
  unfold Obj.get
  cases hq : b.buffer_ with
  | none => rfl
  | some q =>
    simp only [Option.some_bind]
    rw [hb q hq]
    rfl

theorem withSlots_isSome (m : RawMemory T) (l : Buf T) :
    (m.withSlots l).buffer_.isSome = m.buffer_.isSome := by
  unfold RawMemory.withSlots
  cases m.buffer_ <;> rfl

theorem slots_of_some {m : RawMemory T} {l : Buf T} (h : m.buffer_ = some l) :
    m.slots = l := by
  unfold RawMemory.slots
  rw [h]
  rfl

/-- A call on `b` leaves an object `a` with a block of its own as it was, whether the call
returns or throws. -/
theorem put_untouched {α : Type} {a b : Obj} {s : Store (Buf T)} (ha : a.Owns s)
    (hb : b.Owns s) (hab : a.Apart b) (r : Bool) (out : Outcome T α) :
    a.Untouched s (b.put s r out).1 (b.put s r out).2 := by
  have hne : ∀ p, a.buffer_ = some p → b.buffer_ ≠ some p := hab
  have key : ∀ p, a.buffer_ = some p → ((b.put s r out).1.block p = s.block p) := by
    intro p hp
    have hlt := Store.lt_of_block_isSome (ha p hp)
    unfold Obj.put
    cases r with
    | true =>
      simp only [if_true]
      cases out.result with
      | ok x =>
        simp only
        rw [Store.block_releaseAt_ne _ _ (hne p hp)]
        exact place_old s _ hlt
      | error e =>
        simp only
        rw [Store.block_append_none _ (by rw [Store.length_writeAt]; exact hlt)]
        exact Store.block_writeAt_ne _ _ _ (hne p hp)
    | false =>
      simp only [Bool.false_eq_true, if_false]
      exact Store.block_writeAt_ne _ _ _ (hne p hp)
  refine ⟨get_eq_of_block key, ?_, ?_, ?_⟩
  · intro p hp
    rw [key p hp]
    exact ha p hp
  · intro q hq
    unfold Obj.put at hq ⊢
    cases r with
    | true =>
      simp only [if_true] at hq ⊢
      cases hres : out.result with
      | ok x =>
        rw [hres] at hq
        simp only at hq ⊢
        obtain ⟨h1, h2⟩ := place_fresh s _ hq
        rw [Store.block_releaseAt_ne _ _ (by
          intro h
          have := Store.lt_of_block_isSome (hb q h)
          omega)]
        exact h2
      | error e =>
        rw [hres] at hq
        simp only at hq ⊢
        have := Store.lt_of_block_isSome (hb q hq)
        rw [Store.block_append_none _ (by rw [Store.length_writeAt]; exact this), hq,
          Store.block_writeAt_same _ _ _ (hb q hq)]
        rfl
    | false =>
      simp only [Bool.false_eq_true, if_false] at hq ⊢
      rw [hq, Store.block_writeAt_same _ _ _ (hb q hq)]
      rfl
  · intro p hp hq
    have hlt := Store.lt_of_block_isSome (ha p hp)
    unfold Obj.put at hq
    cases r with
    | true =>
      simp only [if_true] at hq
      cases hres : out.result with
      | ok x =>
        rw [hres] at hq
        simp only at hq
        have := (place_fresh s _ hq).1
        omega
      | error e =>
        rw [hres] at hq
        exact hab p hp hq
    | false =>
      simp only [Bool.false_eq_true, if_false] at hq
      exact hab p hp hq

/-- After a call that returned, the object denotes the container the call left. -/
theorem get_put {α : Type} {b : Obj} {s : Store (Buf T)} (hb : b.Owns s) (r : Bool)
    (out : Outcome T α) {x : α} (hok : out.result = .ok x)
    (h : r = false → out.vec.data_.buffer_.isSome = b.buffer_.isSome) :
    (b.put s r out).2.get (b.put s r out).1 = out.vec := by
  unfold Obj.put Obj.get
  cases r with
  | true =>
    simp only [if_true, hok]
    have hn := place_new s out.vec.data_
    cases hq : (place s out.vec.data_).2 with
    | none =>
      rw [hq] at hn
      simp only [Option.none_bind] at hn ⊢
      rw [hn]
    | some q =>
      obtain ⟨h1, h2⟩ := place_fresh s _ hq
      rw [hq] at hn
      simp only [Option.some_bind] at hn ⊢
      rw [Store.block_releaseAt_ne _ _ (by
        intro h
        have := Store.lt_of_block_isSome (hb q h)
        omega), hn]
  | false =>
    simp only [Bool.false_eq_true, if_false]
    have h' := h rfl
    cases hq : b.buffer_ with
    | none =>
      rw [hq] at h'
      simp only [Option.none_bind]
      cases ha : out.vec.data_.buffer_ with
      | none =>
        rw [← ha]
      | some l => rw [ha] at h'; cases h'
    | some q =>
      rw [hq] at h'
      simp only [Option.some_bind]
      rw [Store.block_writeAt_same _ _ _ (hb q hq)]
      cases ha : out.vec.data_.buffer_ with
      | none => rw [ha] at h'; cases h'
      | some l =>
        rw [slots_of_some ha, ← ha]

/-- A call that does not reallocate keeps the pointer. -/
theorem Emplace_inplace (E : Elem T) (v : Vector T) (p : Nat) (newElem : Except Exn T)
    (hf : v.size_ ≠ v.Capacity) :
    (v.Emplace E p newElem).vec.data_.buffer_.isSome = v.data_.buffer_.isSome := by
  unfold Vector.Emplace
  rw [if_neg hf]
  split
  · split
    · rfl
    · exact withSlots_isSome _ _
  · unfold Vector.EmplaceShift
    repeat' split
    all_goals first | rfl | exact withSlots_isSome _ _

theorem Erase_inplace (E : Elem T) (v : Vector T) (p : Nat) :
    (v.Erase E p).vec.data_.buffer_.isSome = v.data_.buffer_.isSome := by
  unfold Vector.Erase
  split <;> exact withSlots_isSome _ _

theorem assignAt_inplace (E : Elem T) (v : Vector T) (i : Nat) (x : T) :
    (v.assignAt E i x).vec.data_.buffer_.isSome = v.data_.buffer_.isSome := by
  unfold Vector.assignAt
  exact withSlots_isSome _ _

/-- `Emplace` on the object `b`, in a store where `a` has a block of its own: `a` is left
as it was whether the call returns or throws, and when the call returns `b` denotes what
the call on the container gives. -/
theorem Obj.Emplace_spec (E : Elem T) {a b : Obj} {s : Store (Buf T)} (ha : a.Owns s)
    (hb : b.Owns s) (hab : a.Apart b) (p : Nat) (newElem : Except Exn T) :
    a.Untouched s (Obj.Emplace E s b p newElem).1.1 (Obj.Emplace E s b p newElem).1.2 ∧
    (Obj.Emplace E s b p newElem).2 = ((b.get s).Emplace E p newElem).result ∧
    (∀ it, (Obj.Emplace E s b p newElem).2 = .ok it →
      (Obj.Emplace E s b p newElem).1.2.get (Obj.Emplace E s b p newElem).1.1 =
        ((b.get s).Emplace E p newElem).vec) := by
  unfold Obj.Emplace
  refine ⟨put_untouched ha hb hab _ _, rfl, fun it hit => ?_⟩
  refine get_put hb _ _ hit (fun hr => ?_)
  rw [Emplace_inplace E _ p newElem (by simpa using hr), get_isSome hb]

theorem Obj.Erase_spec (E : Elem T) {a b : Obj} {s : Store (Buf T)} (ha : a.Owns s)
    (hb : b.Owns s) (hab : a.Apart b) (p : Nat) :
    a.Untouched s (Obj.Erase E s b p).1.1 (Obj.Erase E s b p).1.2 ∧
    (Obj.Erase E s b p).2 = ((b.get s).Erase E p).result ∧
    (∀ it, (Obj.Erase E s b p).2 = .ok it →
      (Obj.Erase E s b p).1.2.get (Obj.Erase E s b p).1.1 = ((b.get s).Erase E p).vec) := by
  unfold Obj.Erase
  refine ⟨put_untouched ha hb hab _ _, rfl, fun it hit => ?_⟩
  refine get_put hb _ _ hit (fun _ => ?_)
  rw [Erase_inplace, get_isSome hb]

theorem Obj.assignAt_spec (E : Elem T) {a b : Obj} {s : Store (Buf T)} (ha : a.Owns s)
    (hb : b.Owns s) (hab : a.Apart b) (i : Nat) (x : T) :
    a.Untouched s (Obj.assignAt E s b i x).1.1 (Obj.assignAt E s b i x).1.2 ∧
    (Obj.assignAt E s b i x).2 = ((b.get s).assignAt E i x).result ∧
    ((Obj.assignAt E s b i x).2 = .ok () →
      (Obj.assignAt E s b i x).1.2.get (Obj.assignAt E s b i x).1.1 =
        ((b.get s).assignAt E i x).vec) := by
  unfold Obj.assignAt
  refine ⟨put_untouched ha hb hab _ _, rfl, fun hit => ?_⟩
  refine get_put hb _ _ hit (fun _ => ?_)
  rw [assignAt_inplace, get_isSome hb]

end advanced_vector

namespace advanced_vector
variable {T : Type}

end advanced_vector

namespace simple_vector
variable {T : Type}

end simple_vector

variable {T : Type}

